import Mathlib

set_option linter.unusedSectionVars false

/-!
# CubicalRipser (3-dim): the column reduction of `compute_pairs.cpp`

A shallow embedding of `ComputePairs::pop_pivot`, `ComputePairs::get_pivot`,
`ComputePairs::assemble_columns_to_reduce` and `ComputePairs::compute_pairs_main`.

Birth values are C++ `double`s that are only ever compared (`<`, `==`, `!=`) and copied; they are
modelled by an arbitrary linearly ordered type `B` with a zero (NaN-free doubles). Cell indices and
dimensions are machine integers on which this file performs no arithmetic; they are modelled by
`Int`, column positions by `Nat`.

The `do ... while (true)` loop of `compute_pairs_main` is run for a bounded number of passes
(`fuel`); it writes to the pivot index, to `recorded_wc` and to the pair list only in the pass that
breaks, so a run that is cut off has the state in which the unfinished column was entered.
-/

namespace CubicalRipser

/-! ## Data model -/

/-- `BirthdayIndex`: a cell given by `(birthday, index, dim)`. The class is declared in
`birthday_index.h`; only its three fields are used by `compute_pairs.cpp`. -/
structure BirthdayIndex (B : Type) where
  birthday : B
  index : Int
  dim : Int
deriving DecidableEq, Repr

/-- `WritePairs(dim, birth, death, x, y, z, print)`: one record of the persistence diagram
(the `print` flag only echoes to the console and is not kept). -/
structure WritePairs (B : Type) where
  dim : Int
  birth : B
  death : B
  birth_x : Int
  birth_y : Int
  birth_z : Int
deriving DecidableEq, Repr

/-- The members of `DenseCubicalGrids` that `compute_pairs.cpp` and `cubicalripser.cpp` read. The
class lives in `dense_cubical_grids.h`, so its accessors are taken as they are (fields of the
grid); `dim` is the dimension of the grid (1, 2 or 3). -/
structure DenseCubicalGrids (B : Type) where
  dim : Int
  ax : Nat
  ay : Nat
  az : Nat
  threshold : B
  get : Nat → Nat → Nat → B
  getIndex : Nat → Nat → Nat → Nat → Int
  getBirthday : Nat → Nat → Nat → Nat → Int → B
  getXYZM : Int → List Int

section Definitions

variable {B : Type} [LinearOrder B]

/-- Modelled from the spec: `BirthdayIndexComparator` (declared in `birthday_index.h`). The spec
gives the order in which a priority queue serves cells: ascending birth, ties broken by descending
index. As the `Compare` argument of `std::priority_queue` and `std::sort` this is the relation
"`o1` is served after `o2`": `o1` has the larger birth, or the same birth and the smaller index. -/
def BirthdayIndexComparator (o1 o2 : BirthdayIndex B) : Bool :=
  if o1.birthday = o2.birthday then decide (o1.index < o2.index)
  else decide (o2.birthday < o1.birthday)

/-- Cell `a` is served no later than cell `b`: the comparator does not put `a` below `b`. This is
the order of a priority queue read from the top down. -/
def QueueOrder (a b : BirthdayIndex B) : Prop := BirthdayIndexComparator a b = false

/-- The order of a range sorted by `std::sort` with the comparator: a later element is never put
strictly before an earlier one. -/
def SortOrder (a b : BirthdayIndex B) : Prop := BirthdayIndexComparator b a = false

instance QueueOrder.decidableRel : DecidableRel (QueueOrder : BirthdayIndex B → _ → Prop) :=
  fun a b => inferInstanceAs (Decidable (BirthdayIndexComparator a b = false))

instance SortOrder.decidableRel : DecidableRel (SortOrder : BirthdayIndex B → _ → Prop) :=
  fun a b => inferInstanceAs (Decidable (BirthdayIndexComparator b a = false))

instance QueueOrder.isTotal : IsTotal (BirthdayIndex B) QueueOrder where
  total a b := by
    unfold QueueOrder BirthdayIndexComparator
    rcases lt_trichotomy a.birthday b.birthday with h | h | h
    · left; simp [h.ne, h.not_lt]
    · simp only [h, if_true, decide_eq_false_iff_not]; omega
    · right; simp [h.ne, h.not_lt]

instance QueueOrder.isTrans : IsTrans (BirthdayIndex B) QueueOrder where
  trans a b c := by
    have key : ∀ x y : BirthdayIndex B, QueueOrder x y ↔
        x.birthday < y.birthday ∨ (x.birthday = y.birthday ∧ y.index ≤ x.index) := by
      intro x y
      unfold QueueOrder BirthdayIndexComparator
      rcases lt_trichotomy x.birthday y.birthday with h | h | h
      · simp [h.ne, h.not_lt, h]
      · simp [h]
      · simp [h.ne', h.not_lt, h]
    rw [key, key, key]
    rintro (h1 | ⟨h1, h1i⟩) (h2 | ⟨h2, h2i⟩)
    · exact Or.inl (lt_trans h1 h2)
    · exact Or.inl (h2 ▸ h1)
    · exact Or.inl (h1 ▸ h2)
    · exact Or.inr ⟨h1.trans h2, h2i.trans h1i⟩

instance SortOrder.isTotal : IsTotal (BirthdayIndex B) SortOrder where
  total a b := (QueueOrder.isTotal.total b a)

instance SortOrder.isTrans : IsTrans (BirthdayIndex B) SortOrder where
  trans _ _ _ h1 h2 := QueueOrder.isTrans.trans _ _ _ h2 h1

/-- The value `BirthdayIndex(0, -1, 0)` that `pop_pivot` returns for "no pivot". -/
def NONE [Zero B] : BirthdayIndex B := ⟨0, -1, 0⟩

/-! ## The priority queue -/

/-- `std::priority_queue<BirthdayIndex, vector<BirthdayIndex>, BirthdayIndexComparator>`: the
entries listed from the top down. Among entries that the comparator does not separate (same birth
and index) the standard leaves the serving order open; here the entry pushed last is served
first. -/
structure PQ (B : Type) [LinearOrder B] where
  data : List (BirthdayIndex B)
  sorted : data.Sorted QueueOrder

namespace PQ

instance : DecidableEq (PQ B) := fun p q =>
  if h : p.data = q.data then isTrue (by cases p; cases q; cases h; rfl)
  else isFalse (fun e => h (e ▸ rfl))

/-- The queue a declaration without initialiser gives. -/
def nil : PQ B := ⟨[], List.sorted_nil⟩

/-- `column.empty()`. -/
def empty (q : PQ B) : Bool := q.data.isEmpty

/-- `column.top()` (undefined in C++ on an empty queue; `NONE` here). -/
def top [Zero B] (q : PQ B) : BirthdayIndex B := q.data.headD NONE

/-- `column.pop()`. -/
def pop (q : PQ B) : PQ B := ⟨q.data.tail, q.sorted.tail⟩

/-- `column.push(e)`. -/
def push (q : PQ B) (e : BirthdayIndex B) : PQ B :=
  ⟨q.data.orderedInsert QueueOrder e, q.sorted.orderedInsert e _⟩

/-- Pushing a sequence of cells, first to last. -/
def pushAll (q : PQ B) (es : List (BirthdayIndex B)) : PQ B := es.foldl push q

end PQ

/-! ## `pop_pivot` and `get_pivot` -/

variable [Zero B]

/-- The `while` loop of `pop_pivot` (lines 141-149): `pivot` is the current candidate, already
popped, and the list is the queue content from the top down. Returns the value `pop_pivot` returns
and the queue it leaves. -/
def pop_pivot_loop (pivot : BirthdayIndex B) :
    (l : List (BirthdayIndex B)) → l.Sorted QueueOrder → BirthdayIndex B × PQ B
  | [], _ => (pivot, PQ.nil)
  | t :: rest, h =>
    if t.index = pivot.index then
      match rest, h.of_cons with
      | [], _ => (NONE, PQ.nil)
      | p :: rest2, h2 => pop_pivot_loop p rest2 h2.of_cons
    else (pivot, ⟨t :: rest, h⟩)

/-- The body of `pop_pivot` on the content of the queue (lines 135-151). -/
def pop_pivot_top : (l : List (BirthdayIndex B)) → l.Sorted QueueOrder → BirthdayIndex B × PQ B
  | [], _ => (NONE, PQ.nil)
  | p :: rest, h => pop_pivot_loop p rest h.of_cons

/-- `ComputePairs::pop_pivot(column)`: the returned cell and the queue afterwards. -/
def pop_pivot (column : PQ B) : BirthdayIndex B × PQ B :=
  pop_pivot_top column.data column.sorted

/-- `ComputePairs::get_pivot(column)`: the returned cell and the queue afterwards. -/
def get_pivot (column : PQ B) : BirthdayIndex B × PQ B :=
  let result := pop_pivot column
  if result.1.index ≠ -1 then (result.1, result.2.push result.1) else (result.1, result.2)

/-! ## `assemble_columns_to_reduce` -/

/-- `unordered_map::find(k)`: the mapped value, or nothing for `end()`. -/
def map_find {K V : Type} [DecidableEq K] (m : List (K × V)) (k : K) : Option V :=
  (m.find? (fun e => decide (e.1 = k))).map Prod.snd

/-- `unordered_map::insert(make_pair(k, v))`: adds the entry unless the key is present already, in
which case the map is left as it is. -/
def map_insert {K V : Type} [DecidableEq K] (m : List (K × V)) (k : K) (v : V) : List (K × V) :=
  match map_find m k with
  | some _ => m
  | none => m ++ [(k, v)]

/-- The members of a `ComputePairs` object that its methods read and write; `wp` is the vector the
object appends to. -/
structure ComputePairs (B : Type) where
  dcg : DenseCubicalGrids B
  dim : Int
  pivot_column_index : List (Int × Nat)
  wp : List (WritePairs B)

/-- The cells pushed by the loops of lines 169-179 (`dim == 0`), in the order of the pushes. -/
def assemble_vertices (dcg : DenseCubicalGrids B) : List (BirthdayIndex B) :=
  (List.range dcg.az).flatMap fun z =>
    (List.range dcg.ay).flatMap fun y =>
      (List.range dcg.ax).flatMap fun x =>
        let birthday := dcg.get x y z
        if birthday < dcg.threshold then [⟨birthday, dcg.getIndex x y z 0, 0⟩] else []

/-- The cells pushed by the loops of lines 181-195 (`dim != 0`), in the order of the pushes. -/
def assemble_cells (dcg : DenseCubicalGrids B) (pivot_column_index : List (Int × Nat))
    (dim : Int) : List (BirthdayIndex B) :=
  (List.range dcg.az).flatMap fun z =>
    (List.range dcg.ay).flatMap fun y =>
      (List.range dcg.ax).flatMap fun x =>
        (List.range 3).flatMap fun m =>
          let ind := dcg.getIndex x y z m
          if (map_find pivot_column_index ind).isNone then
            let birthday := dcg.getBirthday x y z m dim
            if birthday < dcg.threshold then [⟨birthday, ind, dim⟩] else []
          else []

/-- `ComputePairs::assemble_columns_to_reduce(ctr, _dim)`: the object afterwards (its `dim` is
set) and the new content of `ctr`. `std::sort` is free in how it arranges cells the comparator does
not separate; the insertion sort used here keeps them in their order. -/
def assemble_columns_to_reduce (cp : ComputePairs B) (_ctr : List (BirthdayIndex B)) (_dim : Int) :
    ComputePairs B × List (BirthdayIndex B) :=
  let cp1 := { cp with dim := _dim }
  let ctr := if cp1.dim = 0 then assemble_vertices cp1.dcg
    else assemble_cells cp1.dcg cp1.pivot_column_index cp1.dim
  (cp1, ctr.insertionSort SortOrder)

/-! ## `compute_pairs_main` -/

/-- The variables the coface loop of lines 68-78 works on. -/
structure Scan (B : Type) where
  coface_entries : List (BirthdayIndex B)
  pivot : BirthdayIndex B
  might_be_apparent_pair : Bool
  found_persistence_pair : Bool
deriving DecidableEq

/-- The `while` loop of lines 68-78 over the cofaces the enumerator still has to deliver for
`ctr[j]` (`ctrj`). -/
def scan_cofaces (pivot_column_index : List (Int × Nat)) (ctrj : BirthdayIndex B) :
    List (BirthdayIndex B) → Scan B → Scan B
  | [], s => s
  | nextCoface :: more, s =>
    if s.found_persistence_pair then s
    else
      let s1 := { s with coface_entries := s.coface_entries ++ [nextCoface] }
      if s1.might_be_apparent_pair && decide (ctrj.birthday = nextCoface.birthday) then
        if (map_find pivot_column_index nextCoface.index).isNone then
          scan_cofaces pivot_column_index ctrj more
            { s1 with pivot := nextCoface, found_persistence_pair := true }
        else
          scan_cofaces pivot_column_index ctrj more { s1 with might_be_apparent_pair := false }
      else scan_cofaces pivot_column_index ctrj more s1

/-- The variables of one pass of the outer `for` loop that live across the passes of the
`do ... while (true)` loop (declared in lines 55-62). -/
structure Locals (B : Type) [LinearOrder B] where
  j : Nat
  pivot : BirthdayIndex B
  might_be_apparent_pair : Bool
  found_persistence_pair : Bool
  working_coboundary : PQ B
deriving DecidableEq

/-- What `compute_pairs_main` builds up over the columns: the pivot index of the object, the
local `recorded_wc`, and the vector of pairs. -/
structure State (B : Type) [LinearOrder B] where
  pivot_column_index : List (Int × Nat)
  recorded_wc : List (Nat × PQ B)
  wp : List (WritePairs B)
deriving DecidableEq

/-- How one pass of the `do` body ends: with `continue` (`again`) or with `break` (`exit`). -/
inductive Step (B : Type) [LinearOrder B] where
  | again (l : Locals B)
  | exit (st : State B) (l : Locals B)

/-- The two lines `vector<int> loc(dcg->getXYZM(idx)); wp->push_back(WritePairs(d, birth, death,
loc[0], loc[1], loc[2], print));` (a read outside of `loc` is taken as 0). -/
def push_pair (dcg : DenseCubicalGrids B) (wp : List (WritePairs B)) (d : Int) (birth death : B)
    (idx : Int) : List (WritePairs B) :=
  let loc := dcg.getXYZM idx
  wp ++ [⟨d, birth, death, loc.getD 0 0, loc.getD 1 0, loc.getD 2 0⟩]

/-- Lines 65-78 of a pass with the local variables `l`: the enumerator is set to `ctr[j]` and its
cofaces are scanned. `cofaces c` is the sequence of cofaces that `SimplexCoboundaryEnumerator`
delivers for the cell `c` (the enumerator is declared in `simplex_coboundary_enumerator.h`). -/
def scan_column (cofaces : BirthdayIndex B → List (BirthdayIndex B))
    (ctr : List (BirthdayIndex B)) (st : State B) (l : Locals B) : Scan B :=
  scan_cofaces st.pivot_column_index (ctr.getD l.j NONE) (cofaces (ctr.getD l.j NONE))
    { coface_entries := [], pivot := l.pivot,
      might_be_apparent_pair := l.might_be_apparent_pair,
      found_persistence_pair := l.found_persistence_pair }

/-- Lines 89-101: the working coboundary after the saved queue of column `j`, or else the cofaces
just collected, have been pushed. The saved queue is copied (`auto wc`) and its entries are pushed
in the order in which it serves them. -/
def extend_working (st : State B) (l : Locals B) (coface_entries : List (BirthdayIndex B)) :
    PQ B :=
  match map_find st.recorded_wc l.j with
  | some wc => l.working_coboundary.pushAll wc.data
  | none => l.working_coboundary.pushAll coface_entries

/-- One pass of the body of the `do ... while (true)` loop (lines 65-126) for column `i`. -/
def do_body (dcg : DenseCubicalGrids B) (dim : Int)
    (cofaces : BirthdayIndex B → List (BirthdayIndex B)) (ctr : List (BirthdayIndex B)) (i : Nat)
    (st : State B) (l : Locals B) : Step B :=
  let birth := (ctr.getD i NONE).birthday
  let idx := (ctr.getD i NONE).index
  let s := scan_column cofaces ctr st l
  if s.found_persistence_pair then
    let death := s.pivot.birthday
    Step.exit
      { st with
        wp := if birth ≠ death then push_pair dcg st.wp dim birth death idx else st.wp
        pivot_column_index := map_insert st.pivot_column_index s.pivot.index i }
      { l with pivot := s.pivot, might_be_apparent_pair := s.might_be_apparent_pair,
               found_persistence_pair := s.found_persistence_pair }
  else
    let r := get_pivot (extend_working st l s.coface_entries)
    let l1 : Locals B :=
      { j := l.j, pivot := r.1, might_be_apparent_pair := s.might_be_apparent_pair,
        found_persistence_pair := s.found_persistence_pair, working_coboundary := r.2 }
    if r.1.index ≠ -1 then
      match map_find st.pivot_column_index r.1.index with
      | some j2 => Step.again { l1 with j := j2 }
      | none =>
        let death := r.1.birthday
        Step.exit
          { recorded_wc := map_insert st.recorded_wc i r.2
            wp := if birth ≠ death then push_pair dcg st.wp dim birth death idx else st.wp
            pivot_column_index := map_insert st.pivot_column_index r.1.index i }
          l1
    else
      Step.exit
        { st with
          wp := if birth ≠ dcg.threshold then push_pair dcg st.wp 0 birth dcg.threshold idx
            else st.wp }
        l1

/-- The `do ... while (true)` loop of column `i`, run for at most `fuel` passes: the state and the
local variables at the `break`, or nothing when the loop has not left within `fuel` passes. -/
def column_loop (dcg : DenseCubicalGrids B) (dim : Int)
    (cofaces : BirthdayIndex B → List (BirthdayIndex B)) (ctr : List (BirthdayIndex B)) (i : Nat)
    (st : State B) : Nat → Locals B → Option (State B × Locals B)
  | 0, _ => none
  | fuel + 1, l =>
    match do_body dcg dim cofaces ctr i st l with
    | Step.again l2 => column_loop dcg dim cofaces ctr i st fuel l2
    | Step.exit st2 l2 => some (st2, l2)

/-- The values of `j`, `pivot`, `might_be_apparent_pair`, `found_persistence_pair` and
`working_coboundary` when the `do` loop of column `i` is entered (lines 55-62). -/
def initial_locals (i : Nat) : Locals B :=
  { j := i, pivot := NONE, might_be_apparent_pair := true, found_persistence_pair := false,
    working_coboundary := PQ.nil }

/-- One pass of the `for` loop (lines 55-128) for column `i`, the inner loop bounded by `fuel`. -/
def reduce_column (dcg : DenseCubicalGrids B) (dim : Int)
    (cofaces : BirthdayIndex B → List (BirthdayIndex B)) (ctr : List (BirthdayIndex B))
    (fuel : Nat) (i : Nat) (st : State B) : Option (State B × Locals B) :=
  column_loop dcg dim cofaces ctr i st fuel (initial_locals i)

/-- The `for` loop of lines 54-129 from column `i` on, for `n` more columns. The flag tells
whether every inner loop has left within `fuel` passes; when one has not, the state is the one
in which that column was entered (the inner loop writes to the state only at a `break`). -/
def for_columns (dcg : DenseCubicalGrids B) (dim : Int)
    (cofaces : BirthdayIndex B → List (BirthdayIndex B)) (ctr : List (BirthdayIndex B))
    (fuel : Nat) : Nat → Nat → State B → State B × Bool
  | 0, _, st => (st, true)
  | n + 1, i, st =>
    match reduce_column dcg dim cofaces ctr fuel i st with
    | none => (st, false)
    | some (st2, _) => for_columns dcg dim cofaces ctr fuel n (i + 1) st2

/-- The state in which `compute_pairs_main` enters its `for` loop (lines 45-52). -/
def initial_state (cp : ComputePairs B) : State B :=
  { pivot_column_index := [], recorded_wc := [], wp := cp.wp }

/-- `ComputePairs::compute_pairs_main(ctr)` with every inner loop bounded by `fuel` passes: the
final state (pivot index, `recorded_wc`, pairs) and whether all columns were completed. -/
def compute_pairs_main (cp : ComputePairs B) (cofaces : BirthdayIndex B → List (BirthdayIndex B))
    (ctr : List (BirthdayIndex B)) (fuel : Nat) : State B × Bool :=
  for_columns cp.dcg cp.dim cofaces ctr fuel ctr.length 0 (initial_state cp)

/-- The object after `compute_pairs_main`: its pivot index and pairs are those of the run. -/
def ComputePairs.after (cp : ComputePairs B) (st : State B) : ComputePairs B :=
  { cp with pivot_column_index := st.pivot_column_index, wp := st.wp }

/-! ## The main program (`cubicalripser.cpp`) -/

/-- The methods of `config.method`; the enumerations and `Config` are declared in `config.h`, their
constants and members are taken from their uses in `main`. -/
inductive calculation_method where
  | LINKFIND
  | COMPUTEPAIRS
  | ALEXANDER
deriving DecidableEq, Repr

/-- The values of `config.location`. -/
inductive output_location where
  | LOC_BIRTH
  | LOC_DEATH
  | LOC_NONE
deriving DecidableEq, Repr

/-- The members of `Config` that `main` reads and writes. -/
structure Config (B : Type) where
  filename : String
  output_filename : String
  threshold : B
  maxdim : Int
  method : calculation_method
  min_cache_size : Int
  print : Bool
  location : output_location
deriving DecidableEq, Repr

/-- How a part of `main` ends: it goes on with a value, the program leaves through `exit(code)`
(`print_usage_and_exit`), or it is aborted (an exception of `stod` or `stoi` that nobody catches,
or an option that is the last argument and reads its value from `argv[argc]`). -/
inductive Parsed (α : Type) where
  | ok (value : α)
  | exit (code : Int)
  | abort
deriving DecidableEq, Repr

/-- The argument loop of `main` (lines 66-109) on the arguments after the program name. `stod`
gives the value and `next_pos` of `std::stod`, `stoi` the value of `std::stoi`; neither gives a
value when the library function throws. -/
def parse_args {D : Type} (stod : String → Option (D × Nat)) (stoi : String → Option Int) :
    List String → Config D → Parsed (Config D)
  | [], config => Parsed.ok config
  | arg :: rest, config =>
    if arg = "--help" then Parsed.exit 0
    else if arg = "--threshold" then
      match rest with
      | [] => Parsed.abort
      | parameter :: rest2 =>
        match stod parameter with
        | none => Parsed.abort
        | some (value, next_pos) =>
          if next_pos ≠ parameter.utf8ByteSize then Parsed.exit (-1)
          else parse_args stod stoi rest2 { config with threshold := value }
    else if arg = "--maxdim" then
      match rest with
      | [] => Parsed.abort
      | parameter :: rest2 =>
        match stoi parameter with
        | none => Parsed.abort
        | some value => parse_args stod stoi rest2 { config with maxdim := value }
    else if arg = "--method" then
      match rest with
      | [] => Parsed.abort
      | parameter :: rest2 =>
        if parameter = "link_find" then
          parse_args stod stoi rest2 { config with method := calculation_method.LINKFIND }
        else if parameter = "compute_pairs" then
          parse_args stod stoi rest2 { config with method := calculation_method.COMPUTEPAIRS }
        else Parsed.exit (-1)
    else if arg = "--output" then
      match rest with
      | [] => Parsed.abort
      | parameter :: rest2 =>
        parse_args stod stoi rest2 { config with output_filename := parameter }
    else if arg = "--min_cache_size" then
      match rest with
      | [] => Parsed.abort
      | parameter :: rest2 =>
        match stoi parameter with
        | none => Parsed.abort
        | some value => parse_args stod stoi rest2 { config with min_cache_size := value }
    else if arg = "--print" then parse_args stod stoi rest { config with print := true }
    else if arg = "--top_dim" then
      parse_args stod stoi rest { config with method := calculation_method.ALEXANDER }
    else if arg = "--location" then
      match rest with
      | [] => Parsed.abort
      | parameter :: rest2 =>
        if parameter = "birth" then
          parse_args stod stoi rest2 { config with location := output_location.LOC_BIRTH }
        else if parameter = "death" then
          parse_args stod stoi rest2 { config with location := output_location.LOC_DEATH }
        else if parameter = "none" then
          parse_args stod stoi rest2 { config with location := output_location.LOC_NONE }
        else Parsed.exit (-1)
    else if ¬ config.filename = "" then Parsed.exit (-1)
    else parse_args stod stoi rest { config with filename := arg }

/-- What the end of `main` (lines 213-265) leaves behind: the value `main` returns, the lines
sent to `cerr`, and the pairs whose fields have reached the output file. -/
structure Finish (B : Type) where
  returned : Int
  cerr : List String
  records : List (WritePairs B)
deriving DecidableEq, Repr

/-- The CSV branch (lines 217-232) and the DIPHA branch (lines 246-263): the file is opened, a
failure to open is reported on `cerr`, the pairs are written (the stream drops what is written to
a file that is not open), the file is closed, and `main` returns 0 (line 265). `is_open` is the
value of `writing_file.is_open()`. -/
def write_stream (is_open : Bool) (writepairs : List (WritePairs B)) : Finish B :=
  { returned := 0
    cerr := if !is_open then [" error: open file for output failed! "] else []
    records := if is_open then writepairs else [] }

/-- Lines 213-265: the branch is chosen by the substring `.csv` or `.npy` of the output name; the
NPY branch hands over to `npy::SaveArrayAsNumpy` (`npy.hpp`), whose outcome is taken as given. -/
def main_write (config : Config B) (is_open : Bool) (writepairs : List (WritePairs B))
    (SaveArrayAsNumpy : Finish B) : Finish B :=
  if ".csv".toList <:+: config.output_filename.toList then write_stream is_open writepairs
  else if ".npy".toList <:+: config.output_filename.toList then SaveArrayAsNumpy
  else write_stream is_open writepairs

/-- `config.maxdim = std::min<uint8_t>(config.maxdim, dcg->dim - 1)`: both arguments are
converted to `uint8_t`. -/
def clamp_maxdim (maxdim : Int) (dcg : DenseCubicalGrids B) : Int :=
  min (maxdim % 256) ((dcg.dim - 1) % 256)

/-- A call that `main` makes on the objects `jp` and `cp`, with what the call is given:
`jp -> joint_pairs_main(ctr, d)` on the edges that `jp -> enum_edges(edges, ctr)` has collected,
or `cp -> compute_pairs_main(ctr)` with the member `dim` of `cp` and the content of `ctr` at the
time of the call. -/
inductive Call (B : Type) where
  | joint_pairs_main (edges : List Nat) (d : Int)
  | compute_pairs_main (dim : Int) (ctr : List (BirthdayIndex B))

/-- The dimension a call computes: the argument `d` of `joint_pairs_main`, the member `dim` of
the object for `compute_pairs_main`. -/
def Call.dimension {B : Type} : Call B → Int
  | Call.joint_pairs_main _ d => d
  | Call.compute_pairs_main dim _ => dim

/-- What a method of `main` has done: the pair list, the column list, the calls made in their
order, and whether all of them returned. -/
structure MainRun (B : Type) where
  writepairs : List (WritePairs B)
  ctr : List (BirthdayIndex B)
  calls : List (Call B)
  finished : Bool

/-- `new ComputePairs(dcg, writepairs, config)` (lines 33-38): the object starts with `dim = 1`
and an empty pivot index. -/
def new_ComputePairs (dcg : DenseCubicalGrids B) (writepairs : List (WritePairs B)) :
    ComputePairs B :=
  { dcg := dcg, dim := 1, pivot_column_index := [], wp := writepairs }

/-- `case COMPUTEPAIRS` of `main` (lines 168-190). A call is made only when the one before has
returned. -/
def case_COMPUTEPAIRS (config : Config B) (dcg : DenseCubicalGrids B)
    (cofaces : BirthdayIndex B → List (BirthdayIndex B)) (fuel : Nat)
    (writepairs : List (WritePairs B)) : MainRun B :=
  let maxdim := clamp_maxdim config.maxdim dcg
  let cp := new_ComputePairs dcg writepairs
  let a0 := assemble_columns_to_reduce cp [] 0
  let r0 := compute_pairs_main a0.1 cofaces a0.2 fuel
  let c0 := Call.compute_pairs_main a0.1.dim a0.2
  if !r0.2 then ⟨r0.1.wp, a0.2, [c0], false⟩
  else if maxdim > 0 then
    let a1 := assemble_columns_to_reduce (a0.1.after r0.1) a0.2 1
    let r1 := compute_pairs_main a1.1 cofaces a1.2 fuel
    let c1 := Call.compute_pairs_main a1.1.dim a1.2
    if !r1.2 then ⟨r1.1.wp, a1.2, [c0, c1], false⟩
    else if maxdim > 1 then
      let a2 := assemble_columns_to_reduce (a1.1.after r1.1) a1.2 2
      let r2 := compute_pairs_main a2.1 cofaces a2.2 fuel
      ⟨r2.1.wp, a2.2, [c0, c1, Call.compute_pairs_main a2.1.dim a2.2], r2.2⟩
    else ⟨r1.1.wp, a1.2, [c0, c1], true⟩
  else ⟨r0.1.wp, a0.2, [c0], true⟩

/-- `case LINKFIND` of `main` (lines 138-166). `joint edges writepairs` is what
`jp -> enum_edges(edges, ctr); jp -> joint_pairs_main(ctr, 0);` leaves in the pair list and in
`ctr` (`JointPairs` is declared in `joint_pairs.h`). The reduction of dimension 1 runs on that
`ctr`, without a call of `assemble_columns_to_reduce`, on an object whose `dim` is the 1 its
constructor sets. -/
def case_LINKFIND (config : Config B) (dcg : DenseCubicalGrids B)
    (joint : List Nat → List (WritePairs B) → List (WritePairs B) × List (BirthdayIndex B))
    (cofaces : BirthdayIndex B → List (BirthdayIndex B)) (fuel : Nat)
    (writepairs : List (WritePairs B)) : MainRun B :=
  let maxdim := clamp_maxdim config.maxdim dcg
  let edges := if dcg.dim = 1 then [0] else if dcg.dim = 2 then [0, 1] else [0, 1, 2]
  let j := joint edges writepairs
  let c0 : Call B := Call.joint_pairs_main edges 0
  if maxdim > 0 then
    let cp := new_ComputePairs dcg j.1
    let r1 := compute_pairs_main cp cofaces j.2 fuel
    let c1 := Call.compute_pairs_main cp.dim j.2
    if !r1.2 then ⟨r1.1.wp, j.2, [c0, c1], false⟩
    else if maxdim > 1 then
      let a2 := assemble_columns_to_reduce (cp.after r1.1) j.2 2
      let r2 := compute_pairs_main a2.1 cofaces a2.2 fuel
      ⟨r2.1.wp, a2.2, [c0, c1, Call.compute_pairs_main a2.1.dim a2.2], r2.2⟩
    else ⟨r1.1.wp, j.2, [c0, c1], true⟩
  else ⟨j.1, j.2, [c0], true⟩

/-- Following the claim's words, the stage for dimension `d`:
`assemble_columns_to_reduce(ctr, d)` followed by `compute_pairs_main(ctr)`, on the object and
the column list that the stage before has left (entered only when that stage has completed). The
result is the object, the column list, and whether the reduction completed. -/
def stage_by_claim (cofaces : BirthdayIndex B → List (BirthdayIndex B)) (fuel : Nat)
    (s : ComputePairs B × List (BirthdayIndex B) × Bool) (d : Int) :
    ComputePairs B × List (BirthdayIndex B) × Bool :=
  if s.2.2 then
    ((assemble_columns_to_reduce s.1 s.2.1 d).1.after
        (compute_pairs_main (assemble_columns_to_reduce s.1 s.2.1 d).1 cofaces
          (assemble_columns_to_reduce s.1 s.2.1 d).2 fuel).1,
      (assemble_columns_to_reduce s.1 s.2.1 d).2,
      (compute_pairs_main (assemble_columns_to_reduce s.1 s.2.1 d).1 cofaces
        (assemble_columns_to_reduce s.1 s.2.1 d).2 fuel).2)
  else s

/-- Following the claim's words, the dimensions computed for the effective maximal dimension
`m`, in increasing order: 0 always, and `d` in {1, 2} iff `d <= m`. -/
def dimensions_by_claim (m : Int) : List Int :=
  0 :: [1, 2].filter (fun d => decide (d ≤ m))

/-- Following the claim's words, the compute_pairs path: the stages for the dimensions of
`dimensions_by_claim m`, one after the other, starting from a new object and an empty column
list. -/
def stages_by_claim (cofaces : BirthdayIndex B → List (BirthdayIndex B)) (fuel : Nat)
    (m : Int) (dcg : DenseCubicalGrids B) (writepairs : List (WritePairs B)) :
    ComputePairs B × List (BirthdayIndex B) × Bool :=
  (dimensions_by_claim m).foldl (stage_by_claim cofaces fuel)
    (new_ComputePairs dcg writepairs, [], true)

/-- A configuration to start the argument loop from. -/
def sample_config : Config Int :=
  { filename := "", output_filename := "output.csv", threshold := 100, maxdim := 2,
    method := calculation_method.LINKFIND, min_cache_size := 0, print := false,
    location := output_location.LOC_BIRTH }

/-! ## Notions used in the statements -/

/-- How often the cell index `idx` occurs among the entries `l` of a column. -/
def index_count (idx : Int) (l : List (BirthdayIndex B)) : Nat :=
  l.countP (fun e => decide (e.index = idx))

/-- What holds of the pivot index and of `recorded_wc` when column `i` is entered: every entry was
made by an earlier column, and a saved queue holds only cells born no earlier than its column. -/
def RunInv (ctr : List (BirthdayIndex B)) (i : Nat) (st : State B) : Prop :=
  (∀ kv ∈ st.pivot_column_index, kv.2 < i) ∧
  (∀ kw ∈ st.recorded_wc, kw.1 < i ∧
    ∀ e ∈ kw.2.data, (ctr.getD kw.1 NONE).birthday ≤ e.birthday)

/-- What holds of the local variables whenever the `do` body of column `i` is entered: no pair has
been found, `j` is a column up to `i`, and the working coboundary holds only cells born no earlier
than column `i`. -/
def LoopInv (ctr : List (BirthdayIndex B)) (i : Nat) (l : Locals B) : Prop :=
  l.found_persistence_pair = false ∧ l.j ≤ i ∧
  ∀ e ∈ l.working_coboundary.data, (ctr.getD i NONE).birthday ≤ e.birthday

/-- The state in which `compute_pairs_main` enters column `i`, and whether the run gets there
(every earlier column completed within `fuel` passes). -/
def column_entry (cp : ComputePairs B) (cofaces : BirthdayIndex B → List (BirthdayIndex B))
    (ctr : List (BirthdayIndex B)) (fuel : Nat) (i : Nat) : State B × Bool :=
  for_columns cp.dcg cp.dim cofaces ctr fuel i 0 (initial_state cp)

/-- The values of the local variables with which the passes of the `do` loop of column `i`,
entered in the state `st`, begin: those of the first pass, and those a pass ending with
`continue` hands to the next. -/
inductive PassEntry (dcg : DenseCubicalGrids B) (dim : Int)
    (cofaces : BirthdayIndex B → List (BirthdayIndex B)) (ctr : List (BirthdayIndex B)) (i : Nat)
    (st : State B) : Locals B → Prop where
  | first : PassEntry dcg dim cofaces ctr i st (initial_locals i)
  | next {l l2 : Locals B} : PassEntry dcg dim cofaces ctr i st l →
      do_body dcg dim cofaces ctr i st l = Step.again l2 → PassEntry dcg dim cofaces ctr i st l2

/-- The first coface, in the order of the enumeration, that is born with the cell `c`. -/
def first_born_with (cofaces : BirthdayIndex B → List (BirthdayIndex B)) (c : BirthdayIndex B) :
    Option (BirthdayIndex B) :=
  (cofaces c).find? (fun e => decide (c.birthday = e.birthday))

/-- All cells that the enumerator delivers for the columns of `ctr`. -/
def all_cofaces (cofaces : BirthdayIndex B → List (BirthdayIndex B))
    (ctr : List (BirthdayIndex B)) : List (BirthdayIndex B) :=
  ctr.flatMap cofaces

/-- The entries `col` are, as a column over Z/2 (every index counted modulo 2), a sum of the
coface lists of columns of `ctr` up to `i` in which the coface list of column `i` occurs
(coefficient 1): the other columns of the sum are the earlier columns with coefficient 1. -/
def IsCombination (cofaces : BirthdayIndex B → List (BirthdayIndex B))
    (ctr : List (BirthdayIndex B)) (i : Nat) (col : List (BirthdayIndex B)) : Prop :=
  ∃ coef : Nat → ZMod 2, coef i = 1 ∧ (∀ k, i < k → coef k = 0) ∧
    ∀ idx : Int, (index_count idx col : ZMod 2) =
      ∑ k ∈ Finset.range ctr.length,
        coef k * (index_count idx (cofaces (ctr.getD k NONE)) : ZMod 2)

/-- What holds of the state in which column `i` is entered: the entries of the pivot index were
made by earlier columns; a saved queue belongs to an earlier column, holds only delivered cofaces
and is, over Z/2, a sum of coface lists with its own column among them; and for every earlier
column the first coface born with it, if there is one, is a key of the pivot index. -/
def EntryInv (cofaces : BirthdayIndex B → List (BirthdayIndex B))
    (ctr : List (BirthdayIndex B)) (i : Nat) (st : State B) : Prop :=
  (∀ kv ∈ st.pivot_column_index, kv.2 < i) ∧
  (∀ kw ∈ st.recorded_wc, kw.1 < i ∧
    (∀ e ∈ kw.2.data, e ∈ all_cofaces cofaces ctr) ∧
    IsCombination cofaces ctr kw.1 kw.2.data) ∧
  (∀ j, j < i → ∀ c, first_born_with cofaces (ctr.getD j NONE) = some c →
    map_find st.pivot_column_index c.index ≠ none)

/-- What holds of the local variables with which a pass of the `do` loop of column `i` begins: no
pair has been found, and either it is the first pass or `j` is an earlier column, the one the
pivot index gives for the pivot; the pivot has an index other than -1 and is an entry of the
working coboundary, which holds only delivered cofaces and is, over Z/2, a sum of coface lists
with column `i` among them; and the first coface born with column `i`, if there is one, is a key
of the pivot index. -/
def PassInv (cofaces : BirthdayIndex B → List (BirthdayIndex B))
    (ctr : List (BirthdayIndex B)) (i : Nat) (st : State B) (l : Locals B) : Prop :=
  l.found_persistence_pair = false ∧
  (l = initial_locals i ∨
    (l.j < i ∧
      (∀ e ∈ l.working_coboundary.data, e ∈ all_cofaces cofaces ctr) ∧
      IsCombination cofaces ctr i l.working_coboundary.data ∧
      l.pivot.index ≠ -1 ∧
      map_find st.pivot_column_index l.pivot.index = some l.j ∧
      l.pivot ∈ l.working_coboundary.data ∧
      (∀ c, first_born_with cofaces (ctr.getD i NONE) = some c →
        map_find st.pivot_column_index c.index ≠ none)))

/-- A 3x1x1 grid with vertex births 0, 2, 1 and threshold 10. Indices are `x + 8 * m`. -/
def grid3 : DenseCubicalGrids Int where
  dim := 1
  ax := 3
  ay := 1
  az := 1
  threshold := 10
  get := fun x _ _ => [0, 2, 1].getD x 10
  getIndex := fun x _ _ m => x + 8 * m
  getBirthday := fun x _ _ m _ =>
    if m = 0 then max ([0, 2, 1].getD x 10) ([0, 2, 1].getD (x + 1) 10) else 10
  getXYZM := fun idx => [idx % 8, 0, 0, idx / 8]

/-- The edges of `grid3` at a vertex: the edge to the left and the edge to the right. -/
def cofaces3 (c : BirthdayIndex Int) : List (BirthdayIndex Int) :=
  (if 1 ≤ c.index ∧ c.index ≤ 2 then
    [⟨max ([0, 2, 1].getD (c.index.toNat - 1) 10) c.birthday, c.index - 1, 1⟩] else []) ++
  (if 0 ≤ c.index ∧ c.index ≤ 1 then
    [⟨max ([0, 2, 1].getD (c.index.toNat + 1) 10) c.birthday, c.index, 1⟩] else [])

/-- A column holding the single entry `BirthdayIndex(0, -1, 0)`. -/
def sentinel_column : PQ Int := PQ.nil.push ⟨0, -1, 0⟩

/-- A column holding the single entry `BirthdayIndex(5, -1, 0)`. -/
def minus_one_column : PQ Int := PQ.nil.push ⟨5, -1, 0⟩

/-- A column with the entries (1, 7), (1, 7), (1, 6), (3, 5), given as (birth, index). -/
def sample_column : PQ Int :=
  (((PQ.nil.push ⟨3, 5, 1⟩).push ⟨1, 7, 1⟩).push ⟨1, 6, 1⟩).push ⟨1, 7, 1⟩

/-- A 3x3x1 grid with a ring of births 0 around a centre of birth 9, and threshold 5. Indices are
`x + 4 * y + 16 * m`; the birth of a cell other than a vertex is not needed and left at 0. -/
def ring_grid : DenseCubicalGrids Int where
  dim := 2
  ax := 3
  ay := 3
  az := 1
  threshold := 5
  get := fun x y _ => if x = 1 ∧ y = 1 then 9 else 0
  getIndex := fun x y _ m => x + 4 * y + 16 * m
  getBirthday := fun _ _ _ _ _ => 0
  getXYZM := fun idx => [idx % 4, idx / 4 % 4, 0, idx / 16]

/-- The squares of `ring_grid` all contain the centre, born at 9, above the threshold: the
enumerator yields no coface for any edge. -/
def ring_cofaces (_ : BirthdayIndex Int) : List (BirthdayIndex Int) := []

/-- Two columns of equal birth and the cofaces of a small example: the first column has the one
coface 20, the second has the cofaces 20, 21 and 22, in this order, all of them born with the
columns. -/
def shared_columns : List (BirthdayIndex Int) := [⟨1, 10, 1⟩, ⟨1, 11, 1⟩]

/-- The queue holding the three cofaces of the second column of `shared_columns`. -/
def shared_queue : PQ Int := PQ.nil.pushAll [⟨1, 20, 2⟩, ⟨1, 21, 2⟩, ⟨1, 22, 2⟩]

/-- The cofaces of `shared_columns`. -/
def shared_cofaces (c : BirthdayIndex Int) : List (BirthdayIndex Int) :=
  if c.index = 10 then [⟨1, 20, 2⟩]
  else if c.index = 11 then [⟨1, 20, 2⟩, ⟨1, 21, 2⟩, ⟨1, 22, 2⟩]
  else []

/-- A 2x1x1 grid with vertex births 3 and 4 and threshold 1; the birth of a cell is taken as the
birth of its anchor vertex or, for the edge between the two vertices, the larger of the two. -/
def high_grid : DenseCubicalGrids Int where
  dim := 1
  ax := 2
  ay := 1
  az := 1
  threshold := 1
  get := fun x _ _ => [3, 4].getD x 4
  getIndex := fun x _ _ m => x + 8 * m
  getBirthday := fun x _ _ _ _ => max ([3, 4].getD x 4) ([3, 4].getD (x + 1) 4)
  getXYZM := fun idx => [idx % 8, 0, 0, idx / 8]

/-- The 3x1x1 grid with vertex births 0, 2, 1 and threshold +infinity (births are integers with a
top element). The packing of `(x, y, z, m)` into an index is declared in `dense_cubical_grids.h`;
here it is `x + 8 * m`, with `getXYZM` its inverse. -/
def line_grid : DenseCubicalGrids (WithTop Int) where
  dim := 1
  ax := 3
  ay := 1
  az := 1
  threshold := ⊤
  get := fun x _ _ => [0, 2, 1].getD x ⊤
  getIndex := fun x _ _ m => x + 8 * m
  getBirthday := fun x _ _ _ _ => max ([0, 2, 1].getD x ⊤) ([0, 2, 1].getD (x + 1) ⊤)
  getXYZM := fun idx => [idx % 8, 0, 0, idx / 8]

/-- The coboundary of a vertex of `line_grid`: its incident edges inside the grid, each born with
the later of its two endpoints; the edge between the vertices `x` and `x + 1` has the index `x`.
The flag tells which of the two edges is delivered first. -/
def line_cofaces (leftFirst : Bool) (c : BirthdayIndex (WithTop Int)) :
    List (BirthdayIndex (WithTop Int)) :=
  let left : List (BirthdayIndex (WithTop Int)) :=
    if 1 ≤ c.index ∧ c.index ≤ 2 then
      [⟨max ([0, 2, 1].getD (c.index.toNat - 1) ⊤) c.birthday, c.index - 1, 1⟩] else []
  let right : List (BirthdayIndex (WithTop Int)) :=
    if 0 ≤ c.index ∧ c.index ≤ 1 then
      [⟨max ([0, 2, 1].getD (c.index.toNat + 1) ⊤) c.birthday, c.index, 1⟩] else []
  if leftFirst then left ++ right else right ++ left

/-- The 2x2x1 grid with vertex births 0, 1 / 1, 2 (the birth of the vertex `(x, y)` is `x + y`)
and threshold 10. The index of the cell `(x, y, z, m)` is `x + 2 * y + 4 * m`. The births grow
with `x` and `y`, so the birth of a cell is the birth of its far corner; a corner outside the
grid gives the threshold. -/
def square_grid : DenseCubicalGrids Int where
  dim := 2
  ax := 2
  ay := 2
  az := 1
  threshold := 10
  get := fun x y z => if x < 2 ∧ y < 2 ∧ z < 1 then ((x + y : Nat) : Int) else 10
  getIndex := fun x y _ m => x + 2 * y + 4 * m
  getBirthday := fun x y z m dim =>
    let far : Nat × Nat × Nat :=
      if dim = 1 then
        (if m = 0 then (x + 1, y, z) else if m = 1 then (x, y + 1, z) else (x, y, z + 1))
      else
        (if m = 0 then (x + 1, y + 1, z) else if m = 1 then (x + 1, y, z + 1)
          else (x, y + 1, z + 1))
    if far.1 < 2 ∧ far.2.1 < 2 ∧ far.2.2 < 1 then ((far.1 + far.2.1 : Nat) : Int) else 10
  getXYZM := fun idx => [idx % 2, idx / 2 % 2, 0, idx / 4]

/-- The coboundary in `square_grid`, delivered in descending order of the index. A vertex
`(x, y)`, of index `x + 2 * y`, has the edges upwards (index `4 + x + 2 * y`), downwards, to the
right (index `x + 2 * y`) and to the left, as far as they lie in the grid; each of the four edges
(indices 0, 2, 4, 5) has the one square, of index 0 and birth 2. -/
def square_cofaces (c : BirthdayIndex Int) : List (BirthdayIndex Int) :=
  if c.dim = 0 then
    (if c.index / 2 = 0 then [⟨max c.birthday (c.index % 2 + 1), 4 + c.index, 1⟩] else []) ++
    (if c.index / 2 = 1 then [⟨max c.birthday (c.index % 2), 4 + c.index - 2, 1⟩] else []) ++
    (if c.index % 2 = 0 then [⟨max c.birthday (c.index / 2 + 1), c.index, 1⟩] else []) ++
    (if c.index % 2 = 1 then [⟨max c.birthday (c.index / 2), c.index - 1, 1⟩] else [])
  else if c.dim = 1 then
    (if c.index = 0 ∨ c.index = 2 ∨ c.index = 4 ∨ c.index = 5 then [⟨2, 0, 2⟩] else [])
  else []

end Definitions

/-! ## Facts about the order -/

section OrderFacts

variable {B : Type} [LinearOrder B]

theorem queueOrder_iff (a b : BirthdayIndex B) :
    QueueOrder a b ↔ a.birthday < b.birthday ∨ (a.birthday = b.birthday ∧ b.index ≤ a.index) := by
  unfold QueueOrder BirthdayIndexComparator
  rcases lt_trichotomy a.birthday b.birthday with h | h | h
  · simp [h.ne, h.not_lt, h]
  · simp [h]
  · simp [h.ne', h.not_lt, h]

theorem comparator_iff (a b : BirthdayIndex B) :
    BirthdayIndexComparator a b = true ↔
      b.birthday < a.birthday ∨ (a.birthday = b.birthday ∧ a.index < b.index) := by
  unfold BirthdayIndexComparator
  rcases lt_trichotomy a.birthday b.birthday with h | h | h
  · simp [h.ne, h.not_lt, h]
  · simp [h]
  · simp [h.ne', h.not_lt, h]

theorem queueOrder_birthday_le {a b : BirthdayIndex B} (h : QueueOrder a b) :
    a.birthday ≤ b.birthday := by
  rcases (queueOrder_iff a b).1 h with h1 | ⟨h1, _⟩
  · exact h1.le
  · exact h1.le

theorem queueOrder_refl (a : BirthdayIndex B) : QueueOrder a a :=
  (queueOrder_iff a a).2 (Or.inr ⟨rfl, le_refl _⟩)

/-- Between two cells of the same index and birth, in a sorted column, every cell has that index. -/
theorem index_eq_of_between {a b c : BirthdayIndex B} (hab : QueueOrder a b)
    (hbc : QueueOrder b c) (hi : a.index = c.index) (hb : a.birthday = c.birthday) :
    b.index = a.index := by
  rw [queueOrder_iff] at hab hbc
  rcases hab with h1 | ⟨h1, h1i⟩
  · rcases hbc with h2 | ⟨h2, _⟩
    · exact absurd (hb ▸ (lt_trans h1 h2)) (lt_irrefl _)
    · exact absurd (hb ▸ (h2 ▸ h1)) (lt_irrefl _)
  · rcases hbc with h2 | ⟨_, h2i⟩
    · exact absurd (hb ▸ (h1 ▸ h2)) (lt_irrefl _)
    · omega

theorem index_count_append (idx : Int) (l1 l2 : List (BirthdayIndex B)) :
    index_count idx (l1 ++ l2) = index_count idx l1 + index_count idx l2 := by
  simp [index_count]

theorem index_count_cons (idx : Int) (a : BirthdayIndex B) (l : List (BirthdayIndex B)) :
    index_count idx (a :: l) = index_count idx l + (if a.index = idx then 1 else 0) := by
  simp [index_count, List.countP_cons]

theorem index_count_pos_iff (idx : Int) (l : List (BirthdayIndex B)) :
    0 < index_count idx l ↔ ∃ e ∈ l, e.index = idx := by
  simp [index_count, List.countP_pos_iff]

end OrderFacts

section Theorems

variable {B : Type} [LinearOrder B] [Zero B]

/-! ## `pop_pivot` -/

/-- What the loop of `pop_pivot` does to the content `p :: l` of a queue: either everything is
popped, every index occurring an even number of times, or the queue splits into a popped part in
which every index occurs an even number of times, the returned cell, and the part left. -/
theorem pop_pivot_loop_spec (n : Nat) : ∀ (p : BirthdayIndex B) (l : List (BirthdayIndex B))
    (h : l.Sorted QueueOrder), l.length ≤ n →
    ((pop_pivot_loop p l h).1 = NONE ∧ (pop_pivot_loop p l h).2.data = [] ∧
        ∀ idx, Even (index_count idx (p :: l))) ∨
      (∃ pre, p :: l = pre ++ (pop_pivot_loop p l h).1 :: (pop_pivot_loop p l h).2.data ∧
        (∀ idx, Even (index_count idx pre)) ∧
        ∀ t ∈ (pop_pivot_loop p l h).2.data.head?, t.index ≠ (pop_pivot_loop p l h).1.index) := by
  induction n using Nat.strong_induction_on with
  | _ n ih =>
    intro p l h hn
    match l, h with
    | [], _ =>
      right
      exact ⟨[], by simp [pop_pivot_loop, PQ.nil], by simp [index_count], by
        simp [pop_pivot_loop, PQ.nil]⟩
    | [t], _ =>
      by_cases hi : t.index = p.index
      · left
        refine ⟨by simp [pop_pivot_loop, hi], by simp [pop_pivot_loop, hi, PQ.nil], ?_⟩
        intro idx
        rw [index_count_cons, index_count_cons, hi]
        by_cases hp : p.index = idx <;> simp [hp, index_count]
      · right
        exact ⟨[], by simp [pop_pivot_loop, hi], by simp [index_count], by
          simp [pop_pivot_loop, hi]⟩
    | t :: p2 :: rest2, h =>
      by_cases hi : t.index = p.index
      · have hstep : pop_pivot_loop p (t :: p2 :: rest2) h =
            pop_pivot_loop p2 rest2 h.of_cons.of_cons := by
          simp [pop_pivot_loop, hi]
        rw [hstep]
        have hlen : rest2.length ≤ n - 2 := by simp at hn; omega
        have hlt : n - 2 < n := by simp at hn; omega
        rcases ih (n - 2) hlt p2 rest2 h.of_cons.of_cons hlen with ⟨h1, h2, h3⟩ | ⟨pre, h1, h2, h3⟩
        · left
          refine ⟨h1, h2, ?_⟩
          intro idx
          have := h3 idx
          rw [index_count_cons, index_count_cons, hi]
          by_cases hp : p.index = idx
          · simp only [hp, if_true]
            exact (this.add (by decide : Even 2))
          · simpa [hp] using this
        · right
          refine ⟨p :: t :: pre, by simp [h1], ?_, h3⟩
          intro idx
          have := h2 idx
          rw [index_count_cons, index_count_cons, hi]
          by_cases hp : p.index = idx
          · simp only [hp, if_true]
            exact (this.add (by decide : Even 2))
          · simpa [hp] using this
      · right
        exact ⟨[], by simp [pop_pivot_loop, hi], by simp [index_count], by
          simp [pop_pivot_loop, hi]⟩

theorem PQ.ext_data {p q : PQ B} (h : p.data = q.data) : p = q := by
  cases p; cases q; cases h; rfl

/-- The shape of the result of `pop_pivot`: see `pop_pivot_loop_spec`. -/
theorem pop_pivot_spec (col : PQ B) :
    ((pop_pivot col).1 = NONE ∧ (pop_pivot col).2.data = [] ∧
        ∀ idx, Even (index_count idx col.data)) ∨
      (∃ pre, col.data = pre ++ (pop_pivot col).1 :: (pop_pivot col).2.data ∧
        (∀ idx, Even (index_count idx pre)) ∧
        ∀ t ∈ (pop_pivot col).2.data.head?, t.index ≠ (pop_pivot col).1.index) := by
  obtain ⟨l, h⟩ := col
  match l, h with
  | [], _ =>
    left
    exact ⟨rfl, rfl, by simp [index_count]⟩
  | p :: rest, h => exact pop_pivot_loop_spec rest.length p rest h.of_cons (le_refl _)

/-- In a sorted column whose equal-index entries have equal birth, equal-index entries are
adjacent: when the entry right after `x` has another index, so has every entry after `x`. -/
theorem no_index_after (pre s : List (BirthdayIndex B)) (x : BirthdayIndex B)
    (hs : (pre ++ x :: s).Sorted QueueOrder)
    (hbirth : ∀ a ∈ pre ++ x :: s, ∀ b ∈ pre ++ x :: s, a.index = b.index → a.birthday = b.birthday)
    (hhead : ∀ t ∈ s.head?, t.index ≠ x.index) : ∀ e ∈ s, e.index ≠ x.index := by
  have hxs : (x :: s).Sorted QueueOrder := hs.sublist (List.sublist_append_right pre _)
  cases s with
  | nil => simp
  | cons t s2 =>
    intro e he hidx
    have ht : t.index ≠ x.index := hhead t (by simp)
    rcases List.mem_cons.1 he with rfl | he2
    · exact ht hidx
    · have hxt : QueueOrder x t := List.rel_of_sorted_cons hxs t (by simp)
      have hte : QueueOrder t e := List.rel_of_sorted_cons hxs.of_cons e he2
      have hb : x.birthday = e.birthday :=
        hbirth x (by simp) e (by simp [he2]) hidx.symm
      exact ht (index_eq_of_between hxt hte hidx.symm hb)

theorem index_count_eq_zero {idx : Int} {l : List (BirthdayIndex B)}
    (h : ∀ e ∈ l, e.index ≠ idx) : index_count idx l = 0 := by
  by_contra hne
  obtain ⟨e, he, hi⟩ := (index_count_pos_iff idx l).1 (Nat.pos_of_ne_zero hne)
  exact h e he hi

/-- The full description of `pop_pivot` on a column whose equal-index entries have equal birth:
either everything is popped and every index occurs an even number of times, or the column is
`pre ++ x :: s` with `x` returned, `s` left, every index even in `pre`, and no entry of `s` with
the index of `x`. -/
theorem pop_pivot_cases (col : PQ B)
    (hbirth : ∀ a ∈ col.data, ∀ b ∈ col.data, a.index = b.index → a.birthday = b.birthday) :
    ((pop_pivot col).1 = NONE ∧ (pop_pivot col).2.data = [] ∧
        ∀ idx, Even (index_count idx col.data)) ∨
      (∃ pre, col.data = pre ++ (pop_pivot col).1 :: (pop_pivot col).2.data ∧
        (∀ idx, Even (index_count idx pre)) ∧
        ∀ e ∈ (pop_pivot col).2.data, e.index ≠ (pop_pivot col).1.index) := by
  rcases pop_pivot_spec col with h | ⟨pre, h1, h2, h3⟩
  · exact Or.inl h
  · right
    refine ⟨pre, h1, h2, ?_⟩
    have hsorted := col.sorted
    rw [h1] at hsorted
    have hbirth2 : ∀ a ∈ pre ++ (pop_pivot col).1 :: (pop_pivot col).2.data,
        ∀ b ∈ pre ++ (pop_pivot col).1 :: (pop_pivot col).2.data,
        a.index = b.index → a.birthday = b.birthday := by
      rw [← h1]; exact hbirth
    exact no_index_after pre _ _ hsorted hbirth2 h3

theorem pop_pivot_loop_of_head_ne (x : BirthdayIndex B) (s : List (BirthdayIndex B))
    (h : s.Sorted QueueOrder) (hs : ∀ e ∈ s, e.index ≠ x.index) :
    pop_pivot_loop x s h = (x, ⟨s, h⟩) := by
  match s, h with
  | [], _ => rfl
  | t :: rest, h =>
    have : t.index ≠ x.index := hs t (by simp)
    unfold pop_pivot_loop
    rw [if_neg this]

theorem get_pivot_of_nil (q : PQ B) (hq : q.data = []) : get_pivot q = (NONE, q) := by
  obtain ⟨d, hd⟩ := q
  simp only at hq
  subst hq
  rfl

theorem get_pivot_of_cons (q : PQ B) (x : BirthdayIndex B) (s : List (BirthdayIndex B))
    (hq : q.data = x :: s) (hx : x.index ≠ -1) (hs : ∀ e ∈ s, e.index ≠ x.index) :
    get_pivot q = (x, q) := by
  obtain ⟨d, hd⟩ := q
  simp only at hq
  subst hq
  have hpop : pop_pivot (⟨x :: s, hd⟩ : PQ B) = (x, ⟨s, hd.of_cons⟩) :=
    pop_pivot_loop_of_head_ne x s hd.of_cons hs
  unfold get_pivot
  simp only [hpop, ne_eq, hx, not_false_eq_true, if_true]
  refine Prod.ext rfl (PQ.ext_data ?_)
  show s.orderedInsert QueueOrder x = x :: s
  cases s with
  | nil => rfl
  | cons t rest =>
    exact List.orderedInsert_of_le _ rest (List.rel_of_sorted_cons hd t (by simp))

/-- The full description of `get_pivot` on a column of cells (no entry with index -1) whose
equal-index entries have equal birth. -/
theorem get_pivot_cases (col : PQ B)
    (hbirth : ∀ a ∈ col.data, ∀ b ∈ col.data, a.index = b.index → a.birthday = b.birthday)
    (hidx : ∀ e ∈ col.data, e.index ≠ -1) :
    ((get_pivot col).1 = NONE ∧ (get_pivot col).2.data = [] ∧ (pop_pivot col).1 = NONE ∧
        (pop_pivot col).2.data = [] ∧ ∀ idx, Even (index_count idx col.data)) ∨
      (∃ pre s, col.data = pre ++ (get_pivot col).1 :: s ∧ (get_pivot col).2.data =
          (get_pivot col).1 :: s ∧ (pop_pivot col).2.data = s ∧
        (pop_pivot col).1 = (get_pivot col).1 ∧
        (∀ idx, Even (index_count idx pre)) ∧ (∀ e ∈ s, e.index ≠ (get_pivot col).1.index) ∧
        (get_pivot col).1.index ≠ -1) := by
  rcases pop_pivot_cases col hbirth with ⟨h1, h2, h3⟩ | ⟨pre, h1, h2, h3⟩
  · left
    have hg : get_pivot col = ((pop_pivot col).1, (pop_pivot col).2) := by
      unfold get_pivot
      simp [h1, NONE]
    rw [hg]
    exact ⟨h1, h2, h1, h2, h3⟩
  · right
    have hx : (pop_pivot col).1.index ≠ -1 := hidx _ (by rw [h1]; simp)
    have hg : get_pivot col = ((pop_pivot col).1, (pop_pivot col).2.push (pop_pivot col).1) := by
      unfold get_pivot
      simp [hx]
    have hsorted := col.sorted
    rw [h1] at hsorted
    have hxs : ((pop_pivot col).1 :: (pop_pivot col).2.data).Sorted QueueOrder :=
      hsorted.sublist (List.sublist_append_right pre _)
    have hpush : ((pop_pivot col).2.push (pop_pivot col).1).data =
        (pop_pivot col).1 :: (pop_pivot col).2.data := by
      show (pop_pivot col).2.data.orderedInsert QueueOrder (pop_pivot col).1 = _
      cases hd : (pop_pivot col).2.data with
      | nil => rfl
      | cons t rest =>
        rw [hd] at hxs
        exact List.orderedInsert_of_le _ rest (List.rel_of_sorted_cons hxs t (by simp))
    rw [hg]
    exact ⟨pre, (pop_pivot col).2.data, h1, hpush, rfl, rfl, h2, h3, hx⟩

/-! ## Claims on `pop_pivot` and `get_pivot` -/

/-- C4, as stated, fails on the column holding the one entry `BirthdayIndex(0, -1, 0)`: its entries
with equal index have equal birth, `pop_pivot` returns the sentinel `BirthdayIndex(0, -1, 0)` (the
entry itself), and yet the index -1 occurs an odd number of times. -/
theorem pop_pivot_sentinel_counterexample :
    (∀ a ∈ sentinel_column.data, ∀ b ∈ sentinel_column.data,
        a.index = b.index → a.birthday = b.birthday) ∧
      (pop_pivot sentinel_column).1 = NONE ∧
      ¬ ∀ idx, Even (index_count idx sentinel_column.data) :=
  ⟨by decide, by decide, fun h => absurd (h (-1)) (by decide)⟩

/-- C4, amended: for every priority-queue column whose entries with equal index have equal birth
and which does not hold the sentinel value `BirthdayIndex(0, -1, 0)` as an entry, `pop_pivot`
returns the sentinel iff every index occurs an even number of times, and the column is empty
afterwards in that case; otherwise it returns an entry of the column whose index occurs an odd
number of times, that entry is top-most among the entries with an odd index count, and the column
afterwards holds exactly the original entries strictly below the returned cell. -/
theorem pop_pivot_returns_top_odd_cell (col : PQ B)
    (hbirth : ∀ a ∈ col.data, ∀ b ∈ col.data, a.index = b.index → a.birthday = b.birthday)
    (hnone : NONE ∉ col.data) :
    ((pop_pivot col).1 = NONE ↔ ∀ idx, Even (index_count idx col.data)) ∧
    ((pop_pivot col).1 = NONE → (pop_pivot col).2.data = []) ∧
    ((pop_pivot col).1 ≠ NONE →
      (pop_pivot col).1 ∈ col.data ∧
      Odd (index_count (pop_pivot col).1.index col.data) ∧
      (∀ e ∈ col.data, Odd (index_count e.index col.data) → QueueOrder (pop_pivot col).1 e) ∧
      (pop_pivot col).2.data =
        col.data.filter (fun e => BirthdayIndexComparator e (pop_pivot col).1)) := by
  rcases pop_pivot_cases col hbirth with ⟨h1, h2, h3⟩ | ⟨pre, h1, h2, h3⟩
  · exact ⟨⟨fun _ => h3, fun _ => h1⟩, fun _ => h2, fun hne => absurd h1 hne⟩
  · have hsorted := col.sorted
    rw [h1] at hsorted
    have hxs : ((pop_pivot col).1 :: (pop_pivot col).2.data).Sorted QueueOrder :=
      hsorted.sublist (List.sublist_append_right pre _)
    have hmem : (pop_pivot col).1 ∈ col.data := by rw [h1]; simp
    have hcount : index_count (pop_pivot col).1.index col.data =
        index_count (pop_pivot col).1.index pre + 1 := by
      conv_lhs => rw [h1]
      rw [index_count_append, index_count_cons, index_count_eq_zero h3]
      simp
    have hodd : Odd (index_count (pop_pivot col).1.index col.data) := by
      rw [hcount]; exact (h2 _).add_one
    have hneNone : (pop_pivot col).1 ≠ NONE := fun h => hnone (h ▸ hmem)
    refine ⟨⟨fun h => absurd h hneNone,
      fun hall => absurd (hall _) (Nat.not_even_iff_odd.2 hodd)⟩,
      fun h => absurd h hneNone, fun _ => ⟨hmem, hodd, ?_, ?_⟩⟩
    · intro e he hodde
      have he2 : e ∈ pre ++ (pop_pivot col).1 :: (pop_pivot col).2.data := h1 ▸ he
      have hbelow : ∀ c ∈ (pop_pivot col).1 :: (pop_pivot col).2.data,
          QueueOrder (pop_pivot col).1 c := by
        intro c hc
        rcases List.mem_cons.1 hc with rfl | hc2
        · exact queueOrder_refl _
        · exact List.rel_of_sorted_cons hxs c hc2
      rcases List.mem_append.1 he2 with hpre | hrest
      · have hpos : 0 < index_count e.index ((pop_pivot col).1 :: (pop_pivot col).2.data) := by
          by_contra h0
          have hsplit : index_count e.index col.data = index_count e.index pre := by
            conv_lhs => rw [h1]
            rw [index_count_append]; omega
          rw [hsplit] at hodde
          exact Nat.not_even_iff_odd.2 hodde (h2 _)
        obtain ⟨c, hc, hci⟩ := (index_count_pos_iff _ _).1 hpos
        have hcmem : c ∈ col.data := by rw [h1]; exact List.mem_append_right _ hc
        have hcb : c.birthday = e.birthday := hbirth c hcmem e he hci
        have hrc := (queueOrder_iff _ _).1 (hbelow c hc)
        rw [queueOrder_iff, ← hcb, ← hci]
        exact hrc
      · exact hbelow e hrest
    · conv_rhs => rw [h1]
      rw [List.filter_append, List.filter_cons]
      have hpre : pre.filter (fun e => BirthdayIndexComparator e (pop_pivot col).1) = [] := by
        rw [List.filter_eq_nil_iff]
        intro a ha
        have : QueueOrder a (pop_pivot col).1 :=
          (List.pairwise_append.1 hsorted).2.2 a ha _ (by simp)
        simp [QueueOrder] at this
        simp [this]
      have hself : BirthdayIndexComparator (pop_pivot col).1 (pop_pivot col).1 = false :=
        queueOrder_refl _
      have hrest : (pop_pivot col).2.data.filter
          (fun e => BirthdayIndexComparator e (pop_pivot col).1) = (pop_pivot col).2.data := by
        rw [List.filter_eq_self]
        intro a ha
        have hq := (queueOrder_iff _ _).1 (List.rel_of_sorted_cons hxs a ha)
        have hne := h3 a ha
        rw [comparator_iff]
        rcases hq with hq | ⟨hq1, hq2⟩
        · exact Or.inl hq
        · exact Or.inr ⟨hq1.symm, lt_of_le_of_ne hq2 hne⟩
      rw [hpre, hself, hrest]
      simp

/-- C4, amended, on a concrete column: the entries (1,7), (1,7), (1,6), (3,5). -/
theorem pop_pivot_returns_top_odd_cell_witness :
    (pop_pivot sample_column).1 ≠ NONE ∧
      ((pop_pivot sample_column).1 ≠ NONE →
        (pop_pivot sample_column).1 ∈ sample_column.data ∧
        Odd (index_count (pop_pivot sample_column).1.index sample_column.data) ∧
        (∀ e ∈ sample_column.data, Odd (index_count e.index sample_column.data) →
          QueueOrder (pop_pivot sample_column).1 e) ∧
        (pop_pivot sample_column).2.data = sample_column.data.filter
          (fun e => BirthdayIndexComparator e (pop_pivot sample_column).1)) :=
  ⟨by decide,
    (pop_pivot_returns_top_odd_cell sample_column (by decide) (by decide)).2.2⟩

/-- C5, as stated, fails on the column holding the one entry `BirthdayIndex(5, -1, 0)`: `get_pivot`
returns that entry, which is not the sentinel, but does not put it back, so that the column is
empty afterwards: the result is not on top, and the index -1 has changed its parity. -/
theorem get_pivot_minus_one_counterexample :
    (∀ a ∈ minus_one_column.data, ∀ b ∈ minus_one_column.data,
        a.index = b.index → a.birthday = b.birthday) ∧
      (get_pivot minus_one_column).1 ≠ NONE ∧
      (get_pivot minus_one_column).2.data.head? ≠ some (get_pivot minus_one_column).1 ∧
      index_count (-1) (get_pivot minus_one_column).2.data % 2 ≠
        index_count (-1) minus_one_column.data % 2 :=
  ⟨by decide, by decide, by decide, by decide⟩

/-- C5, amended: for every priority-queue column of cells (no entry has the index -1) whose entries
with equal index have equal birth, `get_pivot` returns the cell `pop_pivot` returns and leaves what
`pop_pivot` leaves with the survivor put back on top; every index keeps the parity of its
multiplicity; a result other than the sentinel is the top of the column afterwards and its index
occurs exactly once there; and a second `get_pivot` returns the same cell and leaves the column as
it is. -/
theorem get_pivot_reinserts_survivor (col : PQ B)
    (hbirth : ∀ a ∈ col.data, ∀ b ∈ col.data, a.index = b.index → a.birthday = b.birthday)
    (hidx : ∀ e ∈ col.data, e.index ≠ -1) :
    (get_pivot col).1 = (pop_pivot col).1 ∧
    (get_pivot col).2.data = (if (pop_pivot col).1 = NONE then (pop_pivot col).2.data
      else (pop_pivot col).1 :: (pop_pivot col).2.data) ∧
    (∀ idx, index_count idx (get_pivot col).2.data % 2 = index_count idx col.data % 2) ∧
    ((get_pivot col).1 ≠ NONE →
      (get_pivot col).2.data.head? = some (get_pivot col).1 ∧
      index_count (get_pivot col).1.index (get_pivot col).2.data = 1) ∧
    get_pivot (get_pivot col).2 = get_pivot col := by
  rcases get_pivot_cases col hbirth hidx with ⟨h1, h2, h3, h4, h5⟩ |
    ⟨pre, s, h1, h2, h3, h4, h5, h6, h7⟩
  · refine ⟨h1.trans h3.symm, by rw [h2, if_pos h3, h4], ?_, fun hne => absurd h1 hne, ?_⟩
    · intro idx
      rw [h2, Nat.even_iff.1 (h5 idx)]
      rfl
    · rw [get_pivot_of_nil _ h2]
      exact Prod.ext h1.symm rfl
  · have hne : (pop_pivot col).1 ≠ NONE := by
      intro h
      rw [h4] at h
      exact h7 (by rw [h]; rfl)
    refine ⟨h4.symm, by rw [if_neg hne, h2, h3, h4], ?_, fun _ => ⟨by rw [h2]; rfl, ?_⟩, ?_⟩
    · intro idx
      rw [h2]
      conv_rhs => rw [h1]
      rw [index_count_append]
      have := Nat.even_iff.1 (h5 idx)
      omega
    · rw [h2, index_count_cons, index_count_eq_zero h6]
      simp
    · rw [get_pivot_of_cons _ _ s h2 h7 h6]

/-- C5, amended, on a concrete column: the entries (1,7), (1,7), (1,6), (3,5). -/
theorem get_pivot_reinserts_survivor_witness :
    (get_pivot sample_column).1 = (pop_pivot sample_column).1 ∧
      get_pivot (get_pivot sample_column).2 = get_pivot sample_column :=
  ⟨(get_pivot_reinserts_survivor sample_column (by decide) (by decide)).1,
    (get_pivot_reinserts_survivor sample_column (by decide) (by decide)).2.2.2.2⟩

/-! ## `assemble_columns_to_reduce` -/

theorem count_flatMap_range (n : Nat) (f : Nat → List (BirthdayIndex B)) (c : BirthdayIndex B) :
    ((List.range n).flatMap f).count c = ∑ i ∈ Finset.range n, (f i).count c := by
  induction n with
  | zero => simp
  | succ n ih =>
    rw [List.range_succ, List.flatMap_append, List.count_append, ih, Finset.sum_range_succ]
    simp

theorem count_assemble_vertices (dcg : DenseCubicalGrids B) (c : BirthdayIndex B) :
    (assemble_vertices dcg).count c =
      ∑ z ∈ Finset.range dcg.az, ∑ y ∈ Finset.range dcg.ay, ∑ x ∈ Finset.range dcg.ax,
        if dcg.get x y z < dcg.threshold ∧ c = ⟨dcg.get x y z, dcg.getIndex x y z 0, 0⟩
        then 1 else 0 := by
  unfold assemble_vertices
  rw [count_flatMap_range]
  refine Finset.sum_congr rfl fun z _ => ?_
  rw [count_flatMap_range]
  refine Finset.sum_congr rfl fun y _ => ?_
  rw [count_flatMap_range]
  refine Finset.sum_congr rfl fun x _ => ?_
  by_cases h1 : dcg.get x y z < dcg.threshold
  · by_cases h2 : c = ⟨dcg.get x y z, dcg.getIndex x y z 0, 0⟩
    · simp [h1, h2]
    · simp [h1, h2, List.count_singleton, eq_comm]
  · simp [h1]

theorem count_assemble_cells (dcg : DenseCubicalGrids B) (pci : List (Int × Nat)) (d : Int)
    (c : BirthdayIndex B) :
    (assemble_cells dcg pci d).count c =
      ∑ z ∈ Finset.range dcg.az, ∑ y ∈ Finset.range dcg.ay, ∑ x ∈ Finset.range dcg.ax,
        ∑ m ∈ Finset.range 3,
          if map_find pci (dcg.getIndex x y z m) = none ∧
              dcg.getBirthday x y z m d < dcg.threshold ∧
              c = ⟨dcg.getBirthday x y z m d, dcg.getIndex x y z m, d⟩
          then 1 else 0 := by
  unfold assemble_cells
  rw [count_flatMap_range]
  refine Finset.sum_congr rfl fun z _ => ?_
  rw [count_flatMap_range]
  refine Finset.sum_congr rfl fun y _ => ?_
  rw [count_flatMap_range]
  refine Finset.sum_congr rfl fun x _ => ?_
  rw [count_flatMap_range]
  refine Finset.sum_congr rfl fun m _ => ?_
  by_cases h0 : map_find pci (dcg.getIndex x y z m) = none
  · by_cases h1 : dcg.getBirthday x y z m d < dcg.threshold
    · by_cases h2 : c = ⟨dcg.getBirthday x y z m d, dcg.getIndex x y z m, d⟩
      · simp [h0, h1, h2]
      · simp [h0, h1, h2, List.count_singleton, eq_comm]
    · simp [h0, h1]
  · have : (map_find pci (dcg.getIndex x y z m)).isNone = false := by
      cases hf : map_find pci (dcg.getIndex x y z m) with
      | none => exact absurd hf h0
      | some v => rfl
    simp [h0, this]

/-- C6: `assemble_columns_to_reduce(ctr, dim)` returns exactly the expected cells, each once. The
number of times a cell `c` occurs in the result is, for `dim == 0`, the number of grid vertices
`(x, y, z)` with birth below the threshold whose cell `BirthdayIndex(birth, getIndex(x,y,z,0), 0)`
is `c`, and for every other `dim` (so for `dim >= 1`) the number of `(x, y, z, m)` with `m < 3`,
`getIndex(x,y,z,m)` not a key of `pivot_column_index`, birth below the threshold, whose cell
`BirthdayIndex(getBirthday(x,y,z,m,dim), getIndex(x,y,z,m), dim)` is `c`. The result does not
depend on the previous content of `ctr`; the object has its `dim` set and is otherwise
unchanged. -/
theorem assemble_columns_exact (cp : ComputePairs B) (ctr : List (BirthdayIndex B)) (d : Int) :
    (∀ c, d = 0 → (assemble_columns_to_reduce cp ctr d).2.count c =
      ∑ z ∈ Finset.range cp.dcg.az, ∑ y ∈ Finset.range cp.dcg.ay, ∑ x ∈ Finset.range cp.dcg.ax,
        if cp.dcg.get x y z < cp.dcg.threshold ∧
            c = ⟨cp.dcg.get x y z, cp.dcg.getIndex x y z 0, 0⟩
        then 1 else 0) ∧
    (∀ c, d ≠ 0 → (assemble_columns_to_reduce cp ctr d).2.count c =
      ∑ z ∈ Finset.range cp.dcg.az, ∑ y ∈ Finset.range cp.dcg.ay, ∑ x ∈ Finset.range cp.dcg.ax,
        ∑ m ∈ Finset.range 3,
          if map_find cp.pivot_column_index (cp.dcg.getIndex x y z m) = none ∧
              cp.dcg.getBirthday x y z m d < cp.dcg.threshold ∧
              c = ⟨cp.dcg.getBirthday x y z m d, cp.dcg.getIndex x y z m, d⟩
          then 1 else 0) ∧
    assemble_columns_to_reduce cp ctr d = assemble_columns_to_reduce cp [] d ∧
    (assemble_columns_to_reduce cp ctr d).1 = { cp with dim := d } := by
  refine ⟨fun c hd => ?_, fun c hd => ?_, rfl, rfl⟩
  · unfold assemble_columns_to_reduce
    simp only [hd, if_true]
    rw [(List.perm_insertionSort SortOrder _).count_eq, count_assemble_vertices]
  · unfold assemble_columns_to_reduce
    simp only [hd, if_false]
    rw [(List.perm_insertionSort SortOrder _).count_eq, count_assemble_cells]

/-- C7: the list returned by `assemble_columns_to_reduce` is sorted by the comparator (no later
element is placed strictly before an earlier one) and is a permutation of the cells collected by
the enumeration loops. -/
theorem assemble_columns_sorted_perm (cp : ComputePairs B) (ctr : List (BirthdayIndex B))
    (d : Int) :
    (assemble_columns_to_reduce cp ctr d).2.Pairwise
      (fun earlier later => BirthdayIndexComparator later earlier = false) ∧
    (assemble_columns_to_reduce cp ctr d).2.Perm
      (if d = 0 then assemble_vertices cp.dcg
        else assemble_cells cp.dcg cp.pivot_column_index d) := by
  unfold assemble_columns_to_reduce
  exact ⟨List.sorted_insertionSort SortOrder _, List.perm_insertionSort SortOrder _⟩

/-! ## The maps -/

theorem map_find_some_mem {K V : Type} [DecidableEq K] {m : List (K × V)} {k : K} {v : V}
    (h : map_find m k = some v) : (k, v) ∈ m := by
  unfold map_find at h
  rcases Option.map_eq_some'.1 h with ⟨e, he, hv⟩
  have h1 := List.mem_of_find?_eq_some he
  have h2 := List.find?_some he
  simp only [decide_eq_true_eq] at h2
  rcases e with ⟨a, b⟩
  simp only at h2 hv
  subst h2; subst hv
  exact h1

theorem map_find_none {K V : Type} [DecidableEq K] {m : List (K × V)} {k : K}
    (h : map_find m k = none) : ∀ e ∈ m, e.1 ≠ k := by
  unfold map_find at h
  rw [Option.map_eq_none', List.find?_eq_none] at h
  intro e he
  simpa using h e he

theorem map_insert_eq_or {K V : Type} [DecidableEq K] (m : List (K × V)) (k : K) (v : V) :
    (map_insert m k v = m ∧ map_find m k ≠ none) ∨
      (map_find m k = none ∧ map_insert m k v = m ++ [(k, v)]) := by
  unfold map_insert
  cases h : map_find m k with
  | none => exact Or.inr ⟨rfl, rfl⟩
  | some w => exact Or.inl ⟨rfl, by simp⟩

theorem mem_map_insert {K V : Type} [DecidableEq K] {m : List (K × V)} {k : K} {v : V}
    {e : K × V} (h : e ∈ map_insert m k v) : e ∈ m ∨ e = (k, v) := by
  rcases map_insert_eq_or m k v with ⟨h1, _⟩ | ⟨_, h1⟩
  · exact Or.inl (h1 ▸ h)
  · rw [h1] at h
    simpa using h

/-! ## The coface scan -/

theorem scan_cofaces_of_found (pci : List (Int × Nat)) (ctrj : BirthdayIndex B)
    (cs : List (BirthdayIndex B)) (s : Scan B) (h : s.found_persistence_pair = true) :
    scan_cofaces pci ctrj cs s = s := by
  cases cs with
  | nil => rfl
  | cons c cs => simp [scan_cofaces, h]

/-- The result of the coface scan, started without a pair found: either a pair is found, and the
pivot is a scanned coface with the birth of `ctr[j]` whose index is not a key of the pivot index,
or none is found, the pivot is untouched and all cofaces have been collected. -/
theorem scan_cofaces_spec (pci : List (Int × Nat)) (ctrj : BirthdayIndex B) :
    ∀ (cs : List (BirthdayIndex B)) (s : Scan B), s.found_persistence_pair = false →
      ((scan_cofaces pci ctrj cs s).found_persistence_pair = true ∧
          (scan_cofaces pci ctrj cs s).pivot ∈ cs ∧
          ctrj.birthday = (scan_cofaces pci ctrj cs s).pivot.birthday ∧
          map_find pci (scan_cofaces pci ctrj cs s).pivot.index = none) ∨
        ((scan_cofaces pci ctrj cs s).found_persistence_pair = false ∧
          (scan_cofaces pci ctrj cs s).pivot = s.pivot ∧
          (scan_cofaces pci ctrj cs s).coface_entries = s.coface_entries ++ cs) := by
  intro cs
  induction cs with
  | nil => intro s hs; right; simp [scan_cofaces, hs]
  | cons c cs ih =>
    intro s hs
    unfold scan_cofaces
    simp only [hs, Bool.false_eq_true, if_false]
    split_ifs with h1 h2
    · left
      rw [scan_cofaces_of_found _ _ _ _ rfl]
      simp only [Bool.and_eq_true, decide_eq_true_eq] at h1
      refine ⟨rfl, by simp, h1.2, ?_⟩
      simpa [Option.isNone_iff_eq_none] using h2
    · have hrec := ih ⟨s.coface_entries ++ [c], s.pivot, false, false⟩ rfl
      rcases hrec with ⟨a1, a2, a3, a4⟩ | ⟨a1, a2, a3⟩
      · exact Or.inl ⟨a1, List.mem_cons_of_mem _ a2, a3, a4⟩
      · exact Or.inr ⟨a1, a2, by rw [a3]; simp⟩
    · have hrec := ih ⟨s.coface_entries ++ [c], s.pivot, s.might_be_apparent_pair,
        false⟩ rfl
      rcases hrec with ⟨a1, a2, a3, a4⟩ | ⟨a1, a2, a3⟩
      · exact Or.inl ⟨a1, List.mem_cons_of_mem _ a2, a3, a4⟩
      · exact Or.inr ⟨a1, a2, by rw [a3]; simp⟩

/-! ## One pass of the `do` body -/

/-- A pass that ends with `continue`: no pair was found by the scan, `get_pivot` delivered a
pivot with an index other than -1, and that index is a key of the pivot index, mapped to the
new `j`. -/
theorem do_body_again {dcg : DenseCubicalGrids B} {dim : Int}
    {cofaces : BirthdayIndex B → List (BirthdayIndex B)} {ctr : List (BirthdayIndex B)} {i : Nat}
    {st : State B} {l l2 : Locals B} (h : do_body dcg dim cofaces ctr i st l = Step.again l2) :
    (scan_column cofaces ctr st l).found_persistence_pair = false ∧
    l2.pivot = (get_pivot (extend_working st l (scan_column cofaces ctr st l).coface_entries)).1 ∧
    l2.working_coboundary =
      (get_pivot (extend_working st l (scan_column cofaces ctr st l).coface_entries)).2 ∧
    l2.might_be_apparent_pair = (scan_column cofaces ctr st l).might_be_apparent_pair ∧
    l2.found_persistence_pair = false ∧
    l2.pivot.index ≠ -1 ∧
    map_find st.pivot_column_index l2.pivot.index = some l2.j := by
  unfold do_body at h
  dsimp only at h
  by_cases hf : (scan_column cofaces ctr st l).found_persistence_pair = true
  · rw [if_pos hf] at h
    cases h
  · rw [if_neg hf] at h
    have hf2 : (scan_column cofaces ctr st l).found_persistence_pair = false := by
      simpa using hf
    by_cases hi : (get_pivot (extend_working st l
        (scan_column cofaces ctr st l).coface_entries)).1.index ≠ -1
    · rw [if_pos hi] at h
      cases hm : map_find st.pivot_column_index (get_pivot (extend_working st l
          (scan_column cofaces ctr st l).coface_entries)).1.index with
      | none => rw [hm] at h; cases h
      | some j2 =>
        rw [hm] at h
        injection h with h
        subst h
        exact ⟨hf2, rfl, rfl, rfl, hf2, hi, hm⟩
    · rw [if_neg hi] at h
      cases h

/-- A pass that ends with `break` does so in one of three ways: with a pair found by the scan
(apparent pair), with a new pivot delivered by `get_pivot`, or with `get_pivot` delivering the
index -1 (empty working coboundary). -/
theorem do_body_exit {dcg : DenseCubicalGrids B} {dim : Int}
    {cofaces : BirthdayIndex B → List (BirthdayIndex B)} {ctr : List (BirthdayIndex B)} {i : Nat}
    {st st2 : State B} {l l2 : Locals B}
    (h : do_body dcg dim cofaces ctr i st l = Step.exit st2 l2) :
    ((scan_column cofaces ctr st l).found_persistence_pair = true ∧
      l2.found_persistence_pair = true ∧ l2.pivot = (scan_column cofaces ctr st l).pivot ∧
      l2.working_coboundary = l.working_coboundary ∧ l2.j = l.j ∧
      st2.pivot_column_index = map_insert st.pivot_column_index l2.pivot.index i ∧
      st2.recorded_wc = st.recorded_wc ∧
      st2.wp = (if (ctr.getD i NONE).birthday ≠ l2.pivot.birthday
        then push_pair dcg st.wp dim (ctr.getD i NONE).birthday l2.pivot.birthday
          (ctr.getD i NONE).index
        else st.wp)) ∨
    ((scan_column cofaces ctr st l).found_persistence_pair = false ∧
      l2.found_persistence_pair = false ∧
      l2.pivot =
        (get_pivot (extend_working st l (scan_column cofaces ctr st l).coface_entries)).1 ∧
      l2.working_coboundary =
        (get_pivot (extend_working st l (scan_column cofaces ctr st l).coface_entries)).2 ∧
      l2.j = l.j ∧ l2.pivot.index ≠ -1 ∧
      map_find st.pivot_column_index l2.pivot.index = none ∧
      st2.pivot_column_index = map_insert st.pivot_column_index l2.pivot.index i ∧
      st2.recorded_wc = map_insert st.recorded_wc i l2.working_coboundary ∧
      st2.wp = (if (ctr.getD i NONE).birthday ≠ l2.pivot.birthday
        then push_pair dcg st.wp dim (ctr.getD i NONE).birthday l2.pivot.birthday
          (ctr.getD i NONE).index
        else st.wp)) ∨
    ((scan_column cofaces ctr st l).found_persistence_pair = false ∧
      l2.found_persistence_pair = false ∧
      l2.pivot =
        (get_pivot (extend_working st l (scan_column cofaces ctr st l).coface_entries)).1 ∧
      l2.working_coboundary =
        (get_pivot (extend_working st l (scan_column cofaces ctr st l).coface_entries)).2 ∧
      l2.j = l.j ∧ l2.pivot.index = -1 ∧
      st2.pivot_column_index = st.pivot_column_index ∧
      st2.recorded_wc = st.recorded_wc ∧
      st2.wp = (if (ctr.getD i NONE).birthday ≠ dcg.threshold
        then push_pair dcg st.wp 0 (ctr.getD i NONE).birthday dcg.threshold
          (ctr.getD i NONE).index
        else st.wp)) := by
  unfold do_body at h
  dsimp only at h
  by_cases hf : (scan_column cofaces ctr st l).found_persistence_pair = true
  · rw [if_pos hf] at h
    injection h with h1 h2
    subst h1 h2
    exact Or.inl ⟨hf, hf, rfl, rfl, rfl, rfl, rfl, rfl⟩
  · rw [if_neg hf] at h
    have hf2 : (scan_column cofaces ctr st l).found_persistence_pair = false := by
      simpa using hf
    by_cases hi : (get_pivot (extend_working st l
        (scan_column cofaces ctr st l).coface_entries)).1.index ≠ -1
    · rw [if_pos hi] at h
      cases hm : map_find st.pivot_column_index (get_pivot (extend_working st l
          (scan_column cofaces ctr st l).coface_entries)).1.index with
      | some j2 => rw [hm] at h; cases h
      | none =>
        rw [hm] at h
        injection h with h1 h2
        subst h1 h2
        exact Or.inr (Or.inl ⟨hf2, hf2, rfl, rfl, rfl, hi, hm, rfl, rfl, rfl⟩)
    · rw [if_neg hi] at h
      injection h with h1 h2
      subst h1 h2
      exact Or.inr (Or.inr ⟨hf2, hf2, rfl, rfl, rfl, not_not.1 hi, rfl, rfl, rfl⟩)

/-! ## The loops -/

/-- Invariant rule for the `do ... while (true)` loop: a property of the local variables that
holds on entry and is kept by every pass ending in `continue` holds at the pass that breaks. -/
theorem column_loop_exit {dcg : DenseCubicalGrids B} {dim : Int}
    {cofaces : BirthdayIndex B → List (BirthdayIndex B)} {ctr : List (BirthdayIndex B)} {i : Nat}
    {st : State B} (P : Locals B → Prop)
    (hstep : ∀ l l2, P l → do_body dcg dim cofaces ctr i st l = Step.again l2 → P l2) :
    ∀ (fuel : Nat) (l : Locals B), P l → ∀ st2 l2,
      column_loop dcg dim cofaces ctr i st fuel l = some (st2, l2) →
      ∃ l0, P l0 ∧ do_body dcg dim cofaces ctr i st l0 = Step.exit st2 l2 := by
  intro fuel
  induction fuel with
  | zero => intro l _ st2 l2 h; simp [column_loop] at h
  | succ fuel ih =>
    intro l hl st2 l2 h
    unfold column_loop at h
    cases hb : do_body dcg dim cofaces ctr i st l with
    | again l3 =>
      rw [hb] at h
      exact ih l3 (hstep l l3 hl hb) st2 l2 h
    | exit st3 l3 =>
      rw [hb] at h
      simp only [Option.some.injEq, Prod.mk.injEq] at h
      obtain ⟨h1, h2⟩ := h
      subst h1 h2
      exact ⟨l, hl, hb⟩

/-- Invariant rule for the `for` loop over the columns: a property of the column position and the
state that every completed column carries from `i` to `i + 1` holds for the state the loop ends
in, at the position of the first column that was not completed (`n` columns further when all
were). -/
theorem for_columns_invariant {dcg : DenseCubicalGrids B} {dim : Int}
    {cofaces : BirthdayIndex B → List (BirthdayIndex B)} {ctr : List (BirthdayIndex B)}
    {fuel : Nat} (Inv : Nat → State B → Prop)
    (hstep : ∀ i st st2 l2, i < ctr.length → Inv i st →
      reduce_column dcg dim cofaces ctr fuel i st = some (st2, l2) → Inv (i + 1) st2) :
    ∀ (n i : Nat) (st : State B), i + n ≤ ctr.length → Inv i st →
      ∃ k, k ≤ n ∧ Inv (i + k) (for_columns dcg dim cofaces ctr fuel n i st).1 ∧
        ((for_columns dcg dim cofaces ctr fuel n i st).2 = true → k = n) := by
  intro n
  induction n with
  | zero => intro i st _ h; exact ⟨0, le_refl _, h, fun _ => rfl⟩
  | succ n ih =>
    intro i st hn h
    unfold for_columns
    cases hr : reduce_column dcg dim cofaces ctr fuel i st with
    | none => exact ⟨0, Nat.zero_le _, h, fun hf => by simp at hf⟩
    | some r =>
      obtain ⟨st2, l2⟩ := r
      have h2 := hstep i st st2 l2 (by omega) h hr
      obtain ⟨k, hk, hinv, hfin⟩ := ih (i + 1) st2 (by omega) h2
      refine ⟨k + 1, by omega, ?_, fun hf => by rw [hfin hf]⟩
      have : i + (k + 1) = i + 1 + k := by omega
      rw [this]
      exact hinv

/-! ## Membership in the queues -/

theorem mem_pushAll (es : List (BirthdayIndex B)) : ∀ (q : PQ B) (e : BirthdayIndex B),
    e ∈ (q.pushAll es).data ↔ e ∈ q.data ∨ e ∈ es := by
  induction es with
  | nil => intro q e; simp [PQ.pushAll]
  | cons a es ih =>
    intro q e
    have : q.pushAll (a :: es) = (q.push a).pushAll es := rfl
    rw [this, ih]
    simp only [PQ.push, List.mem_orderedInsert, List.mem_cons]
    tauto

/-- `get_pivot` invents nothing: what it returns is an entry of the column or the sentinel, and
what it leaves are entries of the column. -/
theorem get_pivot_mem (q : PQ B) :
    ((get_pivot q).1 ∈ q.data ∨ (get_pivot q).1 = NONE) ∧
      ∀ e ∈ (get_pivot q).2.data, e ∈ q.data := by
  have hfst : (get_pivot q).1 = (pop_pivot q).1 := by
    unfold get_pivot
    dsimp only
    split_ifs <;> rfl
  rcases pop_pivot_spec q with ⟨h1, h2, _⟩ | ⟨pre, h1, _, _⟩
  · refine ⟨Or.inr (hfst.trans h1), ?_⟩
    have : (get_pivot q).2 = (pop_pivot q).2 := by
      unfold get_pivot
      simp [h1, NONE]
    rw [this, h2]
    simp
  · refine ⟨Or.inl (by rw [hfst, h1]; simp), ?_⟩
    intro e he
    have hsub : e ∈ (pop_pivot q).1 :: (pop_pivot q).2.data := by
      unfold get_pivot at he
      dsimp only at he
      split_ifs at he
      · simpa [PQ.push, List.mem_orderedInsert] using he
      · exact List.mem_cons_of_mem _ he
    rw [h1]
    exact List.mem_append_right _ hsub

theorem mem_extend_working {st : State B} {l : Locals B} {entries : List (BirthdayIndex B)}
    {e : BirthdayIndex B} (h : e ∈ (extend_working st l entries).data) :
    e ∈ l.working_coboundary.data ∨
      (∃ wc, map_find st.recorded_wc l.j = some wc ∧ e ∈ wc.data) ∨
      (map_find st.recorded_wc l.j = none ∧ e ∈ entries) := by
  unfold extend_working at h
  cases hm : map_find st.recorded_wc l.j with
  | none =>
    rw [hm] at h
    rcases (mem_pushAll _ _ _).1 h with h1 | h1
    · exact Or.inl h1
    · exact Or.inr (Or.inr ⟨rfl, h1⟩)
  | some wc =>
    rw [hm] at h
    rcases (mem_pushAll _ _ _).1 h with h1 | h1
    · exact Or.inl h1
    · exact Or.inr (Or.inl ⟨wc, rfl, h1⟩)

/-- The scan of a pass entered without a pair found. -/
theorem scan_column_spec (cofaces : BirthdayIndex B → List (BirthdayIndex B))
    (ctr : List (BirthdayIndex B)) (st : State B) (l : Locals B)
    (hl : l.found_persistence_pair = false) :
    ((scan_column cofaces ctr st l).found_persistence_pair = true ∧
        (scan_column cofaces ctr st l).pivot ∈ cofaces (ctr.getD l.j NONE) ∧
        (ctr.getD l.j NONE).birthday = (scan_column cofaces ctr st l).pivot.birthday ∧
        map_find st.pivot_column_index (scan_column cofaces ctr st l).pivot.index = none) ∨
      ((scan_column cofaces ctr st l).found_persistence_pair = false ∧
        (scan_column cofaces ctr st l).coface_entries = cofaces (ctr.getD l.j NONE)) := by
  unfold scan_column
  rcases scan_cofaces_spec st.pivot_column_index (ctr.getD l.j NONE)
      (cofaces (ctr.getD l.j NONE)) ⟨[], l.pivot, l.might_be_apparent_pair,
        l.found_persistence_pair⟩ hl with h | ⟨h1, _, h3⟩
  · exact Or.inl h
  · exact Or.inr ⟨h1, by simpa using h3⟩

theorem getD_mem (ctr : List (BirthdayIndex B)) {i : Nat} (h : i < ctr.length) :
    ctr.getD i NONE ∈ ctr := by
  rw [List.getD_eq_getElem _ _ h]
  exact List.getElem_mem h

/-- In a list sorted by the comparator the births do not increase. -/
theorem sorted_birthday_le (ctr : List (BirthdayIndex B))
    (hsorted : ctr.Pairwise (fun earlier later => BirthdayIndexComparator later earlier = false))
    {j i : Nat} (hji : j ≤ i) (hi : i < ctr.length) :
    (ctr.getD i NONE).birthday ≤ (ctr.getD j NONE).birthday := by
  rcases Nat.lt_or_eq_of_le hji with hlt | rfl
  · rw [List.getD_eq_getElem _ _ hi, List.getD_eq_getElem _ _ (lt_trans hlt hi)]
    have := List.pairwise_iff_getElem.1 hsorted j i (lt_trans hlt hi) hi hlt
    exact queueOrder_birthday_le this
  · exact le_refl _

/-! ## Births along the reduction -/

section Births

variable {dcg : DenseCubicalGrids B} {dim : Int}
  {cofaces : BirthdayIndex B → List (BirthdayIndex B)} {ctr : List (BirthdayIndex B)}

/-- Whatever a pass pushes into the working coboundary is born no earlier than column `i`. -/
theorem extend_working_birth_ge
    (hsorted : ctr.Pairwise (fun earlier later => BirthdayIndexComparator later earlier = false))
    (hcof : ∀ c ∈ ctr, ∀ e ∈ cofaces c, c.birthday ≤ e.birthday)
    {i : Nat} (hi : i < ctr.length) {st : State B} (hinv : RunInv ctr i st) {l : Locals B}
    (hl : LoopInv ctr i l)
    (hscan : (scan_column cofaces ctr st l).found_persistence_pair = false) :
    ∀ e ∈ (extend_working st l (scan_column cofaces ctr st l).coface_entries).data,
      (ctr.getD i NONE).birthday ≤ e.birthday := by
  intro e he
  have hji := sorted_birthday_le ctr hsorted hl.2.1 hi
  rcases mem_extend_working he with h1 | ⟨wc, hwc, h1⟩ | ⟨_, h1⟩
  · exact hl.2.2 e h1
  · exact le_trans hji ((hinv.2 _ (map_find_some_mem hwc)).2 e h1)
  · rcases scan_column_spec cofaces ctr st l hl.1 with ⟨hf, _⟩ | ⟨_, hent⟩
    · rw [hf] at hscan; cases hscan
    · rw [hent] at h1
      exact le_trans hji (hcof _ (getD_mem ctr (lt_of_le_of_lt hl.2.1 hi)) e h1)

/-- The loop invariant is kept by a pass that ends with `continue`. -/
theorem loopInv_again
    (hsorted : ctr.Pairwise (fun earlier later => BirthdayIndexComparator later earlier = false))
    (hcof : ∀ c ∈ ctr, ∀ e ∈ cofaces c, c.birthday ≤ e.birthday)
    {i : Nat} (hi : i < ctr.length) {st : State B} (hinv : RunInv ctr i st) (l l2 : Locals B)
    (hl : LoopInv ctr i l) (h : do_body dcg dim cofaces ctr i st l = Step.again l2) :
    LoopInv ctr i l2 := by
  obtain ⟨hscan, _, hw, _, hf, _, hfind⟩ := do_body_again h
  refine ⟨hf, le_of_lt (hinv.1 _ (map_find_some_mem hfind)), ?_⟩
  intro e he
  rw [hw] at he
  exact extend_working_birth_ge hsorted hcof hi hinv hl hscan e ((get_pivot_mem _).2 e he)

theorem loopInv_initial (i : Nat) : LoopInv ctr i (initial_locals i) := by
  refine ⟨rfl, le_refl _, ?_⟩
  intro e he
  simp [initial_locals, PQ.nil] at he

/-- The pass at which the loop of column `i` breaks is entered with the loop invariant. -/
theorem reduce_column_exit
    (hsorted : ctr.Pairwise (fun earlier later => BirthdayIndexComparator later earlier = false))
    (hcof : ∀ c ∈ ctr, ∀ e ∈ cofaces c, c.birthday ≤ e.birthday)
    {fuel i : Nat} (hi : i < ctr.length) {st st2 : State B} (hinv : RunInv ctr i st)
    {l2 : Locals B} (h : reduce_column dcg dim cofaces ctr fuel i st = some (st2, l2)) :
    ∃ l0, LoopInv ctr i l0 ∧ do_body dcg dim cofaces ctr i st l0 = Step.exit st2 l2 :=
  column_loop_exit (LoopInv ctr i) (fun l l3 hl hb => loopInv_again hsorted hcof hi hinv l l3 hl hb)
    fuel (initial_locals i) (loopInv_initial i) st2 l2 h

/-- A completed column keeps the invariant of the run, and the pivot it ends with, when `get_pivot`
or the scan delivered one, is born no earlier than the column. -/
theorem reduce_column_runInv
    (hsorted : ctr.Pairwise (fun earlier later => BirthdayIndexComparator later earlier = false))
    (hcof : ∀ c ∈ ctr, ∀ e ∈ cofaces c, c.birthday ≤ e.birthday)
    {fuel i : Nat} (hi : i < ctr.length) {st st2 : State B} (hinv : RunInv ctr i st)
    {l2 : Locals B} (h : reduce_column dcg dim cofaces ctr fuel i st = some (st2, l2)) :
    RunInv ctr (i + 1) st2 ∧
      (l2.found_persistence_pair = true ∨ l2.pivot.index ≠ -1 →
        (ctr.getD i NONE).birthday ≤ l2.pivot.birthday) := by
  obtain ⟨l0, hl0, hb⟩ := reduce_column_exit hsorted hcof hi hinv h
  have hold1 : ∀ kv ∈ st.pivot_column_index, kv.2 < i + 1 :=
    fun kv hkv => Nat.lt_succ_of_lt (hinv.1 kv hkv)
  have hold2 : ∀ kw ∈ st.recorded_wc, kw.1 < i + 1 ∧
      ∀ e ∈ kw.2.data, (ctr.getD kw.1 NONE).birthday ≤ e.birthday :=
    fun kw hkw => ⟨Nat.lt_succ_of_lt (hinv.2 kw hkw).1, (hinv.2 kw hkw).2⟩
  have hins : ∀ k, ∀ kv ∈ map_insert st.pivot_column_index k i, kv.2 < i + 1 := by
    intro k kv hkv
    rcases mem_map_insert hkv with h1 | h1
    · exact hold1 kv h1
    · rw [h1]; exact Nat.lt_succ_self i
  rcases do_body_exit hb with ⟨hs, hf, hp, _, _, hpci, hrec, _⟩ |
    ⟨hs, hf, hp, hw, _, hidx, _, hpci, hrec, _⟩ | ⟨_, hf, _, _, _, hidx, hpci, hrec, _⟩
  · refine ⟨⟨by rw [hpci]; exact hins _, by rw [hrec]; exact hold2⟩, fun _ => ?_⟩
    rcases scan_column_spec cofaces ctr st l0 hl0.1 with ⟨_, _, hbirth, _⟩ | ⟨hnf, _⟩
    · rw [hp, ← hbirth]
      exact sorted_birthday_le ctr hsorted hl0.2.1 hi
    · rw [hnf] at hs; cases hs
  · have hge := extend_working_birth_ge hsorted hcof hi hinv hl0 hs
    refine ⟨⟨by rw [hpci]; exact hins _, ?_⟩, fun _ => ?_⟩
    · rw [hrec]
      intro kw hkw
      rcases mem_map_insert hkw with h1 | h1
      · exact hold2 kw h1
      · rw [h1]
        refine ⟨Nat.lt_succ_self i, fun e he => ?_⟩
        rw [hw] at he
        exact hge e ((get_pivot_mem _).2 e he)
    · rcases (get_pivot_mem (extend_working st l0
          (scan_column cofaces ctr st l0).coface_entries)).1 with h1 | h1
      · rw [hp]; exact hge _ h1
      · rw [hp, h1] at hidx
        exact absurd rfl hidx
  · refine ⟨⟨by rw [hpci]; exact hold1, by rw [hrec]; exact hold2⟩, fun hor => ?_⟩
    rcases hor with h1 | h1
    · rw [hf] at h1; cases h1
    · exact absurd hidx h1

end Births

/-! ## What a column writes -/

section Writes

variable {dcg : DenseCubicalGrids B} {dim : Int}
  {cofaces : BirthdayIndex B → List (BirthdayIndex B)} {ctr : List (BirthdayIndex B)}

/-- The pass at which the loop of a column breaks is entered without a pair found. -/
theorem reduce_column_exit_pass {fuel i : Nat} {st st2 : State B} {l2 : Locals B}
    (h : reduce_column dcg dim cofaces ctr fuel i st = some (st2, l2)) :
    ∃ l0, l0.found_persistence_pair = false ∧
      do_body dcg dim cofaces ctr i st l0 = Step.exit st2 l2 :=
  column_loop_exit (fun l => l.found_persistence_pair = false)
    (fun _ _ _ hb => (do_body_again hb).2.2.2.2.1) fuel (initial_locals i) rfl st2 l2 h

/-- What a completed column has done to the state, by the way its loop was left: with a pivot
(from the scan or from `get_pivot`) the pivot's index was not a key and is entered for column `i`,
and the pair is written unless it is trivial; without one, the pair with death `threshold` is
written (with dimension 0) unless it is trivial, and the pivot index is as before. -/
theorem reduce_column_effect {fuel i : Nat} {st st2 : State B} {l2 : Locals B}
    (h : reduce_column dcg dim cofaces ctr fuel i st = some (st2, l2)) :
    ((l2.found_persistence_pair = true ∨ l2.pivot.index ≠ -1) ∧
      map_find st.pivot_column_index l2.pivot.index = none ∧
      st2.pivot_column_index = st.pivot_column_index ++ [(l2.pivot.index, i)] ∧
      st2.wp = (if (ctr.getD i NONE).birthday ≠ l2.pivot.birthday
        then push_pair dcg st.wp dim (ctr.getD i NONE).birthday l2.pivot.birthday
          (ctr.getD i NONE).index
        else st.wp)) ∨
    ((l2.found_persistence_pair = false ∧ l2.pivot.index = -1) ∧
      st2.pivot_column_index = st.pivot_column_index ∧
      st2.wp = (if (ctr.getD i NONE).birthday ≠ dcg.threshold
        then push_pair dcg st.wp 0 (ctr.getD i NONE).birthday dcg.threshold
          (ctr.getD i NONE).index
        else st.wp)) := by
  obtain ⟨l0, hl0, hb⟩ := reduce_column_exit_pass h
  rcases do_body_exit hb with ⟨hs, hf, hp, _, _, hpci, _, hwp⟩ |
    ⟨_, _, _, _, _, hidx, hnone, hpci, _, hwp⟩ | ⟨_, hf, _, _, _, hidx, hpci, _, hwp⟩
  · left
    have hnone : map_find st.pivot_column_index l2.pivot.index = none := by
      rcases scan_column_spec cofaces ctr st l0 hl0 with ⟨_, _, _, h4⟩ | ⟨hnf, _⟩
      · rw [hp]; exact h4
      · rw [hnf] at hs; cases hs
    refine ⟨Or.inl hf, hnone, ?_, hwp⟩
    rw [hpci]
    rcases map_insert_eq_or st.pivot_column_index l2.pivot.index i with ⟨_, h1⟩ | ⟨_, h1⟩
    · exact absurd hnone h1
    · exact h1
  · left
    refine ⟨Or.inr hidx, hnone, ?_, hwp⟩
    rw [hpci]
    rcases map_insert_eq_or st.pivot_column_index l2.pivot.index i with ⟨_, h1⟩ | ⟨_, h1⟩
    · exact absurd hnone h1
    · exact h1
  · exact Or.inr ⟨⟨hf, hidx⟩, hpci, hwp⟩

/-- A completed column appends nothing or one pair; the pair has the birth of the column, the
location of the column's cell, and a death other than the birth. -/
theorem reduce_column_appends {fuel i : Nat} {st st2 : State B} {l2 : Locals B}
    (h : reduce_column dcg dim cofaces ctr fuel i st = some (st2, l2)) :
    st2.wp = st.wp ∨ ∃ p, st2.wp = st.wp ++ [p] ∧ p.birth = (ctr.getD i NONE).birthday ∧
      p.birth ≠ p.death ∧
      (p.death = l2.pivot.birthday ∨ p.death = dcg.threshold) ∧
      p.birth_x = (dcg.getXYZM (ctr.getD i NONE).index).getD 0 0 ∧
      p.birth_y = (dcg.getXYZM (ctr.getD i NONE).index).getD 1 0 ∧
      p.birth_z = (dcg.getXYZM (ctr.getD i NONE).index).getD 2 0 := by
  rcases reduce_column_effect h with ⟨_, _, _, hwp⟩ | ⟨_, _, hwp⟩
  · by_cases hne : (ctr.getD i NONE).birthday ≠ l2.pivot.birthday
    · rw [if_pos hne] at hwp
      exact Or.inr ⟨_, hwp, rfl, hne, Or.inl rfl, rfl, rfl, rfl⟩
    · rw [if_neg hne] at hwp
      exact Or.inl hwp
  · by_cases hne : (ctr.getD i NONE).birthday ≠ dcg.threshold
    · rw [if_pos hne] at hwp
      exact Or.inr ⟨_, hwp, rfl, hne, Or.inr rfl, rfl, rfl, rfl⟩
    · rw [if_neg hne] at hwp
      exact Or.inl hwp

end Writes

/-! ## Claims on the pairs written by `compute_pairs_main` -/

/-- For a column list sorted by the comparator whose births are below the threshold, and a
coboundary enumerator that yields for a column only cofaces born no earlier than the column, every
pair that `compute_pairs_main` appends to the pair list has `birth <= death` and
`birth < threshold`. -/
theorem birth_le_death_of_sorted_columns (cp : ComputePairs B)
    (cofaces : BirthdayIndex B → List (BirthdayIndex B)) (ctr : List (BirthdayIndex B))
    (fuel : Nat)
    (hsorted : ctr.Pairwise (fun earlier later => BirthdayIndexComparator later earlier = false))
    (hthr : ∀ c ∈ ctr, c.birthday < cp.dcg.threshold)
    (hcof2 : ∀ c ∈ ctr, ∀ e ∈ cofaces c, c.birthday ≤ e.birthday) :
    ∃ appended, (compute_pairs_main cp cofaces ctr fuel).1.wp = cp.wp ++ appended ∧
      ∀ p ∈ appended, p.birth ≤ p.death ∧ p.birth < cp.dcg.threshold := by
  have key := @for_columns_invariant B _ _ cp.dcg cp.dim cofaces ctr fuel
    (fun i st => RunInv ctr i st ∧ ∃ appended, st.wp = cp.wp ++ appended ∧
      ∀ p ∈ appended, p.birth ≤ p.death ∧ p.birth < cp.dcg.threshold)
    (by
      intro i st st2 l2 hi hinv h
      obtain ⟨hrun, appended, hwp, hall⟩ := hinv
      obtain ⟨hrun2, hbirth⟩ := reduce_column_runInv hsorted hcof2 hi hrun h
      have hlt := hthr _ (getD_mem ctr hi)
      refine ⟨hrun2, ?_⟩
      rcases reduce_column_effect h with ⟨hor, _, _, hwp2⟩ | ⟨_, _, hwp2⟩
      · by_cases hne : (ctr.getD i NONE).birthday ≠ l2.pivot.birthday
        · rw [if_pos hne] at hwp2
          refine ⟨appended ++ [⟨cp.dim, (ctr.getD i NONE).birthday, l2.pivot.birthday, _, _, _⟩],
            by rw [hwp2, push_pair, hwp, List.append_assoc], ?_⟩
          intro p hp
          rcases List.mem_append.1 hp with h1 | h1
          · exact hall p h1
          · rw [List.mem_singleton.1 h1]
            exact ⟨hbirth hor, hlt⟩
        · rw [if_neg hne] at hwp2
          exact ⟨appended, by rw [hwp2, hwp], hall⟩
      · by_cases hne : (ctr.getD i NONE).birthday ≠ cp.dcg.threshold
        · rw [if_pos hne] at hwp2
          refine ⟨appended ++ [⟨0, (ctr.getD i NONE).birthday, cp.dcg.threshold, _, _, _⟩],
            by rw [hwp2, push_pair, hwp, List.append_assoc], ?_⟩
          intro p hp
          rcases List.mem_append.1 hp with h1 | h1
          · exact hall p h1
          · rw [List.mem_singleton.1 h1]
            exact ⟨le_of_lt hlt, hlt⟩
        · rw [if_neg hne] at hwp2
          exact ⟨appended, by rw [hwp2, hwp], hall⟩)
    ctr.length 0 (initial_state cp) (by omega)
    ⟨⟨by simp [initial_state], by simp [initial_state]⟩, [], by simp [initial_state], by simp⟩
  obtain ⟨k, _, ⟨_, hres⟩, _⟩ := key
  exact hres

/-- Every cell that `assemble_columns_to_reduce` returns is born below the threshold. -/
theorem assemble_birthday_lt (cp : ComputePairs B) (ctr : List (BirthdayIndex B)) (d : Int) :
    ∀ c ∈ (assemble_columns_to_reduce cp ctr d).2, c.birthday < cp.dcg.threshold := by
  intro c hc
  unfold assemble_columns_to_reduce at hc
  rw [List.mem_insertionSort] at hc
  dsimp only at hc
  split_ifs at hc
  · simp only [assemble_vertices, List.mem_flatMap, List.mem_range] at hc
    obtain ⟨z, _, y, _, x, _, hx⟩ := hc
    split_ifs at hx with hlt
    · rw [List.mem_singleton.1 hx]; exact hlt
    · simp at hx
  · simp only [assemble_cells, List.mem_flatMap, List.mem_range] at hc
    obtain ⟨z, _, y, _, x, _, m, _, hm⟩ := hc
    split_ifs at hm with _ hlt
    · rw [List.mem_singleton.1 hm]; exact hlt
    · simp at hm
    · simp at hm

/-- C1: for every grid, threshold and column list produced by `assemble_columns_to_reduce`, and a
coboundary enumerator that yields for a column only cofaces born no earlier than the column and
below the threshold, every pair that `compute_pairs_main` appends to the pair list has
`birth <= death` and `birth < threshold`; this holds of the pairs appended so far also when the
run is cut off by the bound on the passes of an inner loop. -/
theorem compute_pairs_birth_le_death (cp : ComputePairs B) (ctr0 : List (BirthdayIndex B))
    (d : Int) (cofaces : BirthdayIndex B → List (BirthdayIndex B)) (fuel : Nat)
    (hcof : ∀ c ∈ (assemble_columns_to_reduce cp ctr0 d).2, ∀ e ∈ cofaces c,
      c.birthday ≤ e.birthday ∧ e.birthday < cp.dcg.threshold) :
    ∃ appended,
      (compute_pairs_main (assemble_columns_to_reduce cp ctr0 d).1 cofaces
        (assemble_columns_to_reduce cp ctr0 d).2 fuel).1.wp = cp.wp ++ appended ∧
      ∀ p ∈ appended, p.birth ≤ p.death ∧ p.birth < cp.dcg.threshold :=
  birth_le_death_of_sorted_columns (assemble_columns_to_reduce cp ctr0 d).1 cofaces
    (assemble_columns_to_reduce cp ctr0 d).2 fuel
    (List.sorted_insertionSort SortOrder _) (assemble_birthday_lt cp ctr0 d)
    (fun c hc e he => (hcof c hc e he).1)

/-- C1 on the 3x1x1 grid with births 0, 2, 1: its dimension-0 columns with the edges as
cofaces. -/
theorem compute_pairs_birth_le_death_witness :
    ∃ appended,
      (compute_pairs_main
        (assemble_columns_to_reduce (⟨grid3, 0, [], []⟩ : ComputePairs Int) [] 0).1 cofaces3
        (assemble_columns_to_reduce (⟨grid3, 0, [], []⟩ : ComputePairs Int) [] 0).2 5).1.wp =
        [] ++ appended ∧
      ∀ p ∈ appended, p.birth ≤ p.death ∧ p.birth < grid3.threshold :=
  compute_pairs_birth_le_death (⟨grid3, 0, [], []⟩ : ComputePairs Int) [] 0 cofaces3 5
    (by decide)

/-- C2: `compute_pairs_main` never writes a trivial pair and suppresses only trivial ones. A column
whose loop is left with a pivot (found by the scan, or delivered by `get_pivot` with an index other
than -1) appends the pair `(dim, birth, pivot.birth, location)` if `birth != pivot.birth` and
nothing otherwise; a column whose working coboundary reduces to empty appends the pair with
death `threshold` if `birth != threshold` and nothing otherwise; and every pair the run appends
has `birth != death`. -/
theorem pair_suppressed_iff_trivial (cp : ComputePairs B)
    (cofaces : BirthdayIndex B → List (BirthdayIndex B)) (ctr : List (BirthdayIndex B))
    (fuel : Nat) :
    (∀ (i : Nat) (st st2 : State B) (l2 : Locals B),
      reduce_column cp.dcg cp.dim cofaces ctr fuel i st = some (st2, l2) →
        ((l2.found_persistence_pair = true ∨ l2.pivot.index ≠ -1) ∧
          st2.wp = (if (ctr.getD i NONE).birthday ≠ l2.pivot.birthday
            then push_pair cp.dcg st.wp cp.dim (ctr.getD i NONE).birthday l2.pivot.birthday
              (ctr.getD i NONE).index
            else st.wp)) ∨
        ((l2.found_persistence_pair = false ∧ l2.pivot.index = -1) ∧
          st2.wp = (if (ctr.getD i NONE).birthday ≠ cp.dcg.threshold
            then push_pair cp.dcg st.wp 0 (ctr.getD i NONE).birthday cp.dcg.threshold
              (ctr.getD i NONE).index
            else st.wp))) ∧
    ∃ appended, (compute_pairs_main cp cofaces ctr fuel).1.wp = cp.wp ++ appended ∧
      ∀ p ∈ appended, p.birth ≠ p.death := by
  constructor
  · intro i st st2 l2 h
    rcases reduce_column_effect h with ⟨hor, _, _, hwp⟩ | ⟨hand, _, hwp⟩
    · exact Or.inl ⟨hor, hwp⟩
    · exact Or.inr ⟨hand, hwp⟩
  · have key := @for_columns_invariant B _ _ cp.dcg cp.dim cofaces ctr fuel
      (fun _ st => ∃ appended, st.wp = cp.wp ++ appended ∧ ∀ p ∈ appended, p.birth ≠ p.death)
      (by
        intro i st st2 l2 _ hinv h
        obtain ⟨appended, hwp, hall⟩ := hinv
        rcases reduce_column_appends h with h1 | ⟨p, h1, _, hne, _⟩
        · exact ⟨appended, by rw [h1, hwp], hall⟩
        · refine ⟨appended ++ [p], by rw [h1, hwp, List.append_assoc], ?_⟩
          intro q hq
          rcases List.mem_append.1 hq with h2 | h2
          · exact hall q h2
          · rw [List.mem_singleton.1 h2]; exact hne)
      ctr.length 0 (initial_state cp) (by omega) ⟨[], by simp [initial_state], by simp⟩
    obtain ⟨k, _, hres, _⟩ := key
    exact hres

/-- C9: each column contributes at most one pair and the pairs are appended in column order. The
pairs appended by `compute_pairs_main` are the contributions, each a pair or nothing, of the
columns 0, 1, 2, ... in this order (of all columns when the run is completed), and the pair
contributed by column `i` has the birth of `ctr[i]` and as location the first three components of
`getXYZM(ctr[i].index)`, the location of the birth cell. -/
theorem pairs_in_column_order (cp : ComputePairs B)
    (cofaces : BirthdayIndex B → List (BirthdayIndex B)) (ctr : List (BirthdayIndex B))
    (fuel : Nat) :
    ∃ contribution : List (Option (WritePairs B)),
      contribution.length ≤ ctr.length ∧
      ((compute_pairs_main cp cofaces ctr fuel).2 = true → contribution.length = ctr.length) ∧
      (compute_pairs_main cp cofaces ctr fuel).1.wp = cp.wp ++ contribution.filterMap id ∧
      ∀ (i : Nat) (p : WritePairs B), contribution[i]? = some (some p) →
        p.birth = (ctr.getD i NONE).birthday ∧
        p.birth_x = (cp.dcg.getXYZM (ctr.getD i NONE).index).getD 0 0 ∧
        p.birth_y = (cp.dcg.getXYZM (ctr.getD i NONE).index).getD 1 0 ∧
        p.birth_z = (cp.dcg.getXYZM (ctr.getD i NONE).index).getD 2 0 := by
  have key := @for_columns_invariant B _ _ cp.dcg cp.dim cofaces ctr fuel
    (fun n st => ∃ contribution : List (Option (WritePairs B)),
      contribution.length = n ∧ st.wp = cp.wp ++ contribution.filterMap id ∧
      ∀ (i : Nat) (p : WritePairs B), contribution[i]? = some (some p) →
        p.birth = (ctr.getD i NONE).birthday ∧
        p.birth_x = (cp.dcg.getXYZM (ctr.getD i NONE).index).getD 0 0 ∧
        p.birth_y = (cp.dcg.getXYZM (ctr.getD i NONE).index).getD 1 0 ∧
        p.birth_z = (cp.dcg.getXYZM (ctr.getD i NONE).index).getD 2 0)
    (by
      intro i st st2 l2 _ hinv h
      obtain ⟨contribution, hlen, hwp, hall⟩ := hinv
      have hget : ∀ (x : Option (WritePairs B)) (k : Nat) (p : WritePairs B),
          (contribution ++ [x])[k]? = some (some p) →
          contribution[k]? = some (some p) ∨ (k = i ∧ x = some p) := by
        intro x k p hk
        rcases Nat.lt_or_ge k contribution.length with hlt | hge
        · rw [List.getElem?_append_left hlt] at hk
          exact Or.inl hk
        · rw [List.getElem?_append_right hge] at hk
          right
          have hk0 : k - contribution.length = 0 := by
            by_contra hne
            cases hkk : k - contribution.length with
            | zero => exact hne hkk
            | succ m => rw [hkk] at hk; simp at hk
          rw [hk0] at hk
          simp only [List.getElem?_cons_zero, Option.some.injEq] at hk
          exact ⟨by omega, hk⟩
      rcases reduce_column_appends h with h1 | ⟨p, h1, hb, _, _, hx, hy, hz⟩
      · refine ⟨contribution ++ [none], by simp [hlen], by rw [h1, hwp]; simp, ?_⟩
        intro k q hk
        rcases hget none k q hk with h2 | ⟨_, h2⟩
        · exact hall k q h2
        · cases h2
      · refine ⟨contribution ++ [some p], by simp [hlen],
          by rw [h1, hwp]; simp, ?_⟩
        intro k q hk
        rcases hget (some p) k q hk with h2 | ⟨h2, h3⟩
        · exact hall k q h2
        · cases h3
          rw [h2]
          exact ⟨hb, hx, hy, hz⟩)
    ctr.length 0 (initial_state cp) (by omega)
    ⟨[], rfl, by simp [initial_state], by simp⟩
  obtain ⟨k, hk, ⟨contribution, hlen, hwp, hall⟩, hfin⟩ := key
  refine ⟨contribution, by omega, fun hf => ?_, hwp, hall⟩
  have := hfin hf
  omega

/-! ## Claims on the pivot index -/

/-- C3: within one run of `compute_pairs_main` no two columns are paired with the same death cell.
A completed column that ends with a pivot enters the pivot's index, which was not a key, for
itself, and writes its finite pair (if not trivial) in that case only; a column that ends without
a pivot leaves the pivot index as it is. So in the pivot index of the run the keys are pairwise
different, the column ids are strictly increasing, and two entries have the same key iff they
have the same column. -/
theorem pivot_column_index_injective (cp : ComputePairs B)
    (cofaces : BirthdayIndex B → List (BirthdayIndex B)) (ctr : List (BirthdayIndex B))
    (fuel : Nat) :
    (∀ (i : Nat) (st st2 : State B) (l2 : Locals B),
      reduce_column cp.dcg cp.dim cofaces ctr fuel i st = some (st2, l2) →
        ((l2.found_persistence_pair = true ∨ l2.pivot.index ≠ -1) ∧
          map_find st.pivot_column_index l2.pivot.index = none ∧
          st2.pivot_column_index = st.pivot_column_index ++ [(l2.pivot.index, i)] ∧
          st2.wp = (if (ctr.getD i NONE).birthday ≠ l2.pivot.birthday
            then push_pair cp.dcg st.wp cp.dim (ctr.getD i NONE).birthday l2.pivot.birthday
              (ctr.getD i NONE).index
            else st.wp)) ∨
        ((l2.found_persistence_pair = false ∧ l2.pivot.index = -1) ∧
          st2.pivot_column_index = st.pivot_column_index ∧
          st2.wp = (if (ctr.getD i NONE).birthday ≠ cp.dcg.threshold
            then push_pair cp.dcg st.wp 0 (ctr.getD i NONE).birthday cp.dcg.threshold
              (ctr.getD i NONE).index
            else st.wp))) ∧
    ((compute_pairs_main cp cofaces ctr fuel).1.pivot_column_index.map Prod.fst).Nodup ∧
    ((compute_pairs_main cp cofaces ctr fuel).1.pivot_column_index.map Prod.snd).Pairwise
      (fun earlier later => earlier < later) ∧
    (∀ kv ∈ (compute_pairs_main cp cofaces ctr fuel).1.pivot_column_index, kv.2 < ctr.length) ∧
    ∀ kv1 ∈ (compute_pairs_main cp cofaces ctr fuel).1.pivot_column_index,
      ∀ kv2 ∈ (compute_pairs_main cp cofaces ctr fuel).1.pivot_column_index,
        (kv1.1 = kv2.1 ↔ kv1.2 = kv2.2) := by
  refine ⟨fun i st st2 l2 h => reduce_column_effect h, ?_⟩
  have key := @for_columns_invariant B _ _ cp.dcg cp.dim cofaces ctr fuel
    (fun n st => (st.pivot_column_index.map Prod.fst).Nodup ∧
      (st.pivot_column_index.map Prod.snd).Pairwise (fun earlier later => earlier < later) ∧
      ∀ kv ∈ st.pivot_column_index, kv.2 < n)
    (by
      intro i st st2 l2 _ hinv h
      obtain ⟨hk, hv, hlt⟩ := hinv
      rcases reduce_column_effect h with ⟨_, hnone, hpci, _⟩ | ⟨_, hpci, _⟩
      · rw [hpci]
        refine ⟨?_, ?_, ?_⟩
        · rw [List.map_append, List.nodup_append]
          refine ⟨hk, by simp, ?_⟩
          intro a ha hb
          simp only [List.map_cons, List.map_nil, List.mem_singleton] at hb
          obtain ⟨e, he, hea⟩ := List.mem_map.1 ha
          exact map_find_none hnone e he (hea.trans hb)
        · rw [List.map_append, List.pairwise_append]
          refine ⟨hv, by simp, ?_⟩
          intro a ha b hb
          simp only [List.map_cons, List.map_nil, List.mem_singleton] at hb
          obtain ⟨e, he, hea⟩ := List.mem_map.1 ha
          rw [hb, ← hea]
          exact hlt e he
        · intro kv hkv
          rcases List.mem_append.1 hkv with h1 | h1
          · exact Nat.lt_succ_of_lt (hlt kv h1)
          · rw [List.mem_singleton.1 h1]; exact Nat.lt_succ_self i
      · rw [hpci]
        exact ⟨hk, hv, fun kv hkv => Nat.lt_succ_of_lt (hlt kv hkv)⟩)
    ctr.length 0 (initial_state cp) (by omega)
    ⟨by simp [initial_state], by simp [initial_state], by simp [initial_state]⟩
  obtain ⟨k, hk, ⟨hkeys, hvals, hlt⟩, _⟩ := key
  refine ⟨hkeys, hvals, fun kv hkv => lt_of_lt_of_le (hlt kv hkv) (by omega), ?_⟩
  intro kv1 h1 kv2 h2
  have hvn : ((compute_pairs_main cp cofaces ctr fuel).1.pivot_column_index.map
      Prod.snd).Nodup := hvals.imp (fun h => ne_of_lt h)
  constructor
  · intro he
    rw [List.inj_on_of_nodup_map hkeys h1 h2 he]
  · intro he
    rw [List.inj_on_of_nodup_map hvn h1 h2 he]

/-! ## The apparent-pair shortcut -/

/-- The scan, entered with `might_be_apparent_pair` set and no pair found, stops at the first
coface born with `ctr[j]` when the index of that coface is not a key of the pivot index. -/
theorem scan_cofaces_first (pci : List (Int × Nat)) (ctrj c : BirthdayIndex B) :
    ∀ (cs : List (BirthdayIndex B)) (s : Scan B), s.found_persistence_pair = false →
      s.might_be_apparent_pair = true →
      cs.find? (fun e => decide (ctrj.birthday = e.birthday)) = some c →
      map_find pci c.index = none →
      (scan_cofaces pci ctrj cs s).found_persistence_pair = true ∧
        (scan_cofaces pci ctrj cs s).pivot = c ∧
        (scan_cofaces pci ctrj cs s).might_be_apparent_pair = true := by
  intro cs
  induction cs with
  | nil => intro s _ _ h; simp at h
  | cons x xs ih =>
    intro s hf hm hfind hnew
    unfold scan_cofaces
    simp only [hf, Bool.false_eq_true, if_false, hm, Bool.true_and]
    by_cases hx : ctrj.birthday = x.birthday
    · have hxc : x = c := by
        rw [List.find?_cons_of_pos _ (by simpa using hx)] at hfind
        exact Option.some.inj hfind
      subst hxc
      have hd : decide (ctrj.birthday = x.birthday) = true := by simpa using hx
      have hn : (none : Option Nat).isNone = true := rfl
      rw [hd, if_pos rfl, hnew, if_pos hn, scan_cofaces_of_found _ _ _ _ rfl]
      exact ⟨rfl, rfl, rfl⟩
    · rw [List.find?_cons_of_neg _ (by simpa using hx)] at hfind
      have hd : decide (ctrj.birthday = x.birthday) = false := by simpa using hx
      rw [hd, if_neg (by simp)]
      exact ih ⟨s.coface_entries ++ [x], s.pivot, true, false⟩ rfl rfl hfind hnew

/-- C10, as stated, fails on two columns of birth 1 where the first has the one coface 20 and the
second the cofaces 20, 21, 22, all of birth 1. When the second column is entered the pivot index
is `{20 -> 0}`; the first coface of the column that has its birth and is not a key is 21. The
column is not paired with it by the shortcut: no pair is found by the scan, the working
coboundary is built and saved in `recorded_wc`, and the column is paired with the coface 22. -/
theorem apparent_pair_counterexample :
    (for_columns grid3 1 shared_cofaces shared_columns 3 1 0
        (initial_state ⟨grid3, 1, [], []⟩)).1 = ⟨[(20, 0)], [], []⟩ ∧
      (shared_cofaces (shared_columns.getD 1 NONE)).find?
          (fun e => decide ((shared_columns.getD 1 NONE).birthday = e.birthday) &&
            (map_find [((20 : Int), 0)] e.index).isNone) = some ⟨1, 21, 2⟩ ∧
      reduce_column grid3 1 shared_cofaces shared_columns 3 1 ⟨[(20, 0)], [], []⟩ =
        some (⟨[(20, 0), (22, 1)], [(1, shared_queue)], []⟩,
          { j := 1, pivot := ⟨1, 22, 2⟩, might_be_apparent_pair := false,
            found_persistence_pair := false, working_coboundary := shared_queue }) ∧
      shared_queue.data = [⟨1, 22, 2⟩, ⟨1, 21, 2⟩, ⟨1, 20, 2⟩] :=
  ⟨by decide, by decide, by decide, by decide⟩

/-- C10, amended: if the first coface, in enumeration order, of `ctr[i]` that has the birth of
`ctr[i]` has an index that is not a key of the pivot index, column `i` is paired with that coface
in the first pass of its loop: the index of the coface is entered for `i`, no working coboundary
is built or saved, and no pair is written (the pair is trivial). -/
theorem apparent_pair_shortcut (dcg : DenseCubicalGrids B) (dim : Int)
    (cofaces : BirthdayIndex B → List (BirthdayIndex B)) (ctr : List (BirthdayIndex B))
    (fuel i : Nat) (st : State B) (c : BirthdayIndex B)
    (hfirst : (cofaces (ctr.getD i NONE)).find?
      (fun e => decide ((ctr.getD i NONE).birthday = e.birthday)) = some c)
    (hnew : map_find st.pivot_column_index c.index = none) :
    reduce_column dcg dim cofaces ctr (fuel + 1) i st =
      some ({ st with pivot_column_index := st.pivot_column_index ++ [(c.index, i)] },
        { j := i, pivot := c, might_be_apparent_pair := true, found_persistence_pair := true,
          working_coboundary := PQ.nil }) := by
  have hs : (scan_column cofaces ctr st (initial_locals i)).found_persistence_pair = true ∧
      (scan_column cofaces ctr st (initial_locals i)).pivot = c ∧
      (scan_column cofaces ctr st (initial_locals i)).might_be_apparent_pair = true :=
    scan_cofaces_first st.pivot_column_index _ c _ _ rfl rfl hfirst hnew
  have hbirth : (ctr.getD i NONE).birthday = c.birthday := by
    simpa using List.find?_some hfirst
  have hins : map_insert st.pivot_column_index c.index i =
      st.pivot_column_index ++ [(c.index, i)] := by
    rcases map_insert_eq_or st.pivot_column_index c.index i with ⟨_, h1⟩ | ⟨_, h1⟩
    · exact absurd hnew h1
    · exact h1
  have hbody : do_body dcg dim cofaces ctr i st (initial_locals i) =
      Step.exit { st with pivot_column_index := st.pivot_column_index ++ [(c.index, i)] }
        { j := i, pivot := c, might_be_apparent_pair := true, found_persistence_pair := true,
          working_coboundary := PQ.nil } := by
    unfold do_body
    dsimp only
    rw [if_pos hs.1, hs.2.1, hs.2.2, hs.1, hins, if_neg (by simpa using hbirth)]
    rfl
  unfold reduce_column column_loop
  rw [hbody]

/-- C10, amended, on the first column of the two-column example: its one coface, 20, is born with
it and is not a key of the empty pivot index. -/
theorem apparent_pair_shortcut_witness :
    reduce_column grid3 1 shared_cofaces shared_columns 1 0 ⟨[], [], []⟩ =
      some (⟨[] ++ [(20, 0)], [], []⟩,
        { j := 0, pivot := ⟨1, 20, 2⟩, might_be_apparent_pair := true,
          found_persistence_pair := true, working_coboundary := PQ.nil }) :=
  apparent_pair_shortcut grid3 1 shared_cofaces shared_columns 0 0 ⟨[], [], []⟩ ⟨1, 20, 2⟩
    (by decide) (by decide)

/-! ## The dimension written with a pair -/

/-- C8 fails on the code: reducing dimension 1 on the 3x3x1 ring grid, the one column (an edge of
the ring whose cofaces are all above the threshold) has an empty working coboundary, and the pair
written for it, with death `threshold`, carries the dimension 0, not 1. -/
theorem essential_pair_written_with_dim_zero :
    (compute_pairs_main (⟨ring_grid, 1, [], []⟩ : ComputePairs Int) ring_cofaces
        [⟨0, 0, 1⟩] 1) = (⟨[], [], [⟨0, 0, 5, 0, 0, 0⟩]⟩, true) ∧
      (⟨0, 0, 5, 0, 0, 0⟩ : WritePairs Int).dim ≠
        (⟨ring_grid, 1, [], []⟩ : ComputePairs Int).dim :=
  ⟨by decide, by decide⟩

/-! ## Threshold below all births -/

/-- C11: when every vertex of the grid is born at or above the threshold and every cell is born no
earlier than some vertex of the grid (its birth is the maximum over its corners),
`assemble_columns_to_reduce` returns the empty list for every `dim`, and `compute_pairs_main` on
it completes, appends no pair and leaves the pivot index (and `recorded_wc`) empty. -/
theorem no_columns_below_threshold (cp : ComputePairs B) (ctr0 : List (BirthdayIndex B))
    (d : Int) (cofaces : BirthdayIndex B → List (BirthdayIndex B)) (fuel : Nat)
    (hv : ∀ x y z, x < cp.dcg.ax → y < cp.dcg.ay → z < cp.dcg.az →
      cp.dcg.threshold ≤ cp.dcg.get x y z)
    (hmax : ∀ x y z m, x < cp.dcg.ax → y < cp.dcg.ay → z < cp.dcg.az → m < 3 →
      ∃ x2 y2 z2, x2 < cp.dcg.ax ∧ y2 < cp.dcg.ay ∧ z2 < cp.dcg.az ∧
        cp.dcg.get x2 y2 z2 ≤ cp.dcg.getBirthday x y z m d) :
    (assemble_columns_to_reduce cp ctr0 d).2 = [] ∧
    compute_pairs_main (assemble_columns_to_reduce cp ctr0 d).1 cofaces
      (assemble_columns_to_reduce cp ctr0 d).2 fuel = (⟨[], [], cp.wp⟩, true) := by
  have hempty : (assemble_columns_to_reduce cp ctr0 d).2 = [] := by
    rw [List.eq_nil_iff_forall_not_mem]
    intro c hc
    have hlt := assemble_birthday_lt cp ctr0 d c hc
    unfold assemble_columns_to_reduce at hc
    rw [List.mem_insertionSort] at hc
    dsimp only at hc
    split_ifs at hc
    · simp only [assemble_vertices, List.mem_flatMap, List.mem_range] at hc
      obtain ⟨z, hz, y, hy, x, hx, hc⟩ := hc
      split_ifs at hc with hb
      · exact absurd hb (not_lt.2 (hv x y z hx hy hz))
      · simp at hc
    · simp only [assemble_cells, List.mem_flatMap, List.mem_range] at hc
      obtain ⟨z, hz, y, hy, x, hx, m, hm, hc⟩ := hc
      split_ifs at hc with _ hb
      · obtain ⟨x2, y2, z2, hx2, hy2, hz2, hle⟩ := hmax x y z m hx hy hz hm
        exact absurd hb (not_lt.2 (le_trans (hv x2 y2 z2 hx2 hy2 hz2) hle))
      · simp at hc
      · simp at hc
  refine ⟨hempty, ?_⟩
  rw [hempty]
  rfl

/-- C11 on the 2x1x1 grid with births 3 and 4 and threshold 1, in dimension 1. -/
theorem no_columns_below_threshold_witness :
    (assemble_columns_to_reduce (⟨high_grid, 0, [], []⟩ : ComputePairs Int) [] 1).2 = [] ∧
    compute_pairs_main (assemble_columns_to_reduce (⟨high_grid, 0, [], []⟩ : ComputePairs Int)
        [] 1).1 cofaces3 (assemble_columns_to_reduce (⟨high_grid, 0, [], []⟩ : ComputePairs Int)
        [] 1).2 3 = (⟨[], [], []⟩, true) :=
  no_columns_below_threshold (⟨high_grid, 0, [], []⟩ : ComputePairs Int) [] 1 cofaces3 3
    (by
      intro x y z hx _ _
      have hx2 : x = 0 ∨ x = 1 := by
        have : x < 2 := hx
        omega
      rcases hx2 with rfl | rfl
      · show (1 : Int) ≤ 3
        decide
      · show (1 : Int) ≤ 4
        decide)
    (fun x y z m hx hy hz _ => ⟨x, y, z, hx, hy, hz, le_max_left _ _⟩)

/-! ## More passes do not change a completed run -/

section Fuel

variable {dcg : DenseCubicalGrids B} {dim : Int}
  {cofaces : BirthdayIndex B → List (BirthdayIndex B)} {ctr : List (BirthdayIndex B)}

theorem column_loop_mono {i : Nat} {st : State B} {r : State B × Locals B} :
    ∀ (fuel fuel2 : Nat) (l : Locals B), fuel ≤ fuel2 →
      column_loop dcg dim cofaces ctr i st fuel l = some r →
      column_loop dcg dim cofaces ctr i st fuel2 l = some r := by
  intro fuel
  induction fuel with
  | zero => intro fuel2 l _ h; simp [column_loop] at h
  | succ fuel ih =>
    intro fuel2 l hle h
    obtain ⟨g, rfl⟩ : ∃ g, fuel2 = g + 1 := ⟨fuel2 - 1, by omega⟩
    unfold column_loop at h ⊢
    cases hb : do_body dcg dim cofaces ctr i st l with
    | again l3 =>
      rw [hb] at h
      exact ih g l3 (by omega) h
    | exit st3 l3 =>
      rw [hb] at h
      exact h

theorem for_columns_mono {fuel fuel2 : Nat} (hle : fuel ≤ fuel2) :
    ∀ (n i : Nat) (st st2 : State B),
      for_columns dcg dim cofaces ctr fuel n i st = (st2, true) →
      for_columns dcg dim cofaces ctr fuel2 n i st = (st2, true) := by
  intro n
  induction n with
  | zero => intro i st st2 h; exact h
  | succ n ih =>
    intro i st st2 h
    unfold for_columns at h ⊢
    cases hr : reduce_column dcg dim cofaces ctr fuel i st with
    | none => rw [hr] at h; simp at h
    | some r =>
      rw [hr] at h
      have hr2 : reduce_column dcg dim cofaces ctr fuel2 i st = some r :=
        column_loop_mono fuel fuel2 _ hle hr
      rw [hr2]
      exact ih (i + 1) r.1 st2 h

theorem for_columns_succ_of (st2 : State B) {fuel n i : Nat} {st : State B}
    (h : (reduce_column dcg dim cofaces ctr fuel i st).map Prod.fst = some st2) :
    for_columns dcg dim cofaces ctr fuel (n + 1) i st =
      for_columns dcg dim cofaces ctr fuel n (i + 1) st2 := by
  have hstep : for_columns dcg dim cofaces ctr fuel (n + 1) i st =
      match reduce_column dcg dim cofaces ctr fuel i st with
      | none => (st, false)
      | some (st3, _) => for_columns dcg dim cofaces ctr fuel n (i + 1) st3 := rfl
  rw [hstep]
  cases hr : reduce_column dcg dim cofaces ctr fuel i st with
  | none => rw [hr] at h; simp at h
  | some r =>
    obtain ⟨a, b⟩ := r
    rw [hr] at h
    simp only [Option.map_some', Option.some.injEq] at h
    subst h
    rfl

end Fuel

/-! ## The scenario of the 3x1x1 grid -/

/-- C12: on the 3x1x1 grid with births 0, 2, 1 and threshold +infinity, in dimension 0, with the
incident edges as cofaces (in either order), `assemble_columns_to_reduce(ctr, 0)` followed by
`compute_pairs_main`, run with at least three passes per column, completes and writes exactly the
finite pair (dim 0, birth 1, death 2, location (2,0,0)) and the pair (dim 0, birth 0,
death = threshold, location (0,0,0)), in this order; the pair with birth 2 and death 2 is not
written. -/
theorem line_scenario_pairs (leftFirst : Bool) (fuel : Nat) (hfuel : 3 ≤ fuel) :
    (compute_pairs_main
      (assemble_columns_to_reduce (⟨line_grid, 0, [], []⟩ : ComputePairs (WithTop Int)) [] 0).1
      (line_cofaces leftFirst)
      (assemble_columns_to_reduce (⟨line_grid, 0, [], []⟩ : ComputePairs (WithTop Int)) [] 0).2
      fuel).2 = true ∧
    (compute_pairs_main
      (assemble_columns_to_reduce (⟨line_grid, 0, [], []⟩ : ComputePairs (WithTop Int)) [] 0).1
      (line_cofaces leftFirst)
      (assemble_columns_to_reduce (⟨line_grid, 0, [], []⟩ : ComputePairs (WithTop Int)) [] 0).2
      fuel).1.wp = [⟨0, 1, 2, 2, 0, 0⟩, ⟨0, 0, ⊤, 0, 0, 0⟩] := by
  have hctr : (assemble_columns_to_reduce
      (⟨line_grid, 0, [], []⟩ : ComputePairs (WithTop Int)) [] 0).2 =
      [⟨2, 1, 0⟩, ⟨1, 2, 0⟩, ⟨0, 0, 0⟩] := by decide
  have hcp : (assemble_columns_to_reduce
      (⟨line_grid, 0, [], []⟩ : ComputePairs (WithTop Int)) [] 0).1 =
      ⟨line_grid, 0, [], []⟩ := rfl
  rw [hctr, hcp]
  have hrun : ∃ st, for_columns line_grid 0 (line_cofaces leftFirst)
      [⟨2, 1, 0⟩, ⟨1, 2, 0⟩, ⟨0, 0, 0⟩] 3 3 0 ⟨[], [], []⟩ = (st, true) ∧
      st.wp = [⟨0, 1, 2, 2, 0, 0⟩, ⟨0, 0, ⊤, 0, 0, 0⟩] := by
    cases leftFirst with
    | true =>
      refine ⟨⟨[(0, 0), (1, 1)], [(1, PQ.nil.push ⟨2, 1, 1⟩)],
        [⟨0, 1, 2, 2, 0, 0⟩, ⟨0, 0, ⊤, 0, 0, 0⟩]⟩, ?_, rfl⟩
      rw [for_columns_succ_of (⟨[(0, 0)], [], []⟩) (by decide),
        for_columns_succ_of (⟨[(0, 0), (1, 1)], [(1, PQ.nil.push ⟨2, 1, 1⟩)],
          [⟨0, 1, 2, 2, 0, 0⟩]⟩) (by decide),
        for_columns_succ_of (⟨[(0, 0), (1, 1)], [(1, PQ.nil.push ⟨2, 1, 1⟩)],
          [⟨0, 1, 2, 2, 0, 0⟩, ⟨0, 0, ⊤, 0, 0, 0⟩]⟩) (by decide)]
      rfl
    | false =>
      refine ⟨⟨[(1, 0), (0, 1)], [(1, PQ.nil.push ⟨2, 0, 1⟩)],
        [⟨0, 1, 2, 2, 0, 0⟩, ⟨0, 0, ⊤, 0, 0, 0⟩]⟩, ?_, rfl⟩
      rw [for_columns_succ_of (⟨[(1, 0)], [], []⟩) (by decide),
        for_columns_succ_of (⟨[(1, 0), (0, 1)], [(1, PQ.nil.push ⟨2, 0, 1⟩)],
          [⟨0, 1, 2, 2, 0, 0⟩]⟩) (by decide),
        for_columns_succ_of (⟨[(1, 0), (0, 1)], [(1, PQ.nil.push ⟨2, 0, 1⟩)],
          [⟨0, 1, 2, 2, 0, 0⟩, ⟨0, 0, ⊤, 0, 0, 0⟩]⟩) (by decide)]
      rfl
  obtain ⟨st, hst, hwp⟩ := hrun
  have hfin := for_columns_mono hfuel 3 0 _ st hst
  have hmain : compute_pairs_main (⟨line_grid, 0, [], []⟩ : ComputePairs (WithTop Int))
      (line_cofaces leftFirst) [⟨2, 1, 0⟩, ⟨1, 2, 0⟩, ⟨0, 0, 0⟩] fuel = (st, true) := hfin
  rw [hmain]
  exact ⟨rfl, hwp⟩

/-- C12 with the left edge delivered first and three passes per column. -/
theorem line_scenario_pairs_witness :
    (compute_pairs_main
      (assemble_columns_to_reduce (⟨line_grid, 0, [], []⟩ : ComputePairs (WithTop Int)) [] 0).1
      (line_cofaces true)
      (assemble_columns_to_reduce (⟨line_grid, 0, [], []⟩ : ComputePairs (WithTop Int)) [] 0).2
      3).2 = true ∧
    (compute_pairs_main
      (assemble_columns_to_reduce (⟨line_grid, 0, [], []⟩ : ComputePairs (WithTop Int)) [] 0).1
      (line_cofaces true)
      (assemble_columns_to_reduce (⟨line_grid, 0, [], []⟩ : ComputePairs (WithTop Int)) [] 0).2
      3).1.wp = [⟨0, 1, 2, 2, 0, 0⟩, ⟨0, 0, ⊤, 0, 0, 0⟩] :=
  line_scenario_pairs true 3 (le_refl 3)

/-! ## Claims on the main program -/

/-- C13, as stated, fails for the value `top_dim`: the argument list
`--method top_dim input.npy` leaves the program through `print_usage_and_exit(-1)`. -/
theorem method_top_dim_counterexample :
    parse_args (fun _ => (none : Option (Int × Nat))) (fun _ => none)
        ["--method", "top_dim", "input.npy"] sample_config = Parsed.exit (-1) ∧
      parse_args (fun _ => (none : Option (Int × Nat))) (fun _ => none)
        ["--top_dim", "input.npy"] sample_config =
        Parsed.ok { sample_config with method := calculation_method.ALEXANDER,
                                       filename := "input.npy" } :=
  ⟨by decide, by decide⟩

/-- C13, amended: the argument loop accepts two values of `--method`: `link_find` selects the
link_find method and `compute_pairs` the compute_pairs method, and the loop goes on with the
remaining arguments; every other value, `top_dim` included, leaves through the usage/exit(-1)
path. The Alexander-duality method is selected by the separate flag `--top_dim`. -/
theorem method_values_accepted {D : Type} (stod : String → Option (D × Nat))
    (stoi : String → Option Int) (rest : List String) (config : Config D) :
    parse_args stod stoi ("--method" :: "link_find" :: rest) config =
      parse_args stod stoi rest { config with method := calculation_method.LINKFIND } ∧
    parse_args stod stoi ("--method" :: "compute_pairs" :: rest) config =
      parse_args stod stoi rest { config with method := calculation_method.COMPUTEPAIRS } ∧
    parse_args stod stoi ("--method" :: "top_dim" :: rest) config = Parsed.exit (-1) ∧
    (∀ v : String, v ≠ "link_find" → v ≠ "compute_pairs" →
      parse_args stod stoi ("--method" :: v :: rest) config = Parsed.exit (-1)) ∧
    parse_args stod stoi ("--top_dim" :: rest) config =
      parse_args stod stoi rest { config with method := calculation_method.ALEXANDER } := by
  have h1 : ¬ ("--method" = "--help") := by decide
  have h2 : ¬ ("--method" = "--threshold") := by decide
  have h3 : ¬ ("--method" = "--maxdim") := by decide
  have hgen : ∀ v : String, parse_args stod stoi ("--method" :: v :: rest) config =
      if v = "link_find" then
        parse_args stod stoi rest { config with method := calculation_method.LINKFIND }
      else if v = "compute_pairs" then
        parse_args stod stoi rest { config with method := calculation_method.COMPUTEPAIRS }
      else Parsed.exit (-1) := by
    intro v
    conv_lhs => unfold parse_args
    rw [if_neg h1, if_neg h2, if_neg h3, if_pos rfl]
  refine ⟨?_, ?_, ?_, ?_, ?_⟩
  · rw [hgen, if_pos rfl]
  · rw [hgen, if_neg (by decide), if_pos rfl]
  · rw [hgen, if_neg (by decide), if_neg (by decide)]
  · intro v hv1 hv2
    rw [hgen, if_neg hv1, if_neg hv2]
  · conv_lhs => unfold parse_args
    rw [if_neg (by decide), if_neg (by decide), if_neg (by decide),
      if_neg (by decide), if_neg (by decide), if_neg (by decide), if_neg (by decide),
      if_pos rfl]

/-- C14 fails on the code: when the output file cannot be opened, in the CSV branch and in the
DIPHA branch, the failure is reported on `cerr`, nothing reaches the file, and `main` returns 0. -/
theorem output_open_failure_returns_zero :
    main_write { sample_config with output_filename := "no_such_dir/out.csv" } false
        [⟨1, 0, 5, 0, 0, 0⟩] ⟨0, [], []⟩ =
      ⟨0, [" error: open file for output failed! "], []⟩ ∧
    main_write { sample_config with output_filename := "no_such_dir/out.complex" } false
        [⟨1, 0, 5, 0, 0, 0⟩] ⟨0, [], []⟩ =
      ⟨0, [" error: open file for output failed! "], []⟩ ∧
    ∀ (writepairs : List (WritePairs Int)), (write_stream false writepairs).returned = 0 :=
  ⟨by decide, by decide, fun _ => rfl⟩

theorem clamp_maxdim_eq (maxdim : Int) (dcg : DenseCubicalGrids B)
    (hmax : 0 ≤ maxdim ∧ maxdim < 256) (hdim : 1 ≤ dcg.dim ∧ dcg.dim ≤ 256) :
    clamp_maxdim maxdim dcg = min maxdim (dcg.dim - 1) := by
  unfold clamp_maxdim
  rw [Int.emod_eq_of_lt hmax.1 hmax.2, Int.emod_eq_of_lt (by omega) (by omega)]

/-- The last column of dimension 0 on the 2x2x1 grid (the vertex of birth 0) takes four passes
and ends without a pivot: the pair with death `threshold` is written. -/
theorem square_last_column :
    reduce_column square_grid 0 square_cofaces [⟨2, 3, 0⟩, ⟨1, 1, 0⟩, ⟨1, 2, 0⟩, ⟨0, 0, 0⟩] 4 3
        ⟨[(5, 0), (0, 1), (4, 2)], [], []⟩ =
      some (⟨[(5, 0), (0, 1), (4, 2)], [], [⟨0, 0, 10, 0, 0, 0⟩]⟩,
        ⟨0, NONE, false, false, PQ.nil⟩) := by
  have h1 : do_body square_grid 0 square_cofaces
      [⟨2, 3, 0⟩, ⟨1, 1, 0⟩, ⟨1, 2, 0⟩, ⟨0, 0, 0⟩] 3 ⟨[(5, 0), (0, 1), (4, 2)], [], []⟩
      (initial_locals 3) =
      Step.again ⟨2, ⟨1, 4, 1⟩, true, false, PQ.nil.pushAll [⟨1, 4, 1⟩, ⟨1, 0, 1⟩]⟩ := rfl
  have h2 : do_body square_grid 0 square_cofaces
      [⟨2, 3, 0⟩, ⟨1, 1, 0⟩, ⟨1, 2, 0⟩, ⟨0, 0, 0⟩] 3 ⟨[(5, 0), (0, 1), (4, 2)], [], []⟩
      ⟨2, ⟨1, 4, 1⟩, true, false, PQ.nil.pushAll [⟨1, 4, 1⟩, ⟨1, 0, 1⟩]⟩ =
      Step.again ⟨1, ⟨1, 0, 1⟩, false, false, PQ.nil.pushAll [⟨1, 0, 1⟩, ⟨2, 2, 1⟩]⟩ := rfl
  have h3 : do_body square_grid 0 square_cofaces
      [⟨2, 3, 0⟩, ⟨1, 1, 0⟩, ⟨1, 2, 0⟩, ⟨0, 0, 0⟩] 3 ⟨[(5, 0), (0, 1), (4, 2)], [], []⟩
      ⟨1, ⟨1, 0, 1⟩, false, false, PQ.nil.pushAll [⟨1, 0, 1⟩, ⟨2, 2, 1⟩]⟩ =
      Step.again ⟨0, ⟨2, 5, 1⟩, false, false, PQ.nil.pushAll [⟨2, 5, 1⟩, ⟨2, 2, 1⟩]⟩ := rfl
  have h4 : do_body square_grid 0 square_cofaces
      [⟨2, 3, 0⟩, ⟨1, 1, 0⟩, ⟨1, 2, 0⟩, ⟨0, 0, 0⟩] 3 ⟨[(5, 0), (0, 1), (4, 2)], [], []⟩
      ⟨0, ⟨2, 5, 1⟩, false, false, PQ.nil.pushAll [⟨2, 5, 1⟩, ⟨2, 2, 1⟩]⟩ =
      Step.exit ⟨[(5, 0), (0, 1), (4, 2)], [], [⟨0, 0, 10, 0, 0, 0⟩]⟩
        ⟨0, NONE, false, false, PQ.nil⟩ := rfl
  unfold reduce_column
  simp only [column_loop, h1, h2, h3, h4]

/-- The reduction of dimension 0 on the 2x2x1 grid. -/
theorem square_stage_zero :
    compute_pairs_main (⟨square_grid, 0, [], []⟩ : ComputePairs Int) square_cofaces
        [⟨2, 3, 0⟩, ⟨1, 1, 0⟩, ⟨1, 2, 0⟩, ⟨0, 0, 0⟩] 4 =
      (⟨[(5, 0), (0, 1), (4, 2)], [], [⟨0, 0, 10, 0, 0, 0⟩]⟩, true) := by
  show for_columns square_grid 0 square_cofaces
      [⟨2, 3, 0⟩, ⟨1, 1, 0⟩, ⟨1, 2, 0⟩, ⟨0, 0, 0⟩] 4 4 0 ⟨[], [], []⟩ = _
  rw [for_columns_succ_of (⟨[(5, 0)], [], []⟩) (by decide),
    for_columns_succ_of (⟨[(5, 0), (0, 1)], [], []⟩) (by decide),
    for_columns_succ_of (⟨[(5, 0), (0, 1), (4, 2)], [], []⟩) (by decide),
    for_columns_succ_of (⟨[(5, 0), (0, 1), (4, 2)], [], [⟨0, 0, 10, 0, 0, 0⟩]⟩)
      (by rw [square_last_column]; rfl)]
  rfl

/-- The reduction of dimension 1 on the 2x2x1 grid: the one edge left is paired with the square by
the shortcut. -/
theorem square_stage_one :
    compute_pairs_main (⟨square_grid, 1, [(5, 0), (0, 1), (4, 2)], [⟨0, 0, 10, 0, 0, 0⟩]⟩ :
        ComputePairs Int) square_cofaces [⟨2, 2, 1⟩] 4 =
      (⟨[(0, 0)], [], [⟨0, 0, 10, 0, 0, 0⟩]⟩, true) := by
  show for_columns square_grid 1 square_cofaces [⟨2, 2, 1⟩] 4 1 0
      ⟨[], [], [⟨0, 0, 10, 0, 0, 0⟩]⟩ = _
  rw [for_columns_succ_of (⟨[(0, 0)], [], [⟨0, 0, 10, 0, 0, 0⟩]⟩) (by decide)]
  rfl

/-- The columns of dimension 0 of the 2x2x1 grid. -/
theorem square_assemble_zero :
    assemble_columns_to_reduce (new_ComputePairs square_grid []) [] 0 =
      (⟨square_grid, 0, [], []⟩, [⟨2, 3, 0⟩, ⟨1, 1, 0⟩, ⟨1, 2, 0⟩, ⟨0, 0, 0⟩]) :=
  Prod.ext rfl (by decide)

/-- The columns of dimension 1 of the 2x2x1 grid after the reduction of dimension 0: the edges
0, 4 and 5 are keys of the pivot index, the edge 2 is left. -/
theorem square_assemble_one :
    assemble_columns_to_reduce
        (⟨square_grid, 0, [(5, 0), (0, 1), (4, 2)], [⟨0, 0, 10, 0, 0, 0⟩]⟩ : ComputePairs Int)
        [⟨2, 3, 0⟩, ⟨1, 1, 0⟩, ⟨1, 2, 0⟩, ⟨0, 0, 0⟩] 1 =
      (⟨square_grid, 1, [(5, 0), (0, 1), (4, 2)], [⟨0, 0, 10, 0, 0, 0⟩]⟩, [⟨2, 2, 1⟩]) :=
  Prod.ext rfl (by decide)

/-- The compute_pairs method on the 2x2x1 grid with the requested `maxdim` 2. -/
theorem square_run :
    case_COMPUTEPAIRS { sample_config with maxdim := 2 } square_grid square_cofaces 4 [] =
      ⟨[⟨0, 0, 10, 0, 0, 0⟩], [⟨2, 2, 1⟩],
        [Call.compute_pairs_main 0 [⟨2, 3, 0⟩, ⟨1, 1, 0⟩, ⟨1, 2, 0⟩, ⟨0, 0, 0⟩],
          Call.compute_pairs_main 1 [⟨2, 2, 1⟩]], true⟩ := by
  have hc : clamp_maxdim 2 square_grid = 1 := by decide
  have ha : (⟨square_grid, 0, [], []⟩ : ComputePairs Int).after
      ⟨[(5, 0), (0, 1), (4, 2)], [], [⟨0, 0, 10, 0, 0, 0⟩]⟩ =
      ⟨square_grid, 0, [(5, 0), (0, 1), (4, 2)], [⟨0, 0, 10, 0, 0, 0⟩]⟩ := rfl
  unfold case_COMPUTEPAIRS
  simp only [square_assemble_zero, square_stage_zero, ha, square_assemble_one, square_stage_one,
    hc]
  rfl

/-- C15: for a requested `maxdim` that is a `uint8_t` value and a grid of dimension 1 or more,
the effective maximal dimension is `m = min(maxdim, grid.dim - 1)`. Under the compute_pairs
method the pair list, the column list and the completion of the run are those of the stages
`assemble_columns_to_reduce(ctr, d); compute_pairs_main(ctr)` for the dimensions 0, 1 (iff
`1 <= m`), 2 (iff `2 <= m`), in increasing order, on one object and one column list. Under both
methods the dimensions of the calls made are a beginning of that list of dimensions, dimension 0
always among them, and the whole list when every call returns; then a call for `d` in {1, 2} is
made iff `d <= m`. Under the link_find method the first call is `joint_pairs_main(ctr, 0)`, the
pair list is the one that call leaves when `m = 0`, and otherwise dimension 1 is reduced by
`compute_pairs_main` on the column list that call leaves, followed for `2 <= m` by the stage for
dimension 2. -/
theorem stages_up_to_effective_maxdim (config : Config B) (maxdim : Fin 256)
    (dcg : DenseCubicalGrids B)
    (joint : List Nat → List (WritePairs B) → List (WritePairs B) × List (BirthdayIndex B))
    (cofaces : BirthdayIndex B → List (BirthdayIndex B)) (fuel : Nat)
    (writepairs : List (WritePairs B)) (hdim : 1 ≤ dcg.dim ∧ dcg.dim ≤ 256) :
    clamp_maxdim ((maxdim : Nat) : Int) dcg = min ((maxdim : Nat) : Int) (dcg.dim - 1) ∧
    ((case_COMPUTEPAIRS { config with maxdim := ((maxdim : Nat) : Int) } dcg cofaces fuel
          writepairs).writepairs =
        (stages_by_claim cofaces fuel (min ((maxdim : Nat) : Int) (dcg.dim - 1)) dcg
          writepairs).1.wp ∧
      (case_COMPUTEPAIRS { config with maxdim := ((maxdim : Nat) : Int) } dcg cofaces fuel
          writepairs).ctr =
        (stages_by_claim cofaces fuel (min ((maxdim : Nat) : Int) (dcg.dim - 1)) dcg
          writepairs).2.1 ∧
      (case_COMPUTEPAIRS { config with maxdim := ((maxdim : Nat) : Int) } dcg cofaces fuel
          writepairs).finished =
        (stages_by_claim cofaces fuel (min ((maxdim : Nat) : Int) (dcg.dim - 1)) dcg
          writepairs).2.2 ∧
      (case_COMPUTEPAIRS { config with maxdim := ((maxdim : Nat) : Int) } dcg cofaces fuel
          writepairs).calls.map Call.dimension <+:
        dimensions_by_claim (min ((maxdim : Nat) : Int) (dcg.dim - 1)) ∧
      0 ∈ (case_COMPUTEPAIRS { config with maxdim := ((maxdim : Nat) : Int) } dcg cofaces fuel
          writepairs).calls.map Call.dimension ∧
      ((case_COMPUTEPAIRS { config with maxdim := ((maxdim : Nat) : Int) } dcg cofaces fuel
          writepairs).finished = true →
        (case_COMPUTEPAIRS { config with maxdim := ((maxdim : Nat) : Int) } dcg cofaces fuel
            writepairs).calls.map Call.dimension =
          dimensions_by_claim (min ((maxdim : Nat) : Int) (dcg.dim - 1)) ∧
        ∀ d : Int, d = 1 ∨ d = 2 →
          (d ∈ (case_COMPUTEPAIRS { config with maxdim := ((maxdim : Nat) : Int) } dcg cofaces
              fuel writepairs).calls.map Call.dimension ↔
            d ≤ min ((maxdim : Nat) : Int) (dcg.dim - 1)))) ∧
    ((case_LINKFIND { config with maxdim := ((maxdim : Nat) : Int) } dcg joint cofaces fuel
          writepairs).calls.head? =
        some (Call.joint_pairs_main
          (if dcg.dim = 1 then [0] else if dcg.dim = 2 then [0, 1] else [0, 1, 2]) 0) ∧
      (case_LINKFIND { config with maxdim := ((maxdim : Nat) : Int) } dcg joint cofaces fuel
          writepairs).calls.map Call.dimension <+:
        dimensions_by_claim (min ((maxdim : Nat) : Int) (dcg.dim - 1)) ∧
      0 ∈ (case_LINKFIND { config with maxdim := ((maxdim : Nat) : Int) } dcg joint cofaces fuel
          writepairs).calls.map Call.dimension ∧
      ((case_LINKFIND { config with maxdim := ((maxdim : Nat) : Int) } dcg joint cofaces fuel
          writepairs).finished = true →
        (case_LINKFIND { config with maxdim := ((maxdim : Nat) : Int) } dcg joint cofaces fuel
            writepairs).calls.map Call.dimension =
          dimensions_by_claim (min ((maxdim : Nat) : Int) (dcg.dim - 1)) ∧
        ∀ d : Int, d = 1 ∨ d = 2 →
          (d ∈ (case_LINKFIND { config with maxdim := ((maxdim : Nat) : Int) } dcg joint cofaces
              fuel writepairs).calls.map Call.dimension ↔
            d ≤ min ((maxdim : Nat) : Int) (dcg.dim - 1))) ∧
      (min ((maxdim : Nat) : Int) (dcg.dim - 1) ≤ 0 →
        (case_LINKFIND { config with maxdim := ((maxdim : Nat) : Int) } dcg joint cofaces fuel
            writepairs).writepairs =
          (joint (if dcg.dim = 1 then [0] else if dcg.dim = 2 then [0, 1] else [0, 1, 2])
            writepairs).1 ∧
        (case_LINKFIND { config with maxdim := ((maxdim : Nat) : Int) } dcg joint cofaces fuel
            writepairs).ctr =
          (joint (if dcg.dim = 1 then [0] else if dcg.dim = 2 then [0, 1] else [0, 1, 2])
            writepairs).2) ∧
      (1 ≤ min ((maxdim : Nat) : Int) (dcg.dim - 1) →
        (case_LINKFIND { config with maxdim := ((maxdim : Nat) : Int) } dcg joint cofaces fuel
            writepairs).calls.get? 1 =
          some (Call.compute_pairs_main 1
            (joint (if dcg.dim = 1 then [0] else if dcg.dim = 2 then [0, 1] else [0, 1, 2])
              writepairs).2) ∧
        (¬ 2 ≤ min ((maxdim : Nat) : Int) (dcg.dim - 1) →
          (case_LINKFIND { config with maxdim := ((maxdim : Nat) : Int) } dcg joint cofaces fuel
              writepairs).writepairs =
            (compute_pairs_main
              (new_ComputePairs dcg
                (joint (if dcg.dim = 1 then [0] else if dcg.dim = 2 then [0, 1] else [0, 1, 2])
                  writepairs).1) cofaces
              (joint (if dcg.dim = 1 then [0] else if dcg.dim = 2 then [0, 1] else [0, 1, 2])
                writepairs).2 fuel).1.wp))) := by
  have hclamp : clamp_maxdim ((maxdim : Nat) : Int) dcg =
      min ((maxdim : Nat) : Int) (dcg.dim - 1) :=
    clamp_maxdim_eq _ dcg ⟨by omega, by have := maxdim.isLt; omega⟩ hdim
  refine ⟨hclamp, ?_, ?_⟩
  · unfold case_COMPUTEPAIRS stages_by_claim
    dsimp only
    rw [hclamp]
    generalize min ((maxdim : Nat) : Int) (dcg.dim - 1) = m
    have hd : ∀ (cp : ComputePairs B) (c : List (BirthdayIndex B)) (d : Int),
        (assemble_columns_to_reduce cp c d).1.dim = d := fun _ _ _ => rfl
    have ha : ∀ (cp : ComputePairs B) (st : State B), (cp.after st).wp = st.wp :=
      fun _ _ => rfl
    by_cases h1 : m > 0
    · have h1' : (1 : Int) ≤ m := by omega
      by_cases h2 : m > 1
      · have h2' : (2 : Int) ≤ m := by omega
        have hexp : dimensions_by_claim m = [0, 1, 2] := by
          simp [dimensions_by_claim, List.filter, h1', h2']
        rw [hexp]
        simp only [List.foldl, stage_by_claim, hd]
        split_ifs <;> simp_all [Call.dimension, ha]
      · have h2' : ¬ (2 : Int) ≤ m := by omega
        have hexp : dimensions_by_claim m = [0, 1] := by
          simp [dimensions_by_claim, List.filter, h1', h2']
        rw [hexp]
        simp only [List.foldl, stage_by_claim, hd]
        split_ifs <;> simp_all [Call.dimension, ha]
    · have h1' : ¬ (1 : Int) ≤ m := by omega
      have h2' : ¬ (2 : Int) ≤ m := by omega
      have hexp : dimensions_by_claim m = [0] := by
        simp [dimensions_by_claim, List.filter, h1', h2']
      rw [hexp]
      simp only [List.foldl, stage_by_claim, hd]
      split_ifs <;> simp_all [Call.dimension, ha]
  · unfold case_LINKFIND
    dsimp only
    rw [hclamp]
    generalize min ((maxdim : Nat) : Int) (dcg.dim - 1) = m
    have hd : ∀ (cp : ComputePairs B) (c : List (BirthdayIndex B)) (d : Int),
        (assemble_columns_to_reduce cp c d).1.dim = d := fun _ _ _ => rfl
    have ha : ∀ (cp : ComputePairs B) (st : State B), (cp.after st).wp = st.wp :=
      fun _ _ => rfl
    have hn : ∀ wp : List (WritePairs B), (new_ComputePairs dcg wp).dim = 1 := fun _ => rfl
    by_cases h1 : m > 0
    · have h1' : (1 : Int) ≤ m := by omega
      by_cases h2 : m > 1
      · have h2' : (2 : Int) ≤ m := by omega
        have hexp : dimensions_by_claim m = [0, 1, 2] := by
          simp [dimensions_by_claim, List.filter, h1', h2']
        rw [hexp]
        simp only [hd, hn]
        split_ifs <;> simp_all [Call.dimension, ha]
      · have h2' : ¬ (2 : Int) ≤ m := by omega
        have hexp : dimensions_by_claim m = [0, 1] := by
          simp [dimensions_by_claim, List.filter, h1', h2']
        rw [hexp]
        simp only [hd, hn]
        split_ifs <;> simp_all [Call.dimension, ha]
    · have h1' : ¬ (1 : Int) ≤ m := by omega
      have h2' : ¬ (2 : Int) ≤ m := by omega
      have hexp : dimensions_by_claim m = [0] := by
        simp [dimensions_by_claim, List.filter, h1', h2']
      rw [hexp]
      simp only [hd, hn]
      split_ifs <;> simp_all [Call.dimension, ha]

/-- C15 on the 2x2x1 grid with vertex births 0, 1 / 1, 2, the requested `maxdim` 2 and the
compute_pairs method: the grid has dimension 2, so the effective maximal dimension is 1; the
calls made are the reductions of the dimensions 0 and 1, both return, the result is that of the
stages for these two dimensions, and the one pair written is the essential pair of dimension 0. -/
theorem stages_up_to_effective_maxdim_witness :
    (1 ≤ square_grid.dim ∧ square_grid.dim ≤ 256) ∧
    (case_COMPUTEPAIRS { sample_config with maxdim := (((2 : Fin 256) : Nat) : Int) }
        square_grid square_cofaces 4 []).finished = true ∧
    (case_COMPUTEPAIRS { sample_config with maxdim := (((2 : Fin 256) : Nat) : Int) }
        square_grid square_cofaces 4 []).writepairs =
      (stages_by_claim square_cofaces 4 (min (((2 : Fin 256) : Nat) : Int) (square_grid.dim - 1))
        square_grid []).1.wp ∧
    (case_COMPUTEPAIRS { sample_config with maxdim := (((2 : Fin 256) : Nat) : Int) }
        square_grid square_cofaces 4 []).calls.map Call.dimension =
      dimensions_by_claim (min (((2 : Fin 256) : Nat) : Int) (square_grid.dim - 1)) ∧
    dimensions_by_claim (min (((2 : Fin 256) : Nat) : Int) (square_grid.dim - 1)) = [0, 1] ∧
    (case_COMPUTEPAIRS { sample_config with maxdim := (((2 : Fin 256) : Nat) : Int) }
        square_grid square_cofaces 4 []).writepairs = [⟨0, 0, 10, 0, 0, 0⟩] := by
  have h := stages_up_to_effective_maxdim sample_config 2 square_grid (fun _ wp => (wp, []))
    square_cofaces 4 [] (by decide)
  have hrun : case_COMPUTEPAIRS { sample_config with maxdim := (((2 : Fin 256) : Nat) : Int) }
      square_grid square_cofaces 4 [] = _ := square_run
  have hfin : (case_COMPUTEPAIRS { sample_config with maxdim := (((2 : Fin 256) : Nat) : Int) }
      square_grid square_cofaces 4 []).finished = true := by rw [hrun]
  exact ⟨by decide, hfin, h.2.1.1, (h.2.1.2.2.2.2.2 hfin).1, by decide, by rw [hrun]⟩

/-! ## The maps only grow -/

section Frame

variable {dcg : DenseCubicalGrids B} {dim : Int}
  {cofaces : BirthdayIndex B → List (BirthdayIndex B)} {ctr : List (BirthdayIndex B)}

theorem map_insert_prefix {K V : Type} [DecidableEq K] (m : List (K × V)) (k : K) (v : V) :
    map_insert m k v = m ∨ map_insert m k v = m ++ [(k, v)] := by
  rcases map_insert_eq_or m k v with ⟨h, _⟩ | ⟨_, h⟩
  · exact Or.inl h
  · exact Or.inr h

/-- A completed column leaves the entries of both maps as they are and adds at most one entry to
the pivot index, for column `i`, and at most one to `recorded_wc`, under the key `i`. -/
theorem reduce_column_frame {fuel i : Nat} {st st2 : State B} {l2 : Locals B}
    (h : reduce_column dcg dim cofaces ctr fuel i st = some (st2, l2)) :
    (st2.pivot_column_index = st.pivot_column_index ∨
        ∃ k, st2.pivot_column_index = st.pivot_column_index ++ [(k, i)]) ∧
      (st2.recorded_wc = st.recorded_wc ∨
        ∃ q, st2.recorded_wc = st.recorded_wc ++ [(i, q)]) := by
  obtain ⟨l0, _, hb⟩ := reduce_column_exit_pass h
  rcases do_body_exit hb with ⟨_, _, _, _, _, hpci, hrec, _⟩ |
    ⟨_, _, _, _, _, _, _, hpci, hrec, _⟩ | ⟨_, _, _, _, _, _, hpci, hrec, _⟩
  · refine ⟨?_, Or.inl hrec⟩
    rw [hpci]
    rcases map_insert_prefix st.pivot_column_index l2.pivot.index i with h1 | h1
    · exact Or.inl h1
    · exact Or.inr ⟨_, h1⟩
  · constructor
    · rw [hpci]
      rcases map_insert_prefix st.pivot_column_index l2.pivot.index i with h1 | h1
      · exact Or.inl h1
      · exact Or.inr ⟨_, h1⟩
    · rw [hrec]
      rcases map_insert_prefix st.recorded_wc i l2.working_coboundary with h1 | h1
      · exact Or.inl h1
      · exact Or.inr ⟨_, h1⟩
  · exact ⟨Or.inl hpci, Or.inl hrec⟩

theorem for_columns_succ_some {fuel n i : Nat} {st : State B} {r : State B × Locals B}
    (h : reduce_column dcg dim cofaces ctr fuel i st = some r) :
    for_columns dcg dim cofaces ctr fuel (n + 1) i st =
      for_columns dcg dim cofaces ctr fuel n (i + 1) r.1 := by
  have hstep : for_columns dcg dim cofaces ctr fuel (n + 1) i st =
      match reduce_column dcg dim cofaces ctr fuel i st with
      | none => (st, false)
      | some (st3, _) => for_columns dcg dim cofaces ctr fuel n (i + 1) st3 := rfl
  rw [hstep, h]

theorem for_columns_succ_none {fuel n i : Nat} {st : State B}
    (h : reduce_column dcg dim cofaces ctr fuel i st = none) :
    for_columns dcg dim cofaces ctr fuel (n + 1) i st = (st, false) := by
  have hstep : for_columns dcg dim cofaces ctr fuel (n + 1) i st =
      match reduce_column dcg dim cofaces ctr fuel i st with
      | none => (st, false)
      | some (st3, _) => for_columns dcg dim cofaces ctr fuel n (i + 1) st3 := rfl
  rw [hstep, h]

/-- The run over `a + b` columns is the run over `a` columns followed by the run over `b`
columns, when the first completes. -/
theorem for_columns_add {fuel : Nat} : ∀ (a b s : Nat) (st : State B),
    (for_columns dcg dim cofaces ctr fuel a s st).2 = true →
    for_columns dcg dim cofaces ctr fuel (a + b) s st =
      for_columns dcg dim cofaces ctr fuel b (s + a)
        (for_columns dcg dim cofaces ctr fuel a s st).1 := by
  intro a
  induction a with
  | zero => intro b s st _; simp [for_columns]
  | succ a ih =>
    intro b s st hfin
    have e1 : a + 1 + b = (a + b) + 1 := by omega
    have e2 : s + (a + 1) = s + 1 + a := by omega
    rw [e1, e2]
    cases hr : reduce_column dcg dim cofaces ctr fuel s st with
    | none =>
      rw [for_columns_succ_none hr] at hfin
      simp at hfin
    | some r =>
      rw [for_columns_succ_some hr] at hfin ⊢
      rw [for_columns_succ_some hr]
      exact ih b (s + 1) r.1 hfin

/-- Over any stretch of columns both maps are extended at their end only. -/
theorem for_columns_prefix {fuel : Nat} : ∀ (n i : Nat) (st : State B),
    st.pivot_column_index <+: (for_columns dcg dim cofaces ctr fuel n i st).1.pivot_column_index ∧
      st.recorded_wc <+: (for_columns dcg dim cofaces ctr fuel n i st).1.recorded_wc := by
  intro n
  induction n with
  | zero => intro i st; exact ⟨List.prefix_refl _, List.prefix_refl _⟩
  | succ n ih =>
    intro i st
    unfold for_columns
    cases hr : reduce_column dcg dim cofaces ctr fuel i st with
    | none => exact ⟨List.prefix_refl _, List.prefix_refl _⟩
    | some r =>
      obtain ⟨st2, l2⟩ := r
      obtain ⟨h1, h2⟩ := reduce_column_frame hr
      obtain ⟨h3, h4⟩ := ih (i + 1) st2
      constructor
      · refine List.IsPrefix.trans ?_ h3
        rcases h1 with h1 | ⟨k, h1⟩
        · rw [h1]
        · rw [h1]; exact List.prefix_append _ _
      · refine List.IsPrefix.trans ?_ h4
        rcases h2 with h2 | ⟨q, h2⟩
        · rw [h2]
        · rw [h2]; exact List.prefix_append _ _

end Frame

/-- C20: processing a column leaves earlier state untouched. `compute_pairs_main` starts from an
empty pivot index and an empty `recorded_wc`; a completed column `i` keeps every entry of both
maps as it is and adds at most one entry to the pivot index (with value `i`) and at most one to
`recorded_wc` (with key `i`); a column that is not completed writes nothing; so over any stretch
of the run, and over the whole run, both maps are only extended. -/
theorem maps_grow_monotonically (cp : ComputePairs B)
    (cofaces : BirthdayIndex B → List (BirthdayIndex B)) (ctr : List (BirthdayIndex B))
    (fuel : Nat) :
    ((column_entry cp cofaces ctr fuel 0).1.pivot_column_index = [] ∧
      (column_entry cp cofaces ctr fuel 0).1.recorded_wc = []) ∧
    (∀ (i : Nat) (st st2 : State B) (l2 : Locals B),
      reduce_column cp.dcg cp.dim cofaces ctr fuel i st = some (st2, l2) →
        (st2.pivot_column_index = st.pivot_column_index ∨
          ∃ k, st2.pivot_column_index = st.pivot_column_index ++ [(k, i)]) ∧
        (st2.recorded_wc = st.recorded_wc ∨
          ∃ q, st2.recorded_wc = st.recorded_wc ++ [(i, q)])) ∧
    (∀ (n i : Nat) (st : State B),
      reduce_column cp.dcg cp.dim cofaces ctr fuel i st = none →
        for_columns cp.dcg cp.dim cofaces ctr fuel (n + 1) i st = (st, false)) ∧
    (∀ (n i : Nat) (st : State B),
      st.pivot_column_index <+:
          (for_columns cp.dcg cp.dim cofaces ctr fuel n i st).1.pivot_column_index ∧
        st.recorded_wc <+:
          (for_columns cp.dcg cp.dim cofaces ctr fuel n i st).1.recorded_wc) ∧
    ∀ i : Nat, i ≤ ctr.length → (column_entry cp cofaces ctr fuel i).2 = true →
      (column_entry cp cofaces ctr fuel i).1.pivot_column_index <+:
          (compute_pairs_main cp cofaces ctr fuel).1.pivot_column_index ∧
        (column_entry cp cofaces ctr fuel i).1.recorded_wc <+:
          (compute_pairs_main cp cofaces ctr fuel).1.recorded_wc := by
  refine ⟨⟨rfl, rfl⟩, fun i st st2 l2 h => reduce_column_frame h, ?_,
    fun n i st => for_columns_prefix n i st, ?_⟩
  · intro n i st h
    exact for_columns_succ_none h
  · intro i hi hreach
    have hsplit : compute_pairs_main cp cofaces ctr fuel =
        for_columns cp.dcg cp.dim cofaces ctr fuel (ctr.length - i) i
          (column_entry cp cofaces ctr fuel i).1 := by
      have := @for_columns_add B _ _ cp.dcg cp.dim cofaces ctr fuel i (ctr.length - i) 0
        (initial_state cp) hreach
      have e3 : i + (ctr.length - i) = ctr.length := by omega
      rw [e3, Nat.zero_add] at this
      exact this
    rw [hsplit]
    exact for_columns_prefix _ _ _

/-! ## More on the maps and on the scan -/

theorem map_find_eq_none_of_keys {K V : Type} [DecidableEq K] {m : List (K × V)} {k : K}
    (h : ∀ e ∈ m, e.1 ≠ k) : map_find m k = none := by
  unfold map_find
  rw [Option.map_eq_none', List.find?_eq_none]
  intro e he
  simpa using h e he

theorem map_find_append {K V : Type} [DecidableEq K] (m : List (K × V)) (k k2 : K) (v : V) :
    map_find (m ++ [(k, v)]) k2 =
      match map_find m k2 with
      | some x => some x
      | none => if k = k2 then some v else none := by
  unfold map_find
  rw [List.find?_append]
  cases h : List.find? (fun e => decide (e.1 = k2)) m with
  | some e => simp
  | none =>
    by_cases hk : k = k2
    · simp [hk]
    · simp [hk]

theorem map_find_append_ne_none {K V : Type} [DecidableEq K] {m : List (K × V)} {k k2 : K}
    {v : V} (h : map_find m k2 ≠ none) : map_find (m ++ [(k, v)]) k2 ≠ none := by
  rw [map_find_append]
  cases hm : map_find m k2 with
  | none => exact absurd hm h
  | some x => simp

theorem map_find_append_self {K V : Type} [DecidableEq K] (m : List (K × V)) (k : K) (v : V) :
    map_find (m ++ [(k, v)]) k ≠ none := by
  rw [map_find_append]
  cases hm : map_find m k with
  | none => simp
  | some x => simp

theorem map_find_append_new {K V : Type} [DecidableEq K] (m : List (K × V)) (k : K) (v : V)
    (h : map_find m k = none) : map_find (m ++ [(k, v)]) k = some v := by
  rw [map_find_append, h]
  simp

/-- When the scan, entered without a pair found, finds one, `might_be_apparent_pair` was set on
entry and the pivot is the first coface born with `ctr[j]`, whose index is not a key. -/
theorem scan_cofaces_found (pci : List (Int × Nat)) (ctrj : BirthdayIndex B) :
    ∀ (cs : List (BirthdayIndex B)) (s : Scan B), s.found_persistence_pair = false →
      (scan_cofaces pci ctrj cs s).found_persistence_pair = true →
      s.might_be_apparent_pair = true ∧
      cs.find? (fun e => decide (ctrj.birthday = e.birthday)) =
        some (scan_cofaces pci ctrj cs s).pivot ∧
      map_find pci (scan_cofaces pci ctrj cs s).pivot.index = none := by
  intro cs
  induction cs with
  | nil =>
    intro s hf h
    simp only [scan_cofaces] at h
    rw [hf] at h
    cases h
  | cons x xs ih =>
    intro s hf h
    unfold scan_cofaces at h ⊢
    simp only [hf, Bool.false_eq_true, if_false] at h ⊢
    by_cases hm : s.might_be_apparent_pair = true
    · by_cases hx : ctrj.birthday = x.birthday
      · have hd : decide (ctrj.birthday = x.birthday) = true := by simpa using hx
        simp only [hm, hd, Bool.and_self, if_true] at h ⊢
        by_cases hn : (map_find pci x.index).isNone = true
        · rw [if_pos hn] at h ⊢
          rw [scan_cofaces_of_found _ _ _ _ rfl]
          refine ⟨trivial, ?_, ?_⟩
          · rw [List.find?_cons_of_pos _ (by simpa using hx)]
          · simpa [Option.isNone_iff_eq_none] using hn
        · rw [if_neg hn] at h
          have := ih ⟨s.coface_entries ++ [x], s.pivot, false, false⟩ rfl h
          exact absurd this.1 (by simp)
      · have hd : decide (ctrj.birthday = x.birthday) = false := by simpa using hx
        simp only [hm, hd, Bool.and_false, Bool.false_eq_true, if_false] at h ⊢
        obtain ⟨_, h2, h3⟩ := ih ⟨s.coface_entries ++ [x], s.pivot, true, false⟩ rfl h
        refine ⟨trivial, ?_, h3⟩
        rw [List.find?_cons_of_neg _ (by simpa using hx)]
        exact h2
    · have hm2 : s.might_be_apparent_pair = false := by simpa using hm
      simp only [hm2, Bool.false_and, Bool.false_eq_true, if_false] at h ⊢
      have := ih ⟨s.coface_entries ++ [x], s.pivot, false, false⟩ rfl h
      exact absurd this.1 (by simp)

theorem scan_column_found {cofaces : BirthdayIndex B → List (BirthdayIndex B)}
    {ctr : List (BirthdayIndex B)} {st : State B} {l : Locals B}
    (hl : l.found_persistence_pair = false)
    (h : (scan_column cofaces ctr st l).found_persistence_pair = true) :
    l.might_be_apparent_pair = true ∧
      first_born_with cofaces (ctr.getD l.j NONE) = some (scan_column cofaces ctr st l).pivot ∧
      map_find st.pivot_column_index (scan_column cofaces ctr st l).pivot.index = none :=
  scan_cofaces_found st.pivot_column_index (ctr.getD l.j NONE) (cofaces (ctr.getD l.j NONE))
    ⟨[], l.pivot, l.might_be_apparent_pair, l.found_persistence_pair⟩ hl h

/-- The scan finds nothing when the first coface born with `ctr[j]`, if there is one, is a key of
the pivot index already. -/
theorem scan_column_not_found {cofaces : BirthdayIndex B → List (BirthdayIndex B)}
    {ctr : List (BirthdayIndex B)} {st : State B} {l : Locals B}
    (hl : l.found_persistence_pair = false)
    (hclaimed : ∀ c, first_born_with cofaces (ctr.getD l.j NONE) = some c →
      map_find st.pivot_column_index c.index ≠ none) :
    (scan_column cofaces ctr st l).found_persistence_pair = false := by
  by_contra hne
  have hf : (scan_column cofaces ctr st l).found_persistence_pair = true := by simpa using hne
  obtain ⟨_, h2, h3⟩ := scan_column_found hl hf
  exact hclaimed _ h2 h3

/-- When the scan of the first pass finds nothing, the first coface born with the column, if there
is one, is a key of the pivot index. -/
theorem scan_first_pass_not_found {cofaces : BirthdayIndex B → List (BirthdayIndex B)}
    {ctr : List (BirthdayIndex B)} {st : State B} {i : Nat}
    (h : (scan_column cofaces ctr st (initial_locals i)).found_persistence_pair = false) :
    ∀ c, first_born_with cofaces (ctr.getD i NONE) = some c →
      map_find st.pivot_column_index c.index ≠ none := by
  intro c hc hnone
  have := (scan_cofaces_first st.pivot_column_index (ctr.getD i NONE) c
    (cofaces (ctr.getD i NONE)) ⟨[], NONE, true, false⟩ rfl rfl hc hnone).1
  have h2 : (scan_column cofaces ctr st (initial_locals i)).found_persistence_pair = true := this
  rw [h] at h2
  cases h2

/-! ## Columns over Z/2 -/

theorem index_count_perm {idx : Int} {l1 l2 : List (BirthdayIndex B)} (h : l1.Perm l2) :
    index_count idx l1 = index_count idx l2 :=
  h.countP_eq _

theorem index_count_push (idx : Int) (q : PQ B) (e : BirthdayIndex B) :
    index_count idx (q.push e).data = index_count idx (e :: q.data) :=
  index_count_perm (List.perm_orderedInsert _ _ _)

theorem index_count_pushAll (idx : Int) (es : List (BirthdayIndex B)) : ∀ q : PQ B,
    index_count idx (q.pushAll es).data = index_count idx q.data + index_count idx es := by
  induction es with
  | nil => intro q; simp [PQ.pushAll, index_count]
  | cons a es ih =>
    intro q
    have : q.pushAll (a :: es) = (q.push a).pushAll es := rfl
    rw [this, ih, index_count_push, index_count_cons, index_count_cons]
    omega

/-- What `get_pivot` does when it returns a cell with an index other than -1: the column splits
into a popped part in which every index occurs an even number of times, the returned cell, and the
rest; the returned cell is put back. -/
theorem get_pivot_of_index_ne (q : PQ B) (h : (get_pivot q).1.index ≠ -1) :
    ∃ pre rest, q.data = pre ++ (get_pivot q).1 :: rest ∧
      (∀ idx, Even (index_count idx pre)) ∧
      (get_pivot q).2.data.Perm ((get_pivot q).1 :: rest) ∧
      (∀ t ∈ rest.head?, t.index ≠ (get_pivot q).1.index) ∧
      (get_pivot q).2.data = rest.orderedInsert QueueOrder (get_pivot q).1 := by
  have hfst : (get_pivot q).1 = (pop_pivot q).1 := by
    unfold get_pivot
    dsimp only
    split_ifs <;> rfl
  have hx : (pop_pivot q).1.index ≠ -1 := hfst ▸ h
  have hsnd : (get_pivot q).2 = (pop_pivot q).2.push (pop_pivot q).1 := by
    unfold get_pivot
    simp [hx]
  rcases pop_pivot_spec q with ⟨h1, _, _⟩ | ⟨pre, h1, h2, h3⟩
  · rw [h1] at hx
    exact absurd rfl hx
  · refine ⟨pre, (pop_pivot q).2.data, by rw [hfst]; exact h1, h2, ?_, by rw [hfst]; exact h3,
      by rw [hsnd, hfst]; rfl⟩
    rw [hsnd, hfst]
    exact List.perm_orderedInsert _ _ _

/-- `get_pivot` keeps the column over Z/2 when it returns a cell with an index other than -1. -/
theorem get_pivot_parity (q : PQ B) (h : (get_pivot q).1.index ≠ -1) (idx : Int) :
    (index_count idx (get_pivot q).2.data : ZMod 2) = (index_count idx q.data : ZMod 2) := by
  obtain ⟨pre, rest, h1, h2, h3, _, _⟩ := get_pivot_of_index_ne q h
  rw [index_count_perm h3]
  conv_rhs => rw [h1]
  rw [index_count_append, Nat.cast_add, ZMod.eq_zero_iff_even.2 (h2 idx), zero_add]

theorem get_pivot_fst_mem (q : PQ B) (h : (get_pivot q).1.index ≠ -1) :
    (get_pivot q).1 ∈ (get_pivot q).2.data := by
  obtain ⟨pre, rest, _, _, h3, _, _⟩ := get_pivot_of_index_ne q h
  exact h3.symm.subset (List.mem_cons_self _ _)

theorem isCombination_single {cofaces : BirthdayIndex B → List (BirthdayIndex B)}
    {ctr : List (BirthdayIndex B)} {j : Nat} (hj : j < ctr.length)
    {col : List (BirthdayIndex B)}
    (hcol : ∀ idx, index_count idx col = index_count idx (cofaces (ctr.getD j NONE))) :
    IsCombination cofaces ctr j col := by
  refine ⟨fun k => if k = j then 1 else 0, by simp, ?_, ?_⟩
  · intro k hk
    have : k ≠ j := by omega
    simp [this]
  · intro idx
    rw [hcol idx, Finset.sum_eq_single j]
    · simp
    · intro k _ hk
      simp [hk]
    · intro hn
      exact absurd (Finset.mem_range.2 hj) hn

theorem isCombination_add {cofaces : BirthdayIndex B → List (BirthdayIndex B)}
    {ctr : List (BirthdayIndex B)} {i j : Nat} (hji : j < i)
    {a x w : List (BirthdayIndex B)} (ha : IsCombination cofaces ctr i a)
    (hx : IsCombination cofaces ctr j x)
    (hw : ∀ idx, index_count idx w = index_count idx a + index_count idx x) :
    IsCombination cofaces ctr i w := by
  obtain ⟨c1, h1, h2, h3⟩ := ha
  obtain ⟨c2, g1, g2, g3⟩ := hx
  refine ⟨fun k => c1 k + c2 k, ?_, ?_, ?_⟩
  · show c1 i + c2 i = 1
    rw [h1, g2 i hji, add_zero]
  · intro k hk
    show c1 k + c2 k = 0
    rw [h2 k hk, g2 k (lt_trans hji hk), add_zero]
  · intro idx
    rw [hw idx, Nat.cast_add, h3 idx, g3 idx, ← Finset.sum_add_distrib]
    refine Finset.sum_congr rfl fun k _ => ?_
    ring

theorem isCombination_congr {cofaces : BirthdayIndex B → List (BirthdayIndex B)}
    {ctr : List (BirthdayIndex B)} {i : Nat} {a w : List (BirthdayIndex B)}
    (ha : IsCombination cofaces ctr i a)
    (hw : ∀ idx, (index_count idx w : ZMod 2) = (index_count idx a : ZMod 2)) :
    IsCombination cofaces ctr i w := by
  obtain ⟨c1, h1, h2, h3⟩ := ha
  exact ⟨c1, h1, h2, fun idx => (hw idx).trans (h3 idx)⟩

/-! ## The invariants of the reduction -/

section Invariants

variable {dcg : DenseCubicalGrids B} {dim : Int}
  {cofaces : BirthdayIndex B → List (BirthdayIndex B)} {ctr : List (BirthdayIndex B)}

theorem mem_all_cofaces {j : Nat} (hj : j < ctr.length) {e : BirthdayIndex B}
    (he : e ∈ cofaces (ctr.getD j NONE)) : e ∈ all_cofaces cofaces ctr :=
  List.mem_flatMap.2 ⟨_, getD_mem ctr hj, he⟩

/-- In a pass for an earlier column `j` the scan finds nothing. -/
theorem pass_scan_later {i : Nat} {st : State B} (hinv : EntryInv cofaces ctr i st)
    {l : Locals B} (hl : l.found_persistence_pair = false) (hj : l.j < i) :
    (scan_column cofaces ctr st l).found_persistence_pair = false :=
  scan_column_not_found hl (hinv.2.2 l.j hj)

theorem pass_first_claimed {i : Nat} {st : State B} {l : Locals B}
    (hl : PassInv cofaces ctr i st l)
    (hscan : (scan_column cofaces ctr st l).found_persistence_pair = false) :
    ∀ c, first_born_with cofaces (ctr.getD i NONE) = some c →
      map_find st.pivot_column_index c.index ≠ none := by
  rcases hl.2 with h | h
  · rw [h] at hscan
    exact scan_first_pass_not_found hscan
  · exact h.2.2.2.2.2.2

/-- The working coboundary handed to `get_pivot` holds only delivered cofaces and is, over Z/2,
a sum of coface lists of columns up to `i` with column `i` among them. -/
theorem pass_working {i : Nat} (hi : i < ctr.length) {st : State B}
    (hinv : EntryInv cofaces ctr i st) {l : Locals B} (hl : PassInv cofaces ctr i st l)
    (hscan : (scan_column cofaces ctr st l).found_persistence_pair = false) :
    (∀ e ∈ (extend_working st l (scan_column cofaces ctr st l).coface_entries).data,
        e ∈ all_cofaces cofaces ctr) ∧
      IsCombination cofaces ctr i
        (extend_working st l (scan_column cofaces ctr st l).coface_entries).data := by
  have hent : (scan_column cofaces ctr st l).coface_entries = cofaces (ctr.getD l.j NONE) := by
    rcases scan_column_spec cofaces ctr st l hl.1 with ⟨hf, _⟩ | ⟨_, h⟩
    · rw [hf] at hscan; cases hscan
    · exact h
  rw [hent]
  rcases hl.2 with h | ⟨hj, hmem, hcomb, _, _, _, _⟩
  · subst h
    have hnone : map_find st.recorded_wc i = none :=
      map_find_eq_none_of_keys (fun e he => ne_of_lt (hinv.2.1 e he).1)
    have hw : extend_working st (initial_locals i) (cofaces (ctr.getD i NONE)) =
        PQ.nil.pushAll (cofaces (ctr.getD i NONE)) := by
      unfold extend_working
      simp only [initial_locals]
      rw [hnone]
    have hj : (initial_locals i : Locals B).j = i := rfl
    rw [hj, hw]
    constructor
    · intro e he
      rcases (mem_pushAll _ _ _).1 he with h1 | h1
      · simp [PQ.nil] at h1
      · exact mem_all_cofaces hi h1
    · refine isCombination_single hi fun idx => ?_
      rw [index_count_pushAll]
      simp [PQ.nil, index_count]
  · have hjl : l.j < ctr.length := lt_trans hj hi
    cases hm : map_find st.recorded_wc l.j with
    | none =>
      have hw : extend_working st l (cofaces (ctr.getD l.j NONE)) =
          l.working_coboundary.pushAll (cofaces (ctr.getD l.j NONE)) := by
        unfold extend_working
        rw [hm]
      rw [hw]
      constructor
      · intro e he
        rcases (mem_pushAll _ _ _).1 he with h1 | h1
        · exact hmem e h1
        · exact mem_all_cofaces hjl h1
      · exact isCombination_add hj hcomb (isCombination_single hjl fun _ => rfl)
          (fun idx => index_count_pushAll idx _ _)
    | some wc =>
      have hw : extend_working st l (cofaces (ctr.getD l.j NONE)) =
          l.working_coboundary.pushAll wc.data := by
        unfold extend_working
        rw [hm]
      obtain ⟨_, hwcmem, hwccomb⟩ := hinv.2.1 _ (map_find_some_mem hm)
      rw [hw]
      constructor
      · intro e he
        rcases (mem_pushAll _ _ _).1 he with h1 | h1
        · exact hmem e h1
        · exact hwcmem e h1
      · exact isCombination_add hj hcomb hwccomb (fun idx => index_count_pushAll idx _ _)

/-- A pass that ends with `continue` hands over local variables with the pass invariant. -/
theorem passInv_again {i : Nat} (hi : i < ctr.length) {st : State B}
    (hinv : EntryInv cofaces ctr i st) (l l2 : Locals B) (hl : PassInv cofaces ctr i st l)
    (h : do_body dcg dim cofaces ctr i st l = Step.again l2) :
    PassInv cofaces ctr i st l2 := by
  obtain ⟨hscan, hp, hw, _, hf, hidx, hfind⟩ := do_body_again h
  obtain ⟨hmem, hcomb⟩ := pass_working hi hinv hl hscan
  have hidx2 : (get_pivot (extend_working st l
      (scan_column cofaces ctr st l).coface_entries)).1.index ≠ -1 := hp ▸ hidx
  refine ⟨hf, Or.inr ⟨hinv.1 _ (map_find_some_mem hfind), ?_, ?_, hidx, hfind, ?_,
    pass_first_claimed hl hscan⟩⟩
  · intro e he
    rw [hw] at he
    exact hmem e ((get_pivot_mem _).2 e he)
  · rw [hw]
    exact isCombination_congr hcomb (fun idx => get_pivot_parity _ hidx2 idx)
  · rw [hw, hp]
    exact get_pivot_fst_mem _ hidx2

theorem passInv_initial {i : Nat} {st : State B} :
    PassInv cofaces ctr i st (initial_locals i) :=
  ⟨rfl, Or.inl rfl⟩

/-- Every pass of the loop of column `i` begins with the pass invariant. -/
theorem passInv_of_passEntry {i : Nat} (hi : i < ctr.length) {st : State B}
    (hinv : EntryInv cofaces ctr i st) {l : Locals B}
    (h : PassEntry dcg dim cofaces ctr i st l) : PassInv cofaces ctr i st l := by
  induction h with
  | first => exact passInv_initial
  | next _ hb ih => exact passInv_again hi hinv _ _ ih hb

/-- A pass that finds a pair by the scan is the first pass of the column. -/
theorem found_only_first_pass {i : Nat} {st : State B} (hinv : EntryInv cofaces ctr i st)
    {l : Locals B} (hl : PassInv cofaces ctr i st l)
    (hscan : (scan_column cofaces ctr st l).found_persistence_pair = true) :
    l = initial_locals i := by
  rcases hl.2 with h | h
  · exact h
  · have := pass_scan_later hinv hl.1 h.1
    rw [this] at hscan
    cases hscan

/-- A pass that ends with `break` leaves a state with the invariant of the next column. -/
theorem entryInv_exit {i : Nat} (hi : i < ctr.length) {st st2 : State B}
    (hinv : EntryInv cofaces ctr i st) {l l2 : Locals B} (hl : PassInv cofaces ctr i st l)
    (h : do_body dcg dim cofaces ctr i st l = Step.exit st2 l2) :
    EntryInv cofaces ctr (i + 1) st2 := by
  have hold1 : ∀ kv ∈ st.pivot_column_index, kv.2 < i + 1 :=
    fun kv hkv => Nat.lt_succ_of_lt (hinv.1 kv hkv)
  have hold2 : ∀ kw ∈ st.recorded_wc, kw.1 < i + 1 ∧
      (∀ e ∈ kw.2.data, e ∈ all_cofaces cofaces ctr) ∧
      IsCombination cofaces ctr kw.1 kw.2.data :=
    fun kw hkw => ⟨Nat.lt_succ_of_lt (hinv.2.1 kw hkw).1, (hinv.2.1 kw hkw).2⟩
  have hins : ∀ k, ∀ kv ∈ map_insert st.pivot_column_index k i, kv.2 < i + 1 := by
    intro k kv hkv
    rcases mem_map_insert hkv with h1 | h1
    · exact hold1 kv h1
    · rw [h1]; exact Nat.lt_succ_self i
  have hclaim : ∀ k, (∀ c, first_born_with cofaces (ctr.getD i NONE) = some c →
      map_find (map_insert st.pivot_column_index k i) c.index ≠ none) →
      ∀ j, j < i + 1 → ∀ c, first_born_with cofaces (ctr.getD j NONE) = some c →
        map_find (map_insert st.pivot_column_index k i) c.index ≠ none := by
    intro k hnew j hj c hc
    rcases Nat.lt_succ_iff_lt_or_eq.1 hj with hlt | rfl
    · have hold := hinv.2.2 j hlt c hc
      rcases map_insert_prefix st.pivot_column_index k i with h1 | h1
      · rw [h1]; exact hold
      · rw [h1]; exact map_find_append_ne_none hold
    · exact hnew c hc
  have hkeep : ∀ k, ∀ c, map_find st.pivot_column_index c ≠ none →
      map_find (map_insert st.pivot_column_index k i) c ≠ none := by
    intro k c hc
    rcases map_insert_prefix st.pivot_column_index k i with h1 | h1
    · rw [h1]; exact hc
    · rw [h1]; exact map_find_append_ne_none hc
  rcases do_body_exit h with ⟨hs, _, hp, _, _, hpci, hrec, _⟩ |
    ⟨hs, _, hp, hw, _, hidx, hnone, hpci, hrec, _⟩ | ⟨hs, _, _, _, _, _, hpci, hrec, _⟩
  · have hfirst := found_only_first_pass hinv hl hs
    subst hfirst
    obtain ⟨_, hfb, hnew⟩ := scan_column_found rfl hs
    refine ⟨by rw [hpci]; exact hins _, by rw [hrec]; exact hold2, ?_⟩
    rw [hpci]
    refine hclaim _ ?_
    intro c hc
    have hcp : c = l2.pivot := by
      have hj : (initial_locals i : Locals B).j = i := rfl
      rw [hj, hc] at hfb
      rw [hp]
      exact Option.some.inj hfb
    rw [hcp]
    rcases map_insert_eq_or st.pivot_column_index l2.pivot.index i with ⟨_, h1⟩ | ⟨_, h1⟩
    · exact absurd (hp ▸ hnew) h1
    · rw [h1]; exact map_find_append_self _ _ _
  · obtain ⟨hmem, hcomb⟩ := pass_working hi hinv hl hs
    have hidx2 : (get_pivot (extend_working st l
        (scan_column cofaces ctr st l).coface_entries)).1.index ≠ -1 := hp ▸ hidx
    refine ⟨by rw [hpci]; exact hins _, ?_, ?_⟩
    · rw [hrec]
      intro kw hkw
      rcases mem_map_insert hkw with h1 | h1
      · exact hold2 kw h1
      · rw [h1]
        refine ⟨Nat.lt_succ_self i, ?_, ?_⟩
        · intro e he
          rw [hw] at he
          exact hmem e ((get_pivot_mem _).2 e he)
        · show IsCombination cofaces ctr i l2.working_coboundary.data
          rw [hw]
          exact isCombination_congr hcomb (fun idx => get_pivot_parity _ hidx2 idx)
    · rw [hpci]
      exact hclaim _ (fun c hc => hkeep _ _ (pass_first_claimed hl hs c hc))
  · refine ⟨by rw [hpci]; exact hold1, by rw [hrec]; exact hold2, ?_⟩
    rw [hpci]
    intro j hj c hc
    rcases Nat.lt_succ_iff_lt_or_eq.1 hj with hlt | rfl
    · exact hinv.2.2 j hlt c hc
    · exact pass_first_claimed hl hs c hc

/-- The pass at which the loop of column `i` breaks begins with the pass invariant, and is a pass
of the loop. -/
theorem reduce_column_exit_inv {fuel i : Nat} (hi : i < ctr.length) {st st2 : State B}
    (hinv : EntryInv cofaces ctr i st) {l2 : Locals B}
    (h : reduce_column dcg dim cofaces ctr fuel i st = some (st2, l2)) :
    ∃ l0, (PassInv cofaces ctr i st l0 ∧ PassEntry dcg dim cofaces ctr i st l0) ∧
      do_body dcg dim cofaces ctr i st l0 = Step.exit st2 l2 :=
  column_loop_exit
    (fun l => PassInv cofaces ctr i st l ∧ PassEntry dcg dim cofaces ctr i st l)
    (fun l l3 hl hb => ⟨passInv_again hi hinv l l3 hl.1 hb, PassEntry.next hl.2 hb⟩)
    fuel (initial_locals i) ⟨passInv_initial, PassEntry.first⟩ st2 l2 h

theorem entryInv_initial (cp : ComputePairs B) : EntryInv cofaces ctr 0 (initial_state cp) :=
  ⟨by simp [initial_state], by simp [initial_state], fun j hj => absurd hj (Nat.not_lt_zero j)⟩

/-- The state in which a column is entered has the invariant of that column. -/
theorem entryInv_column_entry (cp : ComputePairs B) (fuel i : Nat) (hi : i ≤ ctr.length)
    (hreach : (column_entry cp cofaces ctr fuel i).2 = true) :
    EntryInv cofaces ctr i (column_entry cp cofaces ctr fuel i).1 := by
  have key := @for_columns_invariant B _ _ cp.dcg cp.dim cofaces ctr fuel
    (fun n st => EntryInv cofaces ctr n st)
    (by
      intro n st st2 l2 hn hinv h
      obtain ⟨l0, ⟨hl0, _⟩, hb⟩ := reduce_column_exit_inv hn hinv h
      exact entryInv_exit hn hinv hl0 hb)
    i 0 (initial_state cp) (by omega) (entryInv_initial cp)
  obtain ⟨k, _, hk, hfin⟩ := key
  have hki : k = i := hfin hreach
  rw [hki, Nat.zero_add] at hk
  exact hk

/-- The final state of the run has the invariant of the column it stopped at. -/
theorem entryInv_final (cp : ComputePairs B) (fuel : Nat) :
    ∃ k, k ≤ ctr.length ∧ EntryInv cofaces ctr k (compute_pairs_main cp cofaces ctr fuel).1 := by
  have key := @for_columns_invariant B _ _ cp.dcg cp.dim cofaces ctr fuel
    (fun n st => EntryInv cofaces ctr n st)
    (by
      intro n st st2 l2 hn hinv h
      obtain ⟨l0, ⟨hl0, _⟩, hb⟩ := reduce_column_exit_inv hn hinv h
      exact entryInv_exit hn hinv hl0 hb)
    ctr.length 0 (initial_state cp) (by omega) (entryInv_initial cp)
  obtain ⟨k, hk1, hk, _⟩ := key
  rw [Nat.zero_add] at hk
  exact ⟨k, hk1, hk⟩

end Invariants

/-! ## The apparent-pair branch -/

/-- C19: the apparent-pair branch fires only in the first pass of a column. Whenever the run
reaches column `i` and the scan of some pass of its loop sets `found_persistence_pair`, that pass
is the first one, so `j = i`; the pivot the scan chose has the birth of `ctr[i]`; and the pass
leaves the loop without appending a pair to the output. -/
theorem apparent_branch_only_first_pass (cp : ComputePairs B)
    (cofaces : BirthdayIndex B → List (BirthdayIndex B)) (ctr : List (BirthdayIndex B))
    (fuel i : Nat) (hi : i < ctr.length)
    (hreach : (column_entry cp cofaces ctr fuel i).2 = true) (l : Locals B)
    (hpass : PassEntry cp.dcg cp.dim cofaces ctr i (column_entry cp cofaces ctr fuel i).1 l)
    (hfound : (scan_column cofaces ctr (column_entry cp cofaces ctr fuel i).1 l
      ).found_persistence_pair = true) :
    l.j = i ∧ l = initial_locals i ∧
      (scan_column cofaces ctr (column_entry cp cofaces ctr fuel i).1 l).pivot.birthday =
        (ctr.getD i NONE).birthday ∧
      ∃ st2 l2, do_body cp.dcg cp.dim cofaces ctr i (column_entry cp cofaces ctr fuel i).1 l =
          Step.exit st2 l2 ∧ l2.found_persistence_pair = true ∧ l2.j = i ∧
        st2.wp = (column_entry cp cofaces ctr fuel i).1.wp := by
  have hinv := entryInv_column_entry cp fuel i (le_of_lt hi) hreach
  have hl := passInv_of_passEntry hi hinv hpass
  have hfirst := found_only_first_pass hinv hl hfound
  have hj : l.j = i := by rw [hfirst]; rfl
  obtain ⟨_, hfb, _⟩ := scan_column_found hl.1 hfound
  have hbirth : (ctr.getD i NONE).birthday =
      (scan_column cofaces ctr (column_entry cp cofaces ctr fuel i).1 l).pivot.birthday := by
    rw [hj] at hfb
    simpa using List.find?_some hfb
  refine ⟨hj, hfirst, hbirth.symm, ?_⟩
  unfold do_body
  dsimp only
  rw [if_pos hfound, if_neg (by simpa using hbirth)]
  exact ⟨_, _, rfl, hfound, hj, rfl⟩

/-- C19 on the first column of the two-column example: its scan finds the coface 20 in the first
pass. -/
theorem apparent_branch_only_first_pass_witness :
    (initial_locals 0 : Locals Int).j = 0 ∧ (initial_locals 0 : Locals Int) = initial_locals 0 ∧
      (scan_column shared_cofaces shared_columns
        (column_entry ⟨grid3, 1, [], []⟩ shared_cofaces shared_columns 1 0).1
        (initial_locals 0)).pivot.birthday = (shared_columns.getD 0 NONE).birthday ∧
      ∃ st2 l2, do_body grid3 1 shared_cofaces shared_columns 0
          (column_entry ⟨grid3, 1, [], []⟩ shared_cofaces shared_columns 1 0).1
          (initial_locals 0) = Step.exit st2 l2 ∧ l2.found_persistence_pair = true ∧ l2.j = 0 ∧
        st2.wp = (column_entry ⟨grid3, 1, [], []⟩ shared_cofaces shared_columns 1 0).1.wp :=
  apparent_branch_only_first_pass ⟨grid3, 1, [], []⟩ shared_cofaces shared_columns 1 0
    (by decide) rfl (initial_locals 0) PassEntry.first (by decide)

/-! ## The working coboundary as a Z/2 column -/

/-- C16: whenever the run reaches column `i` and a pass of its loop calls `get_pivot`, the working
coboundary handed to it is, counting every cell index modulo 2, the sum of the coface list of
`ctr[i]` and the coface lists of a set of earlier columns; the queue a pass saves for column `i`
is, modulo 2, the working coboundary that pass handed to `get_pivot`; every queue saved in
`recorded_wc` when column `i` is entered is saved for an earlier column `k` and is such a sum for
`k`, with `ctr[k]` among the summands; and the same holds of every queue saved in the final
state. -/
theorem working_coboundary_is_combination (cp : ComputePairs B)
    (cofaces : BirthdayIndex B → List (BirthdayIndex B)) (ctr : List (BirthdayIndex B))
    (fuel i : Nat) (hi : i < ctr.length)
    (hreach : (column_entry cp cofaces ctr fuel i).2 = true) :
    (∀ l, PassEntry cp.dcg cp.dim cofaces ctr i (column_entry cp cofaces ctr fuel i).1 l →
      (scan_column cofaces ctr (column_entry cp cofaces ctr fuel i).1 l
        ).found_persistence_pair = false →
      IsCombination cofaces ctr i
        (extend_working (column_entry cp cofaces ctr fuel i).1 l
          (scan_column cofaces ctr (column_entry cp cofaces ctr fuel i).1 l
            ).coface_entries).data) ∧
    (∀ l st2 l2, PassEntry cp.dcg cp.dim cofaces ctr i (column_entry cp cofaces ctr fuel i).1 l →
      do_body cp.dcg cp.dim cofaces ctr i (column_entry cp cofaces ctr fuel i).1 l =
        Step.exit st2 l2 →
      l2.found_persistence_pair = false → l2.pivot.index ≠ -1 →
      map_find st2.recorded_wc i = some l2.working_coboundary ∧
      ∀ idx : Int, (index_count idx l2.working_coboundary.data : ZMod 2) =
        (index_count idx (extend_working (column_entry cp cofaces ctr fuel i).1 l
          (scan_column cofaces ctr (column_entry cp cofaces ctr fuel i).1 l
            ).coface_entries).data : ZMod 2)) ∧
    (∀ k wc, map_find (column_entry cp cofaces ctr fuel i).1.recorded_wc k = some wc →
      k < i ∧ IsCombination cofaces ctr k wc.data) ∧
    (∀ k wc, map_find (compute_pairs_main cp cofaces ctr fuel).1.recorded_wc k = some wc →
      k < ctr.length ∧ IsCombination cofaces ctr k wc.data) := by
  have hinv := entryInv_column_entry cp fuel i (le_of_lt hi) hreach
  refine ⟨?_, ?_, ?_, ?_⟩
  · intro l hpass hscan
    exact (pass_working hi hinv (passInv_of_passEntry hi hinv hpass) hscan).2
  · intro l st2 l2 _ hb hfound hidx
    have hnone : map_find (column_entry cp cofaces ctr fuel i).1.recorded_wc i = none :=
      map_find_eq_none_of_keys (fun e he => ne_of_lt (hinv.2.1 e he).1)
    rcases do_body_exit hb with ⟨_, hf, _⟩ | ⟨_, _, hp, hw, _, _, _, _, hrec, _⟩ |
      ⟨_, _, _, _, _, hm, _⟩
    · rw [hf] at hfound; cases hfound
    · constructor
      · rw [hrec]
        rcases map_insert_eq_or (column_entry cp cofaces ctr fuel i).1.recorded_wc i
          l2.working_coboundary with ⟨_, h1⟩ | ⟨_, h1⟩
        · exact absurd hnone h1
        · rw [h1]; exact map_find_append_new _ _ _ hnone
      · intro idx
        rw [hw]
        exact get_pivot_parity _ (hp ▸ hidx) idx
    · exact absurd hm hidx
  · intro k wc h
    have := hinv.2.1 _ (map_find_some_mem h)
    exact ⟨this.1, this.2.2⟩
  · intro k wc h
    obtain ⟨n, hn, hfin⟩ := @entryInv_final B _ _ cofaces ctr cp fuel
    have := hfin.2.1 _ (map_find_some_mem h)
    exact ⟨lt_of_lt_of_le this.1 hn, this.2.2⟩

/-- C16 on the second column of the two-column example, which is entered after the first column
claimed the coface 20. -/
theorem working_coboundary_is_combination_witness :
    1 < shared_columns.length ∧
    (column_entry ⟨grid3, 1, [], []⟩ shared_cofaces shared_columns 1 1).2 = true ∧
    (∀ l, PassEntry grid3 1 shared_cofaces shared_columns 1
        (column_entry ⟨grid3, 1, [], []⟩ shared_cofaces shared_columns 1 1).1 l →
      (scan_column shared_cofaces shared_columns
        (column_entry ⟨grid3, 1, [], []⟩ shared_cofaces shared_columns 1 1).1 l
        ).found_persistence_pair = false →
      IsCombination shared_cofaces shared_columns 1
        (extend_working (column_entry ⟨grid3, 1, [], []⟩ shared_cofaces shared_columns 1 1).1 l
          (scan_column shared_cofaces shared_columns
            (column_entry ⟨grid3, 1, [], []⟩ shared_cofaces shared_columns 1 1).1 l
            ).coface_entries).data) ∧
    (∀ l st2 l2, PassEntry grid3 1 shared_cofaces shared_columns 1
        (column_entry ⟨grid3, 1, [], []⟩ shared_cofaces shared_columns 1 1).1 l →
      do_body grid3 1 shared_cofaces shared_columns 1
        (column_entry ⟨grid3, 1, [], []⟩ shared_cofaces shared_columns 1 1).1 l =
        Step.exit st2 l2 →
      l2.found_persistence_pair = false → l2.pivot.index ≠ -1 →
      map_find st2.recorded_wc 1 = some l2.working_coboundary ∧
      ∀ idx : Int, (index_count idx l2.working_coboundary.data : ZMod 2) =
        (index_count idx (extend_working
          (column_entry ⟨grid3, 1, [], []⟩ shared_cofaces shared_columns 1 1).1 l
          (scan_column shared_cofaces shared_columns
            (column_entry ⟨grid3, 1, [], []⟩ shared_cofaces shared_columns 1 1).1 l
            ).coface_entries).data : ZMod 2)) ∧
    (∀ k wc, map_find
        (column_entry ⟨grid3, 1, [], []⟩ shared_cofaces shared_columns 1 1).1.recorded_wc k =
          some wc →
      k < 1 ∧ IsCombination shared_cofaces shared_columns k wc.data) ∧
    (∀ k wc, map_find
        (compute_pairs_main ⟨grid3, 1, [], []⟩ shared_cofaces shared_columns 1).1.recorded_wc k =
          some wc →
      k < shared_columns.length ∧ IsCombination shared_cofaces shared_columns k wc.data) :=
  ⟨by decide, by decide,
    working_coboundary_is_combination ⟨grid3, 1, [], []⟩ shared_cofaces shared_columns 1 1
      (by decide) (by decide)⟩

/-! ## The keyed cell and the reduced column -/

section Termination

variable {dcg : DenseCubicalGrids B} {dim : Int}
  {cofaces : BirthdayIndex B → List (BirthdayIndex B)} {ctr : List (BirthdayIndex B)}

end Termination

/-! ## Totality of the reduction -/

end Theorems

end CubicalRipser
